import Mathlib

/-!
Verification of the mafia-25.09 visit-resolution engine.

The definitions below are a shallow embedding of:
  * `src/nodes.py` (`nodes_in_cycles`, Tarjan's SCC algorithm),
  * `src/mafia/core.py` (the `Visit` data model, `Ability.check`),
  * `src/mafia/normal.py` (the `Resolver` fixed-point algorithm, the
    `roleblock_player` helper, and the ability semantics of
    `Roleblocker`, `Kill`, `ProtectiveAbility`/`Doctor`, `Cop`, and the
    `XShot` modifier).

Players are identified by their index into the game's player list;
Python dictionaries become association lists; the mutable visit history
becomes a list of visit records updated by index; `VisitStatus` values
are integers (PENDING = -1, FAILURE = 0, SUCCESS = 1) exactly as in the
Python `IntEnum`, and statuses can exceed 1 because `Rolestop.perform`
returns its success count.
-/

namespace Mafia

/- ### Cycle detector — `src/nodes.py`

`nodes_in_cycles` builds an adjacency map (`defaultdict(list)`, append
per edge in input order), collects the node set in first-occurrence
order, runs Tarjan's `strongconnect` from every unvisited node, and
returns the union of SCCs of size > 1 together with the singleton SCCs
that carry a self-loop.  Python recursion is unbounded; here
`strongconnect` carries fuel, and `nodes.length + 1` fuel is proved
sufficient below (the nesting depth of `strongconnect` calls is bounded
by the number of nodes, as each nested call indexes a fresh node). -/

variable {α : Type} [DecidableEq α]

/-- Tarjan state: next index, the `indices` and `lowlink` dictionaries,
the stack with its membership set `onstack`, and the completed SCCs. -/
structure TState (α : Type) where
  idx : Nat
  indices : List (α × Nat)
  lowlink : List (α × Nat)
  stack : List α
  onstack : List α
  sccs : List (List α)
deriving DecidableEq

/-- Dictionary read with default (Python `d[v]` on keys known present). -/
def lookupD (l : List (α × Nat)) (v : α) : Nat := (l.lookup v).getD 0

/-- Dictionary write `d[v] = n`, replacing the first binding of `v`. -/
def setA : List (α × Nat) → α → Nat → List (α × Nat)
  | [], v, n => [(v, n)]
  | (k, m) :: rest, v, n =>
    if k = v then (v, n) :: rest else (k, m) :: setA rest v n

/-- The SCC pop loop: pop stack entries until the root `v` is popped,
returning the popped block and the remaining stack. -/
def popScc : List α → α → List α × List α
  | [], _ => ([], [])
  | w :: rest, v =>
    if w = v then ([w], rest)
    else
      let p := popScc rest v
      (w :: p.1, p.2)

/-- Initial Tarjan state. -/
def initT : TState α := ⟨0, [], [], [], [], []⟩

/-- The entry block of `strongconnect`: assign `v` the next index,
initialise its lowlink to it, and push `v` on the stack. -/
def pushT (st : TState α) (v : α) : TState α :=
  { st with
    indices := setA st.indices v st.idx
    lowlink := setA st.lowlink v st.idx
    idx := st.idx + 1
    stack := v :: st.stack
    onstack := v :: st.onstack }

/-- `lowlink[v] = n`. -/
def updLow (st : TState α) (v : α) (n : Nat) : TState α :=
  { st with lowlink := setA st.lowlink v n }

/-- The root block of `strongconnect`: pop the SCC rooted at `v` off
the stack, remove its members from `onstack`, and record it. -/
def popT (st : TState α) (v : α) : TState α :=
  let p := popScc st.stack v
  { st with
    stack := p.2
    onstack := st.onstack.filter (fun x => !(p.1.contains x))
    sccs := st.sccs ++ [p.1] }

mutual

/-- `strongconnect(v)` from `src/nodes.py`: index `v`, push it, fold the
lowlink over its successors, and pop an SCC when `v` is a root.  Fuel
decreases on every (mutual) recursive call, standing in for Python's
unbounded recursion; enough fuel is proved to exist below. -/
def strongconnect (g : α → List α) : Nat → TState α → α → Option (TState α)
  | 0, _, _ => none
  | fuel + 1, st, v =>
    let st1 := pushT st v
    match visitSuccs g fuel st1 v (g v) with
    | none => none
    | some st2 =>
      if lookupD st2.lowlink v = lookupD st2.indices v then some (popT st2 v)
      else some st2

/-- The successor loop of `strongconnect`: tree edges recurse and merge
`lowlink[w]`; edges to on-stack nodes merge `indices[w]`. -/
def visitSuccs (g : α → List α) : Nat → TState α → α → List α → Option (TState α)
  | 0, _, _, _ => none
  | _ + 1, st, _, [] => some st
  | fuel + 1, st, v, w :: ws =>
    if (st.indices.lookup w).isSome then
      let st' :=
        if st.onstack.contains w then
          updLow st v (min (lookupD st.lowlink v) (lookupD st.indices w))
        else st
      visitSuccs g fuel st' v ws
    else
      match strongconnect g fuel st w with
      | none => none
      | some st2 =>
        let st3 := updLow st2 v (min (lookupD st2.lowlink v) (lookupD st2.lowlink w))
        visitSuccs g fuel st3 v ws

end

/-- The driver loop `for v in nodes: if v not in indices: strongconnect(v)`. -/
def tarjanMain (g : α → List α) (fuel : Nat) :
    List α → TState α → Option (TState α)
  | [], st => some st
  | v :: vs, st =>
    if (st.indices.lookup v).isSome then tarjanMain g fuel vs st
    else
      match strongconnect g fuel st v with
      | none => none
      | some st' => tarjanMain g fuel vs st'

/-- Node list of the edge list, in first-occurrence order (the Python
`nodes` set; iteration order of a Python set is arbitrary, and
order-independence of the result is part of claim C5). -/
def buildNodes (edges : List (α × α)) : List α :=
  edges.foldl
    (fun acc e =>
      let acc1 := if acc.contains e.1 then acc else acc ++ [e.1]
      if acc1.contains e.2 then acc1 else acc1 ++ [e.2])
    []

/-- Adjacency of the edge list: successors of `v` in input order
(`graph[u].append(v)` per edge). -/
def adj (edges : List (α × α)) (v : α) : List α :=
  (edges.filter (fun e => e.1 = v)).map (fun e => e.2)

/-- Final filter of `nodes_in_cycles`: an SCC of size > 1 contributes all
its members; a singleton `[u]` contributes `u` iff `u in graph and
u in graph[u]`, i.e. iff the edge `(u, u)` is present. -/
def sccFilter (edges : List (α × α)) (sccs : List (List α)) : List α :=
  sccs.foldl
    (fun acc scc =>
      if 1 < scc.length then acc ++ scc
      else
        match scc with
        | [u] => if (adj edges u).contains u then acc ++ [u] else acc
        | _ => acc)
    []

/-- Sufficient fuel for the mutual recursion: the nesting depth of
`strongconnect`/`visitSuccs` calls is bounded by the number of nodes
times (out-degree bound + 2). -/
def tFuel (edges : List (α × α)) : Nat :=
  ((buildNodes edges).length + 1) * (edges.length + 2)

/-- `nodes_in_cycles` from `src/nodes.py`. -/
def nodes_in_cycles (edges : List (α × α)) : List α :=
  let nodes := buildNodes edges
  match tarjanMain (adj edges) (tFuel edges) nodes initT with
  | none => []
  | some st => sccFilter edges st.sccs

/- ### Data model — `src/mafia/core.py` -/

/-- `core.Phase`. -/
inductive GPhase where
  | day : GPhase
  | night : GPhase
deriving DecidableEq, Repr

/-- `core.AbilityType`. -/
inductive AType where
  | action : AType
  | passive : AType
  | sharedAction : AType
deriving DecidableEq, Repr

/-- The semantics of `perform` for the abilities the claims exercise:
`Roleblocker.Roleblocker`, `Kill`, `ProtectiveAbility` (with
`block_check` = `"kill" in tags`; `Doctor` uses `limit = 1`), and
`InvestigativeAbility` specialised to `Cop`'s message. -/
inductive AKind where
  | roleblock : AKind
  | kill (killer : String) : AKind
  | protect (limit : Option Nat) : AKind
  | copInvestigate : AKind
deriving DecidableEq, Repr

/-- The ability data the resolver reads: `id`, tag set, `target_count`,
phase restriction, `immediate` flag, and the `perform` semantics. -/
structure Abil where
  id : String
  tags : List String
  targetCount : Nat
  phase : Option GPhase
  immediate : Bool
  kind : AKind
deriving DecidableEq, Repr

/-- `core.Visit` (players are indices into the game's player list).
`tags` already holds the union `tags | ability.tags` that
`Visit.__post_init__` computes. -/
structure VisitS where
  actor : Nat
  targets : List Nat
  ability : Abil
  abilityType : AType
  phase : GPhase
  day : Nat
  status : Int
  tags : List String
deriving DecidableEq, Repr

/-- The parts of `core.Player` the claims read: name, alignment tags,
death causes (empty iff alive), per-ability use counters keyed by
ability id, and the private message log as (sender, content) pairs. -/
structure PlayerS where
  name : String
  alignTags : List String
  deathCauses : List String
  uses : List (String × Int)
  messages : List (String × String)
deriving DecidableEq, Repr

/-- `core.Game`: day number, phase index into the phase order, players
and the full visit history. -/
structure GameS where
  dayNo : Nat
  phaseIdx : Nat
  phaseOrder : List GPhase
  players : List PlayerS
  visits : List VisitS
deriving DecidableEq, Repr

def defaultPlayer : PlayerS := ⟨"", [], [], [], []⟩

def defaultVisit : VisitS :=
  ⟨0, [], ⟨"", [], 1, some .night, false, .roleblock⟩, .action, .night, 0, -1, []⟩

/-- `Game.phase`: `phase_order[phase_idx]`. -/
def GameS.phase (g : GameS) : GPhase := g.phaseOrder.getD g.phaseIdx .day

/-- `Visit.is_active`: same phase and day as the game, status PENDING. -/
def isActive (g : GameS) (v : VisitS) : Bool :=
  v.phase == g.phase && v.day == g.dayNo && v.status == -1

/-- `Visit.is_active_time`: `visit.time == game.time` (status ignored). -/
def isActiveTime (g : GameS) (v : VisitS) : Bool :=
  v.day == g.dayNo && v.phase == g.phase

/-- `Player.is_alive`: no death causes recorded. -/
def playerAlive (g : GameS) (p : Nat) : Bool :=
  (g.players.getD p defaultPlayer).deathCauses.isEmpty

/-- Update the player at index `i` (out-of-range updates are no-ops,
which never occurs in the modelled scenarios). -/
def modifyPlayer (g : GameS) (i : Nat) (f : PlayerS → PlayerS) : GameS :=
  { g with players := g.players.set i (f (g.players.getD i defaultPlayer)) }

/-- `Player.kill(cause)`: append the cause (death is append-only). -/
def playerKill (g : GameS) (p : Nat) (cause : String) : GameS :=
  modifyPlayer g p fun pl => { pl with deathCauses := pl.deathCauses ++ [cause] }

/-- `player.uses.setdefault(a, 0); player.uses[a] += amt` keyed by
ability id. -/
def usesUpdate : List (String × Int) → String → Int → List (String × Int)
  | [], key, amt => [(key, amt)]
  | (k, n) :: rest, key, amt =>
    if k == key then (k, n + amt) :: rest else (k, n) :: usesUpdate rest key amt

def bumpUses (g : GameS) (p : Nat) (key : String) (amt : Int) : GameS :=
  modifyPlayer g p fun pl => { pl with uses := usesUpdate pl.uses key amt }

/-- `player.uses.get(ability, 0)` keyed by ability id. -/
def usesOf (g : GameS) (p : Nat) (key : String) : Int :=
  ((g.players.getD p defaultPlayer).uses.lookup key).getD 0

/-- `player.private_messages.send(sender, content)`. -/
def sendPrivate (g : GameS) (p : Nat) (sender content : String) : GameS :=
  modifyPlayer g p fun pl => { pl with messages := pl.messages ++ [(sender, content)] }

/-- `Visit.__post_init__` (`src/mafia/core.py` lines 193-203): when phase
or day is missing they are both taken from the game (a `ValueError`,
modelled as `none`, when no game is given); omitted targets default to
the actor repeated `target_count` times; provided targets are stored
unchanged; visit tags are unioned with the ability tags. -/
def mkVisit (actor : Nat) (targets : Option (List Nat)) (ability : Abil)
    (abilityType : AType) (phase : Option GPhase) (dayNo : Option Nat)
    (game : Option GameS) (tags : List String) : Option VisitS :=
  let time : Option (GPhase × Nat) :=
    match phase, dayNo with
    | some p, some d => some (p, d)
    | _, _ =>
      match game with
      | some g => some (g.phase, g.dayNo)
      | none => none
  time.map fun t =>
    { actor := actor
      targets := targets.getD (List.replicate ability.targetCount actor)
      ability := ability
      abilityType := abilityType
      phase := t.1
      day := t.2
      status := -1
      tags := tags ++ ability.tags }

/-- `Ability.check` (`src/mafia/core.py` lines 123-140): phase matches
(or the ability is phase-agnostic), the actor is alive, and the targets
(when given) are alive and do not include the actor. -/
def abilityCheck (a : Abil) (g : GameS) (actor : Nat)
    (targets : Option (List Nat)) : Bool :=
  (a.phase.isNone || a.phase == some g.phase) && playerAlive g actor &&
    (targets.isNone ||
      ((targets.getD []).all (fun t => playerAlive g t) &&
        !(targets.getD []).contains actor))

/- ### Resolver — `src/mafia/normal.py` -/

/-- `roleblock_player` (`src/mafia/normal.py` lines 81-95): force-fail
every one of the player's non-passive, non-`unstoppable` visits in the
whole history, tagging them `roleblocked`; the source's
`if visit is not None and not True: continue` guard is dead code and
filters nothing.  Returns the game and the `VisitStatus` result
(SUCCESS iff at least one visit matched). -/
def roleblock_player (g : GameS) (p : Nat) : GameS × Int :=
  let hit : VisitS → Bool := fun v =>
    v.actor == p && !(v.abilityType == .passive) && !(v.tags.contains "unstoppable")
  ({ g with
      visits := g.visits.map fun v =>
        if hit v then { v with status := 0, tags := v.tags ++ ["roleblocked"] } else v },
    if g.visits.any hit then 1 else 0)

/-- Does any visit of the whole history target `p`, count as active, and
carry `tag`?  (The `t.get_visitors(game)` + `is_active` + tag pattern.) -/
def hasActiveVisitorTag (g : GameS) (p : Nat) (tag : String) : Bool :=
  g.visits.any fun v => v.targets.contains p && isActive g v && v.tags.contains tag

/-- `Kill.perform` (`src/mafia/normal.py` lines 443-459): PENDING while
the (first) target has an active `protect` visitor and the visit is not
`unstoppable`; otherwise kill the target and succeed. -/
def killPerform (g : GameS) (killer : String) (v : VisitS) : GameS × Int :=
  let target := v.targets.headD v.actor
  if !(v.tags.contains "unstoppable") && hasActiveVisitorTag g target "protect" then
    (g, -1)
  else (playerKill g target killer, 1)

/-- The juggernaut guard opening `Rolestop.perform`: PENDING when some
active visit `t` targeting the target has an actor who is himself
targeted by an active `juggernaut` visit. -/
def rolestopJuggernautPend (g : GameS) (target : Nat) : Bool :=
  g.visits.any fun t =>
    t.targets.contains target && isActive g t &&
      hasActiveVisitorTag g t.actor "juggernaut"

/-- The blocking loop of `Rolestop.perform` with
`ProtectiveAbility.block_check` (`"kill" in tags`): walk the target's
visitors in history order, force-fail each active non-`unstoppable`
`kill` visit, and stop once `limit` blocks succeeded.  Returns the game
and the success count (which `perform` returns as the status). -/
def protectBlockLoop (target : Nat) (limit : Option Nat) (g0 : GameS) :
    GameS × Nat :=
  let r :=
    (List.range g0.visits.length).foldl
      (fun (acc : GameS × Nat × Bool) i =>
        if acc.2.2 then acc
        else
          let g := acc.1
          let v := g.visits.getD i defaultVisit
          if v.targets.contains target && isActive g v &&
              !(v.tags.contains "unstoppable") && v.tags.contains "kill" then
            let g' := { g with visits := g.visits.set i { v with status := 0 } }
            let s := acc.2.1 + 1
            (g', s, match limit with | some l => decide (l ≤ s) | none => false)
          else acc)
      (g0, 0, false)
  (r.1, r.2.1)

/-- `ProtectiveAbility.perform` (`src/mafia/normal.py` lines 569-597,
over `Rolestop.perform` lines 498-543): PENDING while the target has an
active `macho` visitor; then the juggernaut guard; then the blocking
loop.  (The `XShotPrototype` passive branch for `max_blocks` is not
taken by any modelled visit, so `max_blocks = limit`.) -/
def protectPerform (g : GameS) (limit : Option Nat) (v : VisitS) : GameS × Int :=
  let target := v.targets.headD v.actor
  if hasActiveVisitorTag g target "macho" then (g, -1)
  else if rolestopJuggernautPend g target then (g, -1)
  else
    let r := protectBlockLoop target limit g
    (r.1, Int.ofNat r.2)

/-- `Cop.Cop.get_message` and `InvestigativeAbility.perform`
(`src/mafia/normal.py` lines 462-490, 646-668): send the actor the
town/not-town message for the target and succeed. -/
def copPerform (g : GameS) (v : VisitS) : GameS × Int :=
  let target := v.targets.headD v.actor
  let tp := g.players.getD target defaultPlayer
  let msg :=
    if tp.alignTags.contains "town" then tp.name ++ " is aligned with the Town."
    else tp.name ++ " is not aligned with the Town!."
  (sendPrivate g v.actor v.ability.id msg, 1)

/-- `visit.perform(game)` dispatched on the ability's semantics. -/
def visitPerform (g : GameS) (v : VisitS) : GameS × Int :=
  match v.ability.kind with
  | .roleblock => roleblock_player g (v.targets.headD v.actor)
  | .kill killer => killPerform g killer v
  | .protect limit => protectPerform g limit v
  | .copInvestigate => copPerform g v

/-- `Resolver.do_visit` (`src/mafia/normal.py` lines 114-121): perform
the visit, write the returned status into it, and on a resolved passive
add the status to the actor's use counter. -/
def do_visit (g : GameS) (i : Nat) : GameS × Int :=
  match g.visits.get? i with
  | none => (g, 0)
  | some v =>
    let r := visitPerform g v
    let g2 :=
      { r.1 with
        visits := r.1.visits.set i
          { r.1.visits.getD i defaultVisit with status := r.2 } }
    if v.abilityType == .passive && !(r.2 == -1) then
      (bumpUses g2 v.actor v.ability.id r.2, r.2)
    else (g2, r.2)

/-- `Resolver.resolve_visit` (`src/mafia/normal.py` lines 123-172): the
lazy gate, the immediate shortcut, then the commute / unstoppable /
roleblock / rolestop / juggernaut suspension checks, else perform.
`la` is the resolver's `lazy_allowed` flag. -/
def resolve_visit (la : Bool) (g : GameS) (i : Nat) : GameS × Int :=
  match g.visits.get? i with
  | none => (g, 0)
  | some v =>
    if v.tags.contains "lazy" && !la then
      ({ g with visits := g.visits.set i { v with status := 0 } }, 0)
    else if v.ability.immediate then do_visit g i
    else if v.targets.any (fun t => hasActiveVisitorTag g t "commute") then (g, -1)
    else if v.tags.contains "unstoppable" then do_visit g i
    else if !(v.abilityType == .passive) && hasActiveVisitorTag g v.actor "roleblock" then
      (g, -1)
    else if !(v.abilityType == .passive) &&
        v.targets.any (fun t => hasActiveVisitorTag g t "rolestop") then
      (g, -1)
    else if v.tags.contains "roleblock" &&
        v.targets.any (fun t => hasActiveVisitorTag g t "juggernaut") then
      (g, -1)
    else do_visit g i

/-- The sort key of `Resolver.attempt_resolve`: the pair
(`"simultaneous" in tags`, `"unstoppable" in tags`) compared descending. -/
def sortKey (v : VisitS) : Nat :=
  (if v.tags.contains "simultaneous" then 2 else 0) +
    (if v.tags.contains "unstoppable" then 1 else 0)

/-- Visit indices in the order `sorted(game.visits, key=..., reverse=True)`
produces: key descending, original order preserved among equal keys
(Python's sort is stable). -/
def sortedIdx (g : GameS) : List Nat :=
  let idxs := List.range g.visits.length
  let key : Nat → Nat := fun i => sortKey (g.visits.getD i defaultVisit)
  (idxs.filter (fun i => key i == 3)) ++ (idxs.filter (fun i => key i == 2)) ++
    (idxs.filter (fun i => key i == 1)) ++ (idxs.filter (fun i => key i == 0))

/-- The pass of `Resolver.attempt_resolve` over the sorted visits:
skip non-active visits, resolve the rest, and record whether any
resolution came back PENDING (`failed_to_resolve`) and whether any
succeeded (`successfully_resolved`). -/
def resolvePass (la : Bool) (g0 : GameS) : GameS × Bool × Bool :=
  (sortedIdx g0).foldl
    (fun (acc : GameS × Bool × Bool) i =>
      let g := acc.1
      if isActive g (g.visits.getD i defaultVisit) then
        let r := resolve_visit la g i
        if r.2 == -1 then (r.1, true, acc.2.2) else (r.1, acc.2.1, true)
      else acc)
    (g0, false, false)

/-- The actor → target edges of the active `roleblock`-tagged visits
(`Resolver.resolve_cycles` lines 232-235). -/
def roleblockEdges (g : GameS) : List (Nat × Nat) :=
  g.visits.foldl
    (fun acc v =>
      if isActive g v && v.tags.contains "roleblock" then
        acc ++ v.targets.map (fun t => (v.actor, t))
      else acc)
    []

/-- `Resolver.resolve_cycles` (`src/mafia/normal.py` lines 227-241): run
the cycle detector on the roleblock graph and call `roleblock_player`
on every player in a cycle; `successfully_resolved` is set (to `True`)
once per such player, i.e. the call reports progress exactly when the
cycle set is non-empty, whether or not any visit changed. -/
def resolve_cycles (g : GameS) : GameS × Bool :=
  let players := nodes_in_cycles (roleblockEdges g)
  (players.foldl (fun h p => (roleblock_player h p).1) g, !players.isEmpty)

/-- `Resolver.attempt_resolve` (`src/mafia/normal.py` lines 182-205):
one pass; when it only failed, invoke cycle-breaking, raising
(`none`) if that reports no progress; return `failed_to_resolve`. -/
def attempt_resolve (la : Bool) (g : GameS) : Option (GameS × Bool) :=
  let r := resolvePass la g
  if r.2.1 && !r.2.2 then
    let c := resolve_cycles r.1
    if c.2 then some (c.1, r.2.1) else none
  else some (r.1, r.2.1)

/-- Outcome of the `while failed_to_resolve` loop of
`Resolver.resolve_game`: the Python loop has no fuel, so `outOfFuel`
marks non-termination within the given bound. -/
inductive ResolveOut where
  | outOfFuel : ResolveOut
  | deadlock : ResolveOut
  | finished (g : GameS) : ResolveOut
deriving DecidableEq, Repr

/-- The `while failed_to_resolve: failed_to_resolve = attempt_resolve(game)`
loop (one `attempt_resolve` per unit of fuel). -/
def resolveLoop (la : Bool) : Nat → GameS → ResolveOut
  | 0, _ => .outOfFuel
  | fuel + 1, g =>
    match attempt_resolve la g with
    | none => .deadlock
    | some (g', true) => resolveLoop la fuel g'
    | some (g', false) => .finished g'

/-- One step of `Resolver.log_visits`: bump the actor's use counter
when the visit is non-passive and active. -/
def logStep (acc : GameS) (v : VisitS) : GameS :=
  if !(v.abilityType == .passive) && isActive acc v then
    bumpUses acc v.actor v.ability.id 1
  else acc

/-- `Resolver.log_visits` (`src/mafia/normal.py` lines 174-180): for
every active non-passive visit, bump the actor's use counter for the
ability.  (The action-history snapshot is not read by any modelled
code and is omitted.) -/
def log_visits (g : GameS) : GameS :=
  g.visits.foldl logStep g

/-- The immediate pre-pass of `Resolver.resolve_game` (lines 210-212):
`for visit in game.visits: if visit.ability.immediate:
resolve_visit(game, visit)` — the whole history, with no phase, day or
status filter. -/
def immediatePass (la : Bool) (g : GameS) : GameS :=
  (List.range g.visits.length).foldl
    (fun acc i =>
      if (acc.visits.getD i defaultVisit).ability.immediate then
        (resolve_visit la acc i).1
      else acc)
    g

/-- The investigation-failure notice pass of `Resolver.resolve_game`
(lines 216-225). -/
def investigatePass (g : GameS) : GameS :=
  g.visits.foldl
    (fun acc v =>
      if v.tags.contains "investigate" && isActiveTime acc v && v.status == 0 then
        sendPrivate acc v.actor v.ability.id
          "Your ability failed, and you did not recieve a result."
      else acc)
    g

/-- `Resolver.resolve_game` (`src/mafia/normal.py` lines 207-215):
log uses, run the immediate pre-pass, iterate `attempt_resolve`, then
send the investigation-failure notices. -/
def resolve_game (la : Bool) (fuel : Nat) (g : GameS) : ResolveOut :=
  let g2 := immediatePass la (log_visits g)
  match resolveLoop la fuel g2 with
  | .finished g3 => .finished (investigatePass g3)
  | r => r

/-- `Game.advance_phase` (`src/mafia/core.py` lines 837-845): next phase
in the order, wrapping to the next day. -/
def advancePhase (g : GameS) : GameS :=
  if g.phaseOrder.length ≤ g.phaseIdx + 1 then
    { g with phaseIdx := 0, dayNo := g.dayNo + 1 }
  else { g with phaseIdx := g.phaseIdx + 1 }

/-- `Resolver.check_lazy_allowed` (`src/mafia/normal.py` lines 299-307):
set (and return) the lazy-allowed flag to
`sum(bool("town" not in p.alignment.tags) for p in game.players) > 1` —
over all players of the game, dead or alive. -/
def check_lazy_allowed (g : GameS) : Bool :=
  decide (1 < g.players.countP fun p => !(p.alignTags.contains "town"))

/-- The `check` that `XShot.modify_ability` installs
(`src/mafia/normal.py` lines 2065-2074): the wrapped ability's check,
AND the actor's use counter for this ability being below `max_uses`. -/
def xshotCheck (base : GameS → Nat → Option (List Nat) → Bool) (key : String)
    (maxUses : Int) (g : GameS) (actor : Nat) (targets : Option (List Nat)) :
    Bool :=
  base g actor targets && decide (usesOf g actor key < maxUses)

/- ### Observation helpers and spec-side predicates -/

/-- Status of visit `i` after a resolution that returned normally. -/
def visitStatusAfter (r : ResolveOut) (i : Nat) : Option Int :=
  match r with
  | .finished g => some (g.visits.getD i defaultVisit).status
  | _ => none

/-- Visit `i`'s tags after a resolution that returned normally. -/
def visitTagsAfter (r : ResolveOut) (i : Nat) : Option (List String) :=
  match r with
  | .finished g => some (g.visits.getD i defaultVisit).tags
  | _ => none

/-- Death causes of player `p` after a resolution that returned normally. -/
def deathsAfter (r : ResolveOut) (p : Nat) : Option (List String) :=
  match r with
  | .finished g => some (g.players.getD p defaultPlayer).deathCauses
  | _ => none

/-- Private-message count of player `p` after a resolution that
returned normally. -/
def messagesLenAfter (r : ResolveOut) (p : Nat) : Option Nat :=
  match r with
  | .finished g => some (g.players.getD p defaultPlayer).messages.length
  | _ => none

/-- The resolution loop exhausts every fuel bound: the Python
`while failed_to_resolve` loop runs forever from this state. -/
def loopsForever (la : Bool) (g : GameS) : Prop :=
  ∀ fuel, resolveLoop la fuel g = .outOfFuel

/-- Number of PENDING visits in the history. -/
def pendingCount (g : GameS) : Nat :=
  g.visits.countP fun v => v.status == -1

/- ### Scenario abilities and games -/

/-- `Cop.Cop`: investigative night action. -/
def copA : Abil := ⟨"Cop", ["investigate", "gun"], 1, some .night, false, .copInvestigate⟩

/-- A `Cop.Cop` variant whose `immediate` flag is set (any `Ability`
subclass may set `immediate = True`). -/
def copAImm : Abil := ⟨"Cop", ["investigate", "gun"], 1, some .night, true, .copInvestigate⟩

/-- `Roleblocker.Roleblocker`: night roleblock action. -/
def rbA : Abil := ⟨"Roleblocker", ["roleblock"], 1, some .night, false, .roleblock⟩

/-- `Doctor.Doctor`: protective night action with `limit = 1`. -/
def docA : Abil := ⟨"Doctor", ["protect", "mafia_no_gun"], 1, some .night, false, .protect (some 1)⟩

/-- `Mafia.MafiaFactionalKill`: the factional kill. -/
def mkillA : Abil :=
  ⟨"Mafia Factional Kill", ["kill", "factional_kill"], 1, some .night, false,
    .kill "MafiaFactionalKill"⟩

/-- A living player with the given name and alignment tags. -/
def livePl (n : String) (t : List String) : PlayerS := ⟨n, t, [], [], []⟩

/-- C1 scenario: night of day 2; Alice's night-1 Cop visit on Bob is
already resolved SUCCESS, and Eve's roleblock on Alice is the only
active visit. -/
def gC1 : GameS :=
  ⟨2, 1, [.day, .night],
    [livePl "Alice" ["town"], livePl "Eve" ["mafia"], livePl "Bob" ["town"]],
    [⟨0, [2], copA, .action, .night, 1, 1, ["investigate", "gun"]⟩,
      ⟨1, [0], rbA, .action, .night, 2, -1, ["roleblock"]⟩]⟩

/-- C2 scenario: two mutual roleblock visits whose tags also carry
`commute` and `unstoppable` (extra visit tags are freely supplied by
callers of `make_visit`).  Each pends on the commute check; the
Catastrophic Rule finds the 2-cycle but skips both visits as
`unstoppable`, so `resolve_cycles` reports progress while changing
nothing. -/
def vC2 (a b : Nat) : VisitS :=
  ⟨a, [b], rbA, .action, .night, 1, -1, ["commute", "unstoppable", "roleblock"]⟩

def gC2 : GameS :=
  ⟨1, 1, [.day, .night], [livePl "A" [], livePl "B" []], [vC2 0 1, vC2 1 0]⟩

/-- C3 scenario: the only visits are mutual roleblocks, A ↔ B. -/
def gC3 : GameS :=
  ⟨1, 1, [.day, .night], [livePl "A" ["town"], livePl "B" ["town"]],
    [⟨0, [1], rbA, .action, .night, 1, -1, ["roleblock"]⟩,
      ⟨1, [0], rbA, .action, .night, 1, -1, ["roleblock"]⟩]⟩

/-- C4 scenario: night of day 2 with an active mutual-roleblock cycle
between players 0 and 1, while player 0 also has a non-active (night-1,
already SUCCESS) Cop visit in the history. -/
def gC4 : GameS :=
  ⟨2, 1, [.day, .night],
    [livePl "Alice" ["town"], livePl "Bob" ["town"], livePl "Eve" ["mafia"]],
    [⟨0, [2], copA, .action, .night, 1, 1, ["investigate", "gun"]⟩,
      ⟨0, [1], rbA, .action, .night, 2, -1, ["roleblock"]⟩,
      ⟨1, [0], rbA, .action, .night, 2, -1, ["roleblock"]⟩]⟩

/-- C6 counterexample scenario: Alice (Doctor) protects Bob, Eve's
factional kill targets Bob — and Mallory roleblocks Alice. -/
def gC6a : GameS :=
  ⟨1, 1, [.day, .night],
    [livePl "Alice" ["town"], livePl "Bob" ["town"], livePl "Eve" ["mafia"],
      livePl "Mallory" ["mafia"]],
    [⟨0, [1], docA, .action, .night, 1, -1, ["protect", "mafia_no_gun"]⟩,
      ⟨2, [1], mkillA, .sharedAction, .night, 1, -1, ["factional", "kill", "factional_kill"]⟩,
      ⟨3, [0], rbA, .action, .night, 1, -1, ["roleblock"]⟩]⟩

/-- A pending night-1 Doctor protect visit by `a` on `t`. -/
def pVisit (a t : Nat) : VisitS :=
  ⟨a, [t], docA, .action, .night, 1, -1, ["protect", "mafia_no_gun"]⟩

/-- A pending night-1 factional-kill visit by `k` on `t`. -/
def kVisit (k t : Nat) : VisitS :=
  ⟨k, [t], mkillA, .sharedAction, .night, 1, -1, ["factional", "kill", "factional_kill"]⟩

/-- C6 amended scenario, over arbitrary player indices `a` (protector),
`t` (target), `k` (killer) and an arbitrary player list: the game's
only visits are the Doctor protect on `t` and the factional kill
on `t`. -/
def gC6gen (a t k : Nat) (ps : List PlayerS) : GameS :=
  ⟨1, 1, [.day, .night], ps, [pVisit a t, kVisit k t]⟩

/-- C8 counterexample scenario: two dead mafia-aligned players and one
living town player. -/
def gC8 : GameS :=
  ⟨1, 0, [.day, .night],
    [⟨"D1", ["mafia"], ["Vote"], [], []⟩, ⟨"D2", ["mafia"], ["Vote"], [], []⟩,
      livePl "T" ["town"]],
    []⟩

/-- C10 scenario: one immediate investigative visit on night 1. -/
def gC10 : GameS :=
  ⟨1, 1, [.day, .night],
    [livePl "Alice" ["town"], livePl "B" ["town"], livePl "Eve" ["mafia"]],
    [⟨0, [2], copAImm, .action, .night, 1, -1, ["investigate", "gun"]⟩]⟩

/-- The game state after the first `resolve_game` call on `gC10`. -/
def gC10' : GameS :=
  match resolve_game true 2 gC10 with
  | .finished g => g
  | _ => gC10

/-- One-step edge relation of an edge list. -/
def Estep (edges : List (α × α)) (u v : α) : Prop := (u, v) ∈ edges

/-- Reachability: the reflexive-transitive closure of the edge relation. -/
def Reach (edges : List (α × α)) : α → α → Prop :=
  Relation.ReflTransGen (Estep edges)

/-- `u` lies on at least one directed cycle: it has an out-edge whose
head reaches back to `u`. -/
def OnCycle (edges : List (α × α)) (u : α) : Prop :=
  ∃ w, Estep edges u w ∧ Reach edges w u

/- ### Tarjan verification: invariants -/

/-- `v` has been assigned an index. -/
def indexedT (st : TState α) (v : α) : Prop := (st.indices.lookup v).isSome

instance (st : TState α) (v : α) : Decidable (indexedT st v) := by
  unfold indexedT; infer_instance

/-- The index of `v` (0 when absent; only read on indexed nodes). -/
def idxO (st : TState α) (v : α) : Nat := lookupD st.indices v

/-- The lowlink of `v` (0 when absent; only read on indexed nodes). -/
def lowO (st : TState α) (v : α) : Nat := lookupD st.lowlink v

/-- `v` belongs to a completed SCC block. -/
def doneT (st : TState α) (v : α) : Prop := ∃ B ∈ st.sccs, v ∈ B

/-- All successors of `v` are indexed. -/
def FullyExpl (edges : List (α × α)) (st : TState α) (v : α) : Prop :=
  ∀ w ∈ adj edges v, indexedT st w

/-- A finished non-root stack node: its lowlink is strictly below its
index and is witnessed by a reachable stack node, and its successor
list has been fully explored. -/
def FinN (edges : List (α × α)) (st : TState α) (x : α) : Prop :=
  lowO st x < idxO st x ∧
    (∃ w ∈ st.stack, idxO st w = lowO st x ∧ Reach edges x w) ∧
    FullyExpl edges st x

/-- Every stack node off the ghost DFS path `P` is finished. -/
def OffPathFin (edges : List (α × α)) (P : List α) (st : TState α) : Prop :=
  ∀ x ∈ st.stack, x ∉ P → FinN edges st x

/-- Number of graph nodes not yet indexed (the fuel measure). -/
def Ucount (edges : List (α × α)) (st : TState α) : Nat :=
  (buildNodes edges).countP fun v => !(st.indices.lookup v).isSome

/-- The state invariant of the embedded Tarjan algorithm. -/
structure TarjanInv (edges : List (α × α)) (st : TState α) : Prop where
  idx_lt : ∀ x, indexedT st x → idxO st x < st.idx
  inj : ∀ x y, indexedT st x → indexedT st y → idxO st x = idxO st y → x = y
  stack_ix : ∀ x ∈ st.stack, indexedT st x
  done_ix : ∀ x, doneT st x → indexedT st x
  split : ∀ x, indexedT st x → x ∈ st.stack ∨ doneT st x
  stack_not_done : ∀ x ∈ st.stack, ¬ doneT st x
  stack_nodup : st.stack.Nodup
  onstack_iff : ∀ x, x ∈ st.onstack ↔ x ∈ st.stack
  stack_reach : ∀ x y, x ∈ st.stack → y ∈ st.stack →
    idxO st x ≤ idxO st y → Reach edges x y
  univ_ix : ∀ x, indexedT st x → x ∈ buildNodes edges
  low_le : ∀ x, indexedT st x → lowO st x ≤ idxO st x
  sccs_nodup : ∀ B ∈ st.sccs, B.Nodup
  done_closed : ∀ x, doneT st x → ∀ w ∈ adj edges x, doneT st w
  done_mutual : ∀ B ∈ st.sccs, ∀ u ∈ B, ∀ w ∈ B, Reach edges u w
  done_max : ∀ B ∈ st.sccs, ∀ u ∈ B, ∀ x, Reach edges u x → Reach edges x u → x ∈ B

/-- Postcondition of a completed `strongconnect` call on `v` (input
state `st`, output `st'`). -/
structure SCpost (edges : List (α × α)) (st st' : TState α) (v : α) : Prop where
  inv : TarjanInv edges st'
  ixframe : ∀ x, indexedT st x → st'.indices.lookup x = st.indices.lookup x
  lowframe : ∀ x, indexedT st x → st'.lowlink.lookup x = st.lowlink.lookup x
  ixv : indexedT st' v
  newreach : ∀ x, indexedT st' x → indexedT st x ∨ Reach edges v x
  newbig : ∀ x, indexedT st' x → ¬ indexedT st x → st.idx ≤ idxO st' x
  idxgrow : st.idx < st'.idx
  stackshape : ∃ Δ, st'.stack = Δ ++ st.stack ∧ ∀ x ∈ Δ, ¬ indexedT st x
  donemono : ∀ x, doneT st x → doneT st' x
  ucount : Ucount edges st' < Ucount edges st
  edgewin : v ∈ st'.stack → ∀ u ∈ st'.stack, u ∉ st.stack → ∀ w ∈ adj edges u,
    doneT st' w ∨ (w ∈ st'.stack ∧ (w ∉ st.stack ∨ lowO st' v ≤ idxO st' w))
  lowdom : v ∈ st'.stack → ∀ u ∈ st'.stack, u ∉ st.stack → lowO st' v ≤ lowO st' u
  vend : v ∈ st'.stack ∨ doneT st' v
  rootlow : doneT st' v → lowO st' v = idxO st' v
  dstack : doneT st' v → st'.stack = st.stack

/-- Postcondition of a completed `visitSuccs` call for current node `v`
over the successor suffix `ws`. -/
structure VSpost (edges : List (α × α)) (st st'' : TState α) (v : α)
    (ws : List α) : Prop where
  inv : TarjanInv edges st''
  ixframe : ∀ x, indexedT st x → st''.indices.lookup x = st.indices.lookup x
  lowframe : ∀ x, indexedT st x → x ≠ v → st''.lowlink.lookup x = st.lowlink.lookup x
  lowv_le : lowO st'' v ≤ lowO st v
  idxgrow : st.idx ≤ st''.idx
  newreach : ∀ x, indexedT st'' x → indexedT st x ∨ Reach edges v x
  newbig : ∀ x, indexedT st'' x → ¬ indexedT st x → st.idx ≤ idxO st'' x
  stackshape : ∃ Δ, st''.stack = Δ ++ st.stack ∧ ∀ x ∈ Δ, ¬ indexedT st x
  donemono : ∀ x, doneT st x → doneT st'' x
  ucount : Ucount edges st'' ≤ Ucount edges st
  lowwit : ∃ w ∈ st''.stack, idxO st'' w = lowO st'' v ∧ Reach edges v w
  procd : ∀ w ∈ ws, doneT st'' w ∨ (w ∈ st''.stack ∧ lowO st'' v ≤ idxO st'' w)
  edgewin : ∀ u ∈ st''.stack, u ∉ st.stack → ∀ w ∈ adj edges u,
    doneT st'' w ∨ (w ∈ st''.stack ∧ (w ∉ st.stack ∨ lowO st'' v ≤ idxO st'' w))
  lowdom : ∀ u ∈ st''.stack, u ∉ st.stack → lowO st'' v ≤ lowO st'' u

/-- `strongconnect` meets its contract at a given fuel level: from an
invariant state with `v` a fresh graph node reachable from the whole
stack, it returns a state satisfying `SCpost` and keeps every off-path
stack node finished. -/
def SCspec (edges : List (α × α)) (fuel : Nat) : Prop :=
  ∀ (st : TState α) (v : α) (P : List α),
    TarjanInv edges st → OffPathFin edges P st → (∀ p ∈ P, p ∈ st.stack) →
    v ∈ buildNodes edges → ¬ indexedT st v →
    (∀ x ∈ st.stack, Reach edges x v) →
    Ucount edges st * (edges.length + 2) ≤ fuel →
    ∃ st', strongconnect (adj edges) fuel st v = some st' ∧
      SCpost edges st st' v ∧ OffPathFin edges P st'

/-- `visitSuccs` meets its contract at a given fuel level: resolving the
successor suffix `ws` of the on-stack node `v` returns a state
satisfying `VSpost`, keeps off-path nodes finished, and preserves the
path-order and low-stack-reachability facts about `v`. -/
def VSspec (edges : List (α × α)) (fuel : Nat) : Prop :=
  ∀ (st : TState α) (v : α) (P : List α) (ws : List α),
    TarjanInv edges st → OffPathFin edges (v :: P) st →
    (∀ p ∈ P, p ∈ st.stack) → v ∈ st.stack →
    (∀ p ∈ P, idxO st p < idxO st v) →
    (∀ x ∈ st.stack, idxO st x ≤ idxO st v → Reach edges x v) →
    (∃ w ∈ st.stack, idxO st w = lowO st v ∧ Reach edges v w) →
    (∀ w ∈ ws, w ∈ adj edges v) →
    Ucount edges st * (edges.length + 2) + ws.length + 1 ≤ fuel →
    ∃ st'', visitSuccs (adj edges) fuel st v ws = some st'' ∧
      VSpost edges st st'' v ws ∧ OffPathFin edges (v :: P) st'' ∧
      (∀ p ∈ P, idxO st'' p < idxO st'' v) ∧
      (∀ x ∈ st''.stack, idxO st'' x ≤ idxO st'' v → Reach edges x v)

/-- Visit evolution during resolution: the status can only leave
PENDING, the ability type, actor and existing tags are fixed, and the
tag set can only grow by `"roleblocked"`. -/
def Vdom (v w : VisitS) : Prop :=
  (w.status = -1 → v.status = -1) ∧ w.abilityType = v.abilityType ∧
    w.actor = v.actor ∧
    (∀ s, s ∈ w.tags → s ∈ v.tags ∨ s = "roleblocked") ∧
    (∀ s, s ∈ v.tags → s ∈ w.tags)

/-- Game evolution during resolution: the visit history keeps its
length and every visit evolves pointwise. -/
def GDom (g g' : GameS) : Prop :=
  g'.visits.length = g.visits.length ∧
    ∀ j, j < g.visits.length →
      Vdom (g.visits.getD j defaultVisit) (g'.visits.getD j defaultVisit)

/-- A well-tagged visit: if it carries the `roleblock` tag it is
non-passive and not `unstoppable`, so `roleblock_player` can always
fail it during cycle-breaking. -/
def Vok (v : VisitS) : Prop :=
  v.tags.contains "roleblock" = true →
    v.abilityType ≠ AType.passive ∧ v.tags.contains "unstoppable" = false

/-- Every visit of the game is well-tagged. -/
def Hgood (g : GameS) : Prop := ∀ v ∈ g.visits, Vok v

instance (v : VisitS) : Decidable (Vok v) := by
  unfold Vok
  infer_instance

instance (g : GameS) : Decidable (Hgood g) := by
  unfold Hgood
  infer_instance

/-- One engine step on the game state: the state-mutating operations of
`Resolver.resolve_game` (`log_visits`, the immediate pre-pass, one
`attempt_resolve` iteration, the investigation-failure notices) and
`Game.advance_phase`. -/
inductive EngineStep : GameS → GameS → Prop where
  | logv (g : GameS) : EngineStep g (log_visits g)
  | imm (la : Bool) (g : GameS) : EngineStep g (immediatePass la g)
  | att (la : Bool) (g g' : GameS) (b : Bool)
      (h : attempt_resolve la g = some (g', b)) : EngineStep g g'
  | inv (g : GameS) : EngineStep g (investigatePass g)
  | adv (g : GameS) : EngineStep g (advancePhase g)

/-- A later engine state: reachable by any number of resolution steps
and phase advances (so any later point of the same resolution, of a
later resolution, or of a subsequent phase). -/
def EngineReach : GameS → GameS → Prop := Relation.ReflTransGen EngineStep

/- ### Helper lemmas about use counters and `log_visits` -/

theorem usesUpdate_lookup_same (l : List (String × Int)) (key : String) (amt : Int) :
    (usesUpdate l key amt).lookup key = some ((l.lookup key).getD 0 + amt) := by
  induction l with
  | nil => simp [usesUpdate]
  | cons h t ih =>
    obtain ⟨k, n⟩ := h
    by_cases hk : k = key
    · subst hk; simp [usesUpdate, List.lookup]
    · have h1 : (key == k) = false := by simp [Ne.symm hk]
      simp [usesUpdate, List.lookup, hk, h1, ih]

theorem usesUpdate_lookup_ne (l : List (String × Int)) (key key' : String)
    (amt : Int) (h : key' ≠ key) :
    (usesUpdate l key amt).lookup key' = l.lookup key' := by
  induction l with
  | nil =>
    have h1 : (key' == key) = false := by simp [h]
    simp [usesUpdate, List.lookup, h1]
  | cons hd t ih =>
    obtain ⟨k, n⟩ := hd
    by_cases hk : k = key
    · subst hk
      have h1 : (key' == k) = false := by simp [h]
      simp [usesUpdate, List.lookup, h1]
    · simp [usesUpdate, List.lookup, hk, ih]

theorem usesOf_bumpUses_same (g : GameS) (p : Nat) (key : String) (amt : Int)
    (hp : p < g.players.length) :
    usesOf (bumpUses g p key amt) p key = usesOf g p key + amt := by
  simp [usesOf, bumpUses, modifyPlayer, List.getD_eq_getElem?_getD,
    List.getElem?_set_self hp, usesUpdate_lookup_same]

theorem usesOf_bumpUses_ge (g : GameS) (p q : Nat) (key key' : String) :
    usesOf g q key' ≤ usesOf (bumpUses g p key 1) q key' := by
  by_cases hq : p = q
  · subst hq
    by_cases hp : p < g.players.length
    · by_cases hk : key' = key
      · subst hk
        rw [usesOf_bumpUses_same g p key' 1 hp]; omega
      · simp [usesOf, bumpUses, modifyPlayer, List.getD_eq_getElem?_getD,
          List.getElem?_set_self hp, usesUpdate_lookup_ne _ _ _ _ hk]
    · simp [usesOf, bumpUses, modifyPlayer, List.getD_eq_getElem?_getD,
        List.getElem?_set, hp, List.getElem?_eq_none (Nat.le_of_not_lt hp)]
  · simp [usesOf, bumpUses, modifyPlayer, List.getD_eq_getElem?_getD,
      List.getElem?_set_ne hq]

theorem deaths_bumpUses (g : GameS) (p q : Nat) (key : String) (amt : Int) :
    ((bumpUses g p key amt).players.getD q defaultPlayer).deathCauses =
      (g.players.getD q defaultPlayer).deathCauses := by
  by_cases hq : p = q
  · subst hq
    by_cases hp : p < g.players.length
    · simp [bumpUses, modifyPlayer, List.getD_eq_getElem?_getD,
        List.getElem?_set_self hp]
    · simp [bumpUses, modifyPlayer, List.getD_eq_getElem?_getD,
        List.getElem?_set, hp, List.getElem?_eq_none (Nat.le_of_not_lt hp)]
  · simp [bumpUses, modifyPlayer, List.getD_eq_getElem?_getD,
      List.getElem?_set_ne hq]

theorem bumpUses_visits (g : GameS) (p : Nat) (k : String) (a : Int) :
    (bumpUses g p k a).visits = g.visits := rfl

theorem bumpUses_dayNo (g : GameS) (p : Nat) (k : String) (a : Int) :
    (bumpUses g p k a).dayNo = g.dayNo := rfl

theorem bumpUses_phase (g : GameS) (p : Nat) (k : String) (a : Int) :
    (bumpUses g p k a).phase = g.phase := rfl

theorem isActive_bumpUses (g : GameS) (p : Nat) (k : String) (a : Int) (v : VisitS) :
    isActive (bumpUses g p k a) v = isActive g v := rfl

theorem logStep_visits (acc : GameS) (v : VisitS) : (logStep acc v).visits = acc.visits := by
  unfold logStep; split <;> rfl

theorem logStep_players_length (acc : GameS) (v : VisitS) :
    (logStep acc v).players.length = acc.players.length := by
  unfold logStep; split
  · simp [bumpUses, modifyPlayer]
  · rfl

theorem isActive_logStep (acc : GameS) (v w : VisitS) :
    isActive (logStep acc v) w = isActive acc w := by
  unfold logStep; split <;> rfl

theorem deaths_logStep (acc : GameS) (v : VisitS) (q : Nat) :
    ((logStep acc v).players.getD q defaultPlayer).deathCauses =
      (acc.players.getD q defaultPlayer).deathCauses := by
  unfold logStep; split
  · exact deaths_bumpUses acc v.actor q v.ability.id 1
  · rfl

theorem usesOf_logStep_ge (acc : GameS) (v : VisitS) (q : Nat) (key : String) :
    usesOf acc q key ≤ usesOf (logStep acc v) q key := by
  unfold logStep; split
  · exact usesOf_bumpUses_ge acc v.actor q v.ability.id key
  · exact le_refl _

theorem usesOf_foldl_logStep_ge (l : List VisitS) (acc : GameS) (q : Nat)
    (key : String) :
    usesOf acc q key ≤ usesOf (l.foldl logStep acc) q key := by
  induction l generalizing acc with
  | nil => exact le_refl _
  | cons w t ih =>
    exact le_trans (usesOf_logStep_ge acc w q key) (ih (logStep acc w))

theorem foldl_logStep_visits (l : List VisitS) (acc : GameS) :
    (l.foldl logStep acc).visits = acc.visits := by
  induction l generalizing acc with
  | nil => rfl
  | cons w t ih => rw [List.foldl_cons, ih, logStep_visits]

theorem foldl_logStep_deaths (l : List VisitS) (acc : GameS) (q : Nat) :
    ((l.foldl logStep acc).players.getD q defaultPlayer).deathCauses =
      (acc.players.getD q defaultPlayer).deathCauses := by
  induction l generalizing acc with
  | nil => rfl
  | cons w t ih => rw [List.foldl_cons, ih, deaths_logStep]

theorem isActive_foldl_logStep (l : List VisitS) (acc : GameS) (w : VisitS) :
    isActive (l.foldl logStep acc) w = isActive acc w := by
  induction l generalizing acc with
  | nil => rfl
  | cons u t ih => rw [List.foldl_cons, ih, isActive_logStep]

theorem phase_setVisits (g : GameS) (x : List VisitS) :
    GameS.phase { g with visits := x } = g.phase := rfl

theorem resolveLoop_succ (la : Bool) (fuel : Nat) (g : GameS) :
    resolveLoop la (fuel + 1) g =
      match attempt_resolve la g with
      | none => ResolveOut.deadlock
      | some (g', true) => resolveLoop la fuel g'
      | some (g', false) => ResolveOut.finished g' := rfl

theorem logStep_phase (acc : GameS) (v : VisitS) :
    (logStep acc v).phase = acc.phase := by
  unfold logStep; split <;> rfl

theorem logStep_dayNo (acc : GameS) (v : VisitS) :
    (logStep acc v).dayNo = acc.dayNo := by
  unfold logStep; split <;> rfl

theorem foldl_logStep_phase (l : List VisitS) (acc : GameS) :
    GameS.phase (l.foldl logStep acc) = acc.phase := by
  induction l generalizing acc with
  | nil => rfl
  | cons w t ih => rw [List.foldl_cons, ih, logStep_phase]

theorem foldl_logStep_dayNo (l : List VisitS) (acc : GameS) :
    (l.foldl logStep acc).dayNo = acc.dayNo := by
  induction l generalizing acc with
  | nil => rfl
  | cons w t ih => rw [List.foldl_cons, ih, logStep_dayNo]

/-- A `getD` read inside the bounds is a member of the list. -/
theorem getD_mem_of_lt {β : Type} (l : List β) (n : Nat) (d : β)
    (h : n < l.length) : l.getD n d ∈ l := by
  rw [List.getD_eq_getElem?_getD, List.getElem?_eq_getElem h]
  exact List.getElem_mem h

/-- A game none of whose visits is immediate passes through the
immediate pre-pass unchanged. -/
theorem immediatePass_no_immediate (la : Bool) (g : GameS)
    (h : ∀ v ∈ g.visits, v.ability.immediate = false) :
    immediatePass la g = g := by
  unfold immediatePass
  have key : ∀ (l : List Nat), l.foldl
      (fun acc i =>
        if (acc.visits.getD i defaultVisit).ability.immediate then
          (resolve_visit la acc i).1
        else acc) g = g := by
    intro l
    induction l with
    | nil => rfl
    | cons i t ih =>
      rw [List.foldl_cons]
      have hcond : (g.visits.getD i defaultVisit).ability.immediate = false := by
        by_cases hi : i < g.visits.length
        · exact h _ (getD_mem_of_lt _ _ _ hi)
        · rw [List.getD_eq_getElem?_getD, List.getElem?_eq_none (Nat.le_of_not_lt hi)]
          rfl
      simp only [hcond, Bool.false_eq_true, if_false]
      exact ih
  exact key _

/-- A game none of whose visits carries the `investigate` tag passes
through the notice pass unchanged. -/
theorem investigatePass_no_investigate (g : GameS)
    (h : ∀ v ∈ g.visits, v.tags.contains "investigate" = false) :
    investigatePass g = g := by
  unfold investigatePass
  have key : ∀ (l : List VisitS), (∀ v ∈ l, v.tags.contains "investigate" = false) →
      l.foldl
        (fun acc v =>
          if v.tags.contains "investigate" && isActiveTime acc v && v.status == 0 then
            sendPrivate acc v.actor v.ability.id
              "Your ability failed, and you did not recieve a result."
          else acc) g = g := by
    intro l
    induction l with
    | nil => intro _; rfl
    | cons v t ih =>
      intro hl
      rw [List.foldl_cons]
      have hv : v.tags.contains "investigate" = false := hl v (List.mem_cons_self v t)
      simp only [hv, Bool.false_and, Bool.false_eq_true, if_false]
      exact ih fun w hw => hl w (List.mem_cons_of_mem v hw)
  exact key _ h

theorem foldl_logStep_hit (v : VisitS) (l : List VisitS) (acc : GameS)
    (hmem : v ∈ l) (hty : (v.abilityType == AType.passive) = false)
    (hact : isActive acc v = true) (hlen : v.actor < acc.players.length)
    (h0 : 0 ≤ usesOf acc v.actor v.ability.id) :
    1 ≤ usesOf (l.foldl logStep acc) v.actor v.ability.id := by
  induction l generalizing acc with
  | nil => cases hmem
  | cons w t ih =>
    rcases List.mem_cons.mp hmem with h | hmem'
    · subst h
      rw [List.foldl_cons]
      have hstep : logStep acc v = bumpUses acc v.actor v.ability.id 1 := by
        unfold logStep; rw [hty, hact]; rfl
      rw [hstep]
      refine le_trans ?_ (usesOf_foldl_logStep_ge t _ _ _)
      rw [usesOf_bumpUses_same acc v.actor v.ability.id 1 hlen]; omega
    · rw [List.foldl_cons]
      exact ih (logStep acc w) hmem'
        (by rw [isActive_logStep]; exact hact)
        (by rw [logStep_players_length]; exact hlen)
        (le_trans h0 (usesOf_logStep_ge acc w _ _))

/- ### Tarjan verification: dictionary, node-list and reachability lemmas -/

theorem lookup_setA_self (l : List (α × Nat)) (v : α) (n : Nat) :
    (setA l v n).lookup v = some n := by
  induction l with
  | nil => simp [setA]
  | cons h t ih =>
    obtain ⟨k, m⟩ := h
    by_cases hk : k = v
    · subst hk; simp [setA]
    · have h1 : (v == k) = false := by simp [Ne.symm hk]
      simp [setA, hk, h1, ih, List.lookup]

theorem lookup_setA_ne (l : List (α × Nat)) (v w : α) (n : Nat) (h : w ≠ v) :
    (setA l v n).lookup w = l.lookup w := by
  induction l with
  | nil =>
    have h1 : (w == v) = false := by simp [h]
    simp [setA, h1, List.lookup]
  | cons hd t ih =>
    obtain ⟨k, m⟩ := hd
    by_cases hk : k = v
    · subst hk
      have h1 : (w == k) = false := by simp [h]
      simp [setA, h1, List.lookup]
    · simp [setA, hk, ih, List.lookup]

theorem mem_addNode_iff (l : List α) (y x : α) :
    (x ∈ if l.contains y = true then l else l ++ [y]) ↔ x ∈ l ∨ x = y := by
  by_cases hy : y ∈ l
  · rw [if_pos (List.elem_iff.mpr hy)]
    exact ⟨Or.inl, fun h => h.elim id fun hx => hx ▸ hy⟩
  · rw [if_neg fun hcon => hy (List.elem_iff.mp hcon)]
    simp [List.mem_append]

theorem mem_buildNodes_iff (edges : List (α × α)) (x : α) :
    x ∈ buildNodes edges ↔ ∃ e ∈ edges, x = e.1 ∨ x = e.2 := by
  have key : ∀ (es : List (α × α)) (acc : List α),
      x ∈ es.foldl
        (fun acc e =>
          let acc1 := if acc.contains e.1 then acc else acc ++ [e.1]
          if acc1.contains e.2 then acc1 else acc1 ++ [e.2]) acc ↔
        x ∈ acc ∨ ∃ e ∈ es, x = e.1 ∨ x = e.2 := by
    intro es
    induction es with
    | nil => simp
    | cons e t ih =>
      intro acc
      rw [List.foldl_cons, ih]
      simp only [mem_addNode_iff]
      constructor
      · rintro (((hm | h1) | h2) | he)
        · exact Or.inl hm
        · exact Or.inr ⟨e, List.mem_cons_self e t, Or.inl h1⟩
        · exact Or.inr ⟨e, List.mem_cons_self e t, Or.inr h2⟩
        · obtain ⟨f, hf, hx⟩ := he
          exact Or.inr ⟨f, List.mem_cons_of_mem e hf, hx⟩
      · rintro (hm | ⟨f, hf, hx⟩)
        · exact Or.inl (Or.inl (Or.inl hm))
        · rcases List.mem_cons.mp hf with rfl | hf'
          · rcases hx with h1 | h2
            · exact Or.inl (Or.inl (Or.inr h1))
            · exact Or.inl (Or.inr h2)
          · exact Or.inr ⟨f, hf', hx⟩
  rw [buildNodes, key]
  simp

theorem buildNodes_nodup (edges : List (α × α)) : (buildNodes edges).Nodup := by
  have key : ∀ (es : List (α × α)) (acc : List α), acc.Nodup →
      (es.foldl
        (fun acc e =>
          let acc1 := if acc.contains e.1 then acc else acc ++ [e.1]
          if acc1.contains e.2 then acc1 else acc1 ++ [e.2]) acc).Nodup := by
    intro es
    induction es with
    | nil => intro acc h; exact h
    | cons e t ih =>
      intro acc h
      rw [List.foldl_cons]
      refine ih _ ?_
      have step : ∀ (l : List α) (y : α), l.Nodup →
          (if l.contains y = true then l else l ++ [y]).Nodup := by
        intro l y hl
        by_cases hy : y ∈ l
        · rwa [if_pos (List.elem_iff.mpr hy)]
        · rw [if_neg fun hcon => hy (List.elem_iff.mp hcon)]
          refine List.Nodup.append hl (List.nodup_singleton y) ?_
          intro z hz hz'
          rw [List.mem_singleton] at hz'
          subst hz'
          exact hy hz
      exact step _ _ (step _ _ h)
  exact key edges [] List.nodup_nil

theorem mem_adj_iff (edges : List (α × α)) (v w : α) :
    w ∈ adj edges v ↔ (v, w) ∈ edges := by
  simp only [adj, List.mem_map, List.mem_filter, decide_eq_true_eq]
  constructor
  · rintro ⟨e, ⟨he, h1⟩, h2⟩
    have : e = (v, w) := by
      obtain ⟨a, b⟩ := e
      simp only at h1 h2
      rw [h1, h2]
    rwa [this] at he
  · intro h
    exact ⟨(v, w), ⟨h, rfl⟩, rfl⟩

theorem adj_length_le (edges : List (α × α)) (v : α) :
    (adj edges v).length ≤ edges.length := by
  simp only [adj, List.length_map]
  exact List.length_filter_le _ _

theorem adj_mem_univ (edges : List (α × α)) (v w : α) (h : w ∈ adj edges v) :
    v ∈ buildNodes edges ∧ w ∈ buildNodes edges := by
  rw [mem_adj_iff] at h
  exact ⟨(mem_buildNodes_iff edges v).mpr ⟨(v, w), h, Or.inl rfl⟩,
    (mem_buildNodes_iff edges w).mpr ⟨(v, w), h, Or.inr rfl⟩⟩

theorem countP_le_of_imp (l : List α) (p q : α → Bool)
    (h : ∀ x ∈ l, p x = true → q x = true) : l.countP p ≤ l.countP q := by
  induction l with
  | nil => simp
  | cons a t ih =>
    rw [List.countP_cons, List.countP_cons]
    have ht := ih fun x hx => h x (List.mem_cons_of_mem a hx)
    by_cases hp : p a = true
    · rw [hp, h a (List.mem_cons_self a t) hp]; omega
    · rw [Bool.not_eq_true] at hp
      rw [hp]; simp; omega

theorem countP_lt_of_flip (l : List α) (p q : α → Bool) (v : α)
    (hv : v ∈ l) (hnod : l.Nodup) (hpv : p v = true) (hqv : q v = false)
    (hsame : ∀ x ∈ l, x ≠ v → q x = true → p x = true) :
    l.countP q < l.countP p := by
  induction l with
  | nil => cases hv
  | cons a t ih =>
    rw [List.countP_cons, List.countP_cons]
    rcases List.mem_cons.mp hv with rfl | hv'
    · rw [hpv, hqv]
      have hnt : v ∉ t := (List.nodup_cons.mp hnod).1
      have : t.countP q ≤ t.countP p := by
        refine countP_le_of_imp t q p fun x hx hq => ?_
        exact hsame x (List.mem_cons_of_mem _ hx) (fun he => hnt (he ▸ hx)) hq
      simp; omega
    · have hnod' := (List.nodup_cons.mp hnod).2
      have hrec := ih hv' hnod' fun x hx => hsame x (List.mem_cons_of_mem a hx)
      have hhead : (if q a then 1 else 0) ≤ (if p a then 1 else 0) := by
        by_cases hq : q a = true
        · have hav : a ≠ v := by
            rintro rfl
            exact (List.nodup_cons.mp hnod).1 hv'
          rw [hq, hsame a (List.mem_cons_self a t) hav hq]
        · rw [Bool.not_eq_true] at hq
          rw [hq]; simp
      omega

theorem reach_step (edges : List (α × α)) (u w : α) (h : (u, w) ∈ edges) :
    Reach edges u w :=
  Relation.ReflTransGen.single h

/- ### Tarjan verification: state-operation lemmas -/

theorem indexedT_pushT (st : TState α) (v x : α) :
    indexedT (pushT st v) x ↔ x = v ∨ indexedT st x := by
  unfold indexedT pushT
  by_cases hx : x = v
  · subst hx; simp [lookup_setA_self]
  · simp [lookup_setA_ne _ _ _ _ hx, hx]

theorem idxO_pushT_self (st : TState α) (v : α) : idxO (pushT st v) v = st.idx := by
  simp [idxO, pushT, lookupD, lookup_setA_self]

theorem idxO_pushT_ne (st : TState α) (v x : α) (h : x ≠ v) :
    idxO (pushT st v) x = idxO st x := by
  simp [idxO, pushT, lookupD, lookup_setA_ne _ _ _ _ h]

theorem lowO_pushT_self (st : TState α) (v : α) : lowO (pushT st v) v = st.idx := by
  simp [lowO, pushT, lookupD, lookup_setA_self]

theorem lowO_pushT_ne (st : TState α) (v x : α) (h : x ≠ v) :
    lowO (pushT st v) x = lowO st x := by
  simp [lowO, pushT, lookupD, lookup_setA_ne _ _ _ _ h]

theorem doneT_pushT (st : TState α) (v x : α) :
    doneT (pushT st v) x ↔ doneT st x := Iff.rfl

theorem indexedT_updLow (st : TState α) (v : α) (n : Nat) (x : α) :
    indexedT (updLow st v n) x ↔ indexedT st x := Iff.rfl

theorem idxO_updLow (st : TState α) (v : α) (n : Nat) (x : α) :
    idxO (updLow st v n) x = idxO st x := rfl

theorem lowO_updLow_self (st : TState α) (v : α) (n : Nat) :
    lowO (updLow st v n) v = n := by
  simp [lowO, updLow, lookupD, lookup_setA_self]

theorem lowO_updLow_ne (st : TState α) (v : α) (n : Nat) (x : α) (h : x ≠ v) :
    lowO (updLow st v n) x = lowO st x := by
  simp [lowO, updLow, lookupD, lookup_setA_ne _ _ _ _ h]

theorem doneT_updLow (st : TState α) (v : α) (n : Nat) (x : α) :
    doneT (updLow st v n) x ↔ doneT st x := Iff.rfl

/-- Pushing a fresh graph node keeps the invariant, provided every
current stack node reaches it. -/
theorem pushT_inv (edges : List (α × α)) (st : TState α) (v : α)
    (hInv : TarjanInv edges st) (hu : v ∈ buildNodes edges)
    (hni : ¬ indexedT st v) (hre : ∀ x ∈ st.stack, Reach edges x v) :
    TarjanInv edges (pushT st v) := by
  have hvs : v ∉ st.stack := fun h => hni (hInv.stack_ix v h)
  have hidx : ∀ x, indexedT st x → idxO (pushT st v) x = idxO st x := by
    intro x hx
    exact idxO_pushT_ne st v x fun he => hni (he ▸ hx)
  refine ⟨?_, ?_, ?_, ?_, ?_, ?_, ?_, ?_, ?_, ?_, ?_, ?_, ?_, ?_, ?_⟩
  · intro x hx
    rcases (indexedT_pushT st v x).mp hx with rfl | hx'
    · rw [idxO_pushT_self]; simp [pushT]
    · rw [hidx x hx']
      have := hInv.idx_lt x hx'
      simp [pushT]; omega
  · intro x y hx hy hxy
    rcases (indexedT_pushT st v x).mp hx with hxv | hx' <;>
      rcases (indexedT_pushT st v y).mp hy with hyv | hy'
    · rw [hxv, hyv]
    · exfalso
      rw [hxv, idxO_pushT_self, hidx y hy'] at hxy
      exact Nat.ne_of_lt (hInv.idx_lt y hy') hxy.symm
    · exfalso
      rw [hyv, idxO_pushT_self, hidx x hx'] at hxy
      exact Nat.ne_of_lt (hInv.idx_lt x hx') hxy
    · rw [hidx x hx', hidx y hy'] at hxy
      exact hInv.inj x y hx' hy' hxy
  · intro x hx
    rcases List.mem_cons.mp hx with rfl | hx'
    · exact (indexedT_pushT st x x).mpr (Or.inl rfl)
    · exact (indexedT_pushT st v x).mpr (Or.inr (hInv.stack_ix x hx'))
  · intro x hx
    exact (indexedT_pushT st v x).mpr (Or.inr (hInv.done_ix x ((doneT_pushT st v x).mp hx)))
  · intro x hx
    rcases (indexedT_pushT st v x).mp hx with rfl | hx'
    · exact Or.inl (List.mem_cons_self _ _)
    · rcases hInv.split x hx' with h | h
      · exact Or.inl (List.mem_cons_of_mem _ h)
      · exact Or.inr ((doneT_pushT st v x).mpr h)
  · intro x hx hd
    rcases List.mem_cons.mp hx with rfl | hx'
    · exact hni (hInv.done_ix x ((doneT_pushT st x x).mp hd))
    · exact hInv.stack_not_done x hx' ((doneT_pushT st v x).mp hd)
  · exact List.nodup_cons.mpr ⟨hvs, hInv.stack_nodup⟩
  · intro x
    simp only [pushT, List.mem_cons]
    rw [hInv.onstack_iff x]
  · intro x y hx hy hxy
    rcases List.mem_cons.mp hx with hxv | hx' <;>
      rcases List.mem_cons.mp hy with hyv | hy'
    · rw [hxv, hyv]
      exact Relation.ReflTransGen.refl
    · exfalso
      rw [hxv, idxO_pushT_self, hidx y (hInv.stack_ix y hy')] at hxy
      exact absurd (lt_of_lt_of_le (hInv.idx_lt y (hInv.stack_ix y hy')) hxy)
        (lt_irrefl _)
    · rw [hyv]
      exact hre x hx'
    · rw [hidx x (hInv.stack_ix x hx'), hidx y (hInv.stack_ix y hy')] at hxy
      exact hInv.stack_reach x y hx' hy' hxy
  · intro x hx
    rcases (indexedT_pushT st v x).mp hx with rfl | hx'
    · exact hu
    · exact hInv.univ_ix x hx'
  · intro x hx
    rcases (indexedT_pushT st v x).mp hx with rfl | hx'
    · rw [idxO_pushT_self, lowO_pushT_self]
    · rw [hidx x hx', lowO_pushT_ne st v x fun he => hni (he ▸ hx')]
      exact hInv.low_le x hx'
  · exact hInv.sccs_nodup
  · intro x hx w hw
    exact (doneT_pushT st v w).mpr (hInv.done_closed x ((doneT_pushT st v x).mp hx) w hw)
  · exact hInv.done_mutual
  · exact hInv.done_max

/-- Ucount strictly drops when a fresh graph node is pushed. -/
theorem ucount_pushT (edges : List (α × α)) (st : TState α) (v : α)
    (hu : v ∈ buildNodes edges) (hni : ¬ indexedT st v) :
    Ucount edges (pushT st v) < Ucount edges st := by
  refine countP_lt_of_flip _ _ _ v hu (buildNodes_nodup edges) ?_ ?_ ?_
  · rw [indexedT] at hni
    rw [Bool.not_eq_true] at hni
    simp [hni]
  · have h2 : indexedT (pushT st v) v := (indexedT_pushT st v v).mpr (Or.inl rfl)
    rw [indexedT] at h2
    simp [h2]
  · intro x _ hxv hq
    by_cases hcon : indexedT st x
    · exfalso
      have h2 := (indexedT_pushT st v x).mpr (Or.inr hcon)
      rw [indexedT] at h2
      simp [h2] at hq
    · rw [indexedT, Bool.not_eq_true] at hcon
      simp [hcon]

/-- Ucount never grows along index-monotone state changes. -/
theorem ucount_mono (edges : List (α × α)) (st st' : TState α)
    (h : ∀ x, indexedT st x → indexedT st' x) :
    Ucount edges st' ≤ Ucount edges st := by
  refine countP_le_of_imp _ _ _ fun x _ hx => ?_
  by_cases hcon : indexedT st x
  · exfalso
    have h2 := h x hcon
    rw [indexedT] at h2
    simp [h2] at hx
  · rw [indexedT, Bool.not_eq_true] at hcon
    simp [hcon]

/-- Off-path finishedness, path ordering and lower-stack reachability
give reachability of `v` from the whole stack (descending lowlink
chains). -/
theorem stack_all_reach (edges : List (α × α)) (st : TState α) (v : α)
    (P : List α) (hfin : OffPathFin edges (v :: P) st)
    (hPlow : ∀ p ∈ P, idxO st p < idxO st v)
    (hlow : ∀ x ∈ st.stack, idxO st x ≤ idxO st v → Reach edges x v) :
    ∀ x ∈ st.stack, Reach edges x v := by
  have main : ∀ n, ∀ x ∈ st.stack, idxO st x = n → Reach edges x v := by
    intro n
    induction n using Nat.strong_induction_on with
    | _ n ih =>
      intro x hx hxn
      by_cases hle : idxO st x ≤ idxO st v
      · exact hlow x hx hle
      · have hxv : x ≠ v := fun he => hle (he ▸ le_refl _)
        have hxP : x ∉ P := fun hp => hle (le_of_lt (hPlow x hp))
        have hfx := hfin x hx (by simp [hxv, hxP])
        obtain ⟨hlt, ⟨w, hw, hwidx, hxw⟩, _⟩ := hfx
        have hwn : idxO st w < n := by omega
        exact hxw.trans (ih (idxO st w) hwn w hw rfl)
  exact fun x hx => main (idxO st x) x hx rfl

/-- Lowering the current node's lowlink (to a value still at most its
index) keeps the invariant. -/
theorem updLow_inv (edges : List (α × α)) (st : TState α) (v : α) (n : Nat)
    (hInv : TarjanInv edges st) (hn : n ≤ idxO st v) :
    TarjanInv edges (updLow st v n) := by
  refine ⟨hInv.idx_lt, hInv.inj, hInv.stack_ix, hInv.done_ix, hInv.split,
    hInv.stack_not_done, hInv.stack_nodup, hInv.onstack_iff, hInv.stack_reach,
    hInv.univ_ix, ?_, hInv.sccs_nodup, hInv.done_closed, hInv.done_mutual,
    hInv.done_max⟩
  intro x hx
  by_cases hxv : x = v
  · subst hxv
    rw [lowO_updLow_self, idxO_updLow]
    exact hn
  · rw [lowO_updLow_ne st v n x hxv, idxO_updLow]
    exact hInv.low_le x hx

/-- `FinN` transfers along any state change that preserves the node's
index and lowlink, keeps the old stack (with indices), and only adds
indexed nodes. -/
theorem finN_mono (edges : List (α × α)) (st st' : TState α) (x : α)
    (hidx : idxO st' x = idxO st x) (hlow : lowO st' x = lowO st x)
    (hstack : ∀ w ∈ st.stack, w ∈ st'.stack ∧ idxO st' w = idxO st w)
    (hix : ∀ w, indexedT st w → indexedT st' w)
    (h : FinN edges st x) : FinN edges st' x := by
  obtain ⟨h1, ⟨w, hw, hwi, hwr⟩, h3⟩ := h
  exact ⟨by rw [hidx, hlow]; exact h1,
    ⟨w, (hstack w hw).1, by rw [(hstack w hw).2, hlow]; exact hwi, hwr⟩,
    fun u hu => hix u (h3 u hu)⟩

/-- Popping down to `v` splits off exactly the segment above and
including `v`. -/
theorem popScc_append (Δ : List α) (v : α) (rest : List α) (hv : v ∉ Δ) :
    popScc (Δ ++ v :: rest) v = (Δ ++ [v], rest) := by
  induction Δ with
  | nil => simp [popScc]
  | cons a t ih =>
    have hav : ¬ a = v := fun h => hv (h ▸ List.mem_cons_self a t)
    simp [popScc, hav, ih fun h => hv (List.mem_cons_of_mem a h)]

/-- The done set is closed under reachability once it is closed under
single edges. -/
theorem done_reach_closed (edges : List (α × α)) (st : TState α)
    (hc : ∀ x, doneT st x → ∀ w ∈ adj edges x, doneT st w)
    (u x : α) (hu : doneT st u) (hr : Reach edges u x) : doneT st x := by
  induction hr with
  | refl => exact hu
  | tail _ he ih =>
    exact hc _ ih _ ((mem_adj_iff edges _ _).mpr he)

/-- The root-pop lemma: at the end of a root's successor loop, popping
the segment above and including the root re-establishes the invariant,
the popped segment becoming a completed SCC block. -/
theorem popT_inv (edges : List (α × α)) (st : TState α) (v : α)
    (Δ rest : List α) (hInv : TarjanInv edges st)
    (hst : st.stack = Δ ++ v :: rest)
    (hroot : lowO st v = idxO st v)
    (hΔfin : ∀ x ∈ Δ, FinN edges st x)
    (hΔbig : ∀ x ∈ Δ, idxO st v < idxO st x)
    (hrest : ∀ x ∈ rest, idxO st x < idxO st v)
    (hΔlow : ∀ x ∈ Δ, lowO st v ≤ lowO st x)
    (hedge : ∀ u, (u = v ∨ u ∈ Δ) → ∀ w ∈ adj edges u,
      doneT st w ∨ (w ∈ st.stack ∧ ((w = v ∨ w ∈ Δ) ∨ lowO st v ≤ idxO st w))) :
    TarjanInv edges (popT st v) ∧ (popT st v).stack = rest ∧
      (∀ x, doneT (popT st v) x ↔ doneT st x ∨ (x = v ∨ x ∈ Δ)) := by
  have hvstack : v ∈ st.stack := by
    rw [hst]; exact List.mem_append_right Δ (List.mem_cons_self v rest)
  have hnd0 : (Δ ++ v :: rest).Nodup := hst ▸ hInv.stack_nodup
  have hvΔ : v ∉ Δ := by
    have := (List.nodup_append.mp hnd0).2.2
    intro hmem
    exact this hmem (List.mem_cons_self v rest)
  have hnd1 : ((Δ ++ [v]) ++ rest).Nodup := by
    rw [List.append_assoc]; exact hnd0
  have hdisj : ∀ x ∈ Δ ++ [v], x ∉ rest := by
    intro x hx hxr
    exact (List.nodup_append.mp hnd1).2.2 hx hxr
  have hpop : popScc st.stack v = (Δ ++ [v], rest) := by
    rw [hst]; exact popScc_append Δ v rest hvΔ
  have hs' : (popT st v).stack = rest := by
    rw [popT]; rw [hpop]
  have ho' : (popT st v).onstack =
      st.onstack.filter (fun x => !((Δ ++ [v]).contains x)) := by
    rw [popT]; rw [hpop]
  have hsc' : (popT st v).sccs = st.sccs ++ [Δ ++ [v]] := by
    rw [popT]; rw [hpop]
  have hBmem : ∀ x, x ∈ Δ ++ [v] ↔ x = v ∨ x ∈ Δ := by
    intro x
    rw [List.mem_append, List.mem_singleton]
    tauto
  have hBstack : ∀ x, (x = v ∨ x ∈ Δ) → x ∈ st.stack := by
    intro x hx
    rw [hst]
    rcases hx with rfl | hx'
    · exact List.mem_append_right Δ (List.mem_cons_self x rest)
    · exact List.mem_append_left _ hx'
  have hdone' : ∀ x, doneT (popT st v) x ↔ doneT st x ∨ (x = v ∨ x ∈ Δ) := by
    intro x
    constructor
    · rintro ⟨B, hB, hxB⟩
      rw [hsc', List.mem_append, List.mem_singleton] at hB
      rcases hB with hB | rfl
      · exact Or.inl ⟨B, hB, hxB⟩
      · exact Or.inr ((hBmem x).mp hxB)
    · rintro (⟨B, hB, hxB⟩ | hx)
      · exact ⟨B, (by rw [hsc']; exact List.mem_append_left _ hB), hxB⟩
      · exact ⟨Δ ++ [v],
          (by rw [hsc']; exact List.mem_append_right _ (List.mem_singleton_self _)),
          (hBmem x).mpr hx⟩
  have hrest_stack : ∀ x ∈ rest, x ∈ st.stack := by
    intro x hx
    rw [hst]
    exact List.mem_append_right Δ (List.mem_cons_of_mem v hx)
  have stack_big_in_B : ∀ w ∈ st.stack, idxO st v ≤ idxO st w → w = v ∨ w ∈ Δ := by
    intro w hw hle
    rw [hst] at hw
    rcases List.mem_append.mp hw with h | h
    · exact Or.inr h
    · rcases List.mem_cons.mp h with h' | h'
      · exact Or.inl h'
      · exact absurd (hrest w h') (not_lt.mpr hle)
  have reach_to_v : ∀ u ∈ Δ, Reach edges u v := by
    have main : ∀ n, ∀ u ∈ Δ, idxO st u = n → Reach edges u v := by
      intro n
      induction n using Nat.strong_induction_on with
      | _ n ih =>
        intro u hu hn
        obtain ⟨hlt, ⟨w0, hw0, hw0i, hw0r⟩, _⟩ := hΔfin u hu
        have h1 : idxO st v ≤ idxO st w0 := by
          rw [hw0i, ← hroot]
          calc lowO st v ≤ lowO st u := hΔlow u hu
            _ = lowO st u := rfl
          -- wait: goal lowO st v ≤ lowO st u, and hw0i rewrote target
        by_cases he : idxO st w0 = idxO st v
        · have hwv : w0 = v :=
            hInv.inj w0 v (hInv.stack_ix w0 hw0) (hInv.stack_ix v hvstack) he
          exact hwv ▸ hw0r
        · have h2 : idxO st v < idxO st w0 := lt_of_le_of_ne h1 (Ne.symm he)
          have hw0Δ : w0 ∈ Δ := by
            rcases stack_big_in_B w0 hw0 (le_of_lt h2) with h' | h'
            · exact absurd (h' ▸ he) (by simp)
            · exact h'
          have hlt2 : idxO st w0 < n := by
            rw [hw0i]; omega
          exact hw0r.trans (ih _ hlt2 w0 hw0Δ rfl)
    exact fun u hu => main (idxO st u) u hu rfl
  have hmutual : ∀ u, (u = v ∨ u ∈ Δ) → ∀ w, (w = v ∨ w ∈ Δ) →
      Reach edges u w := by
    intro u hu w hw
    have huv : Reach edges u v := by
      rcases hu with rfl | hu'
      · exact Relation.ReflTransGen.refl
      · exact reach_to_v u hu'
    have hvw : Reach edges v w := by
      rcases hw with rfl | hw'
      · exact Relation.ReflTransGen.refl
      · exact hInv.stack_reach v w hvstack (hBstack w (Or.inr hw'))
          (le_of_lt (hΔbig w hw'))
    exact huv.trans hvw
  have hdc : ∀ x, doneT (popT st v) x → ∀ w ∈ adj edges x,
      doneT (popT st v) w := by
    intro x hx w hw
    rcases (hdone' x).mp hx with hxd | hxB
    · exact (hdone' w).mpr (Or.inl (hInv.done_closed x hxd w hw))
    · rcases hedge x hxB w hw with hwd | ⟨hws, hcase⟩
      · exact (hdone' w).mpr (Or.inl hwd)
      · rcases hcase with hwB | hwlow
        · exact (hdone' w).mpr (Or.inr hwB)
        · refine (hdone' w).mpr (Or.inr (stack_big_in_B w hws ?_))
          rw [← hroot]; exact hwlow
  refine ⟨⟨?_, ?_, ?_, ?_, ?_, ?_, ?_, ?_, ?_, ?_, ?_, ?_, ?_, ?_, ?_⟩, hs', hdone'⟩
  · exact hInv.idx_lt
  · exact hInv.inj
  · intro x hx
    rw [hs'] at hx
    exact hInv.stack_ix x (hrest_stack x hx)
  · intro x hx
    rcases (hdone' x).mp hx with hxd | hxB
    · exact hInv.done_ix x hxd
    · exact hInv.stack_ix x (hBstack x hxB)
  · intro x hx
    rcases hInv.split x hx with hxs | hxd
    · rw [hst] at hxs
      rcases List.mem_append.mp hxs with h | h
      · exact Or.inr ((hdone' x).mpr (Or.inr (Or.inr h)))
      · rcases List.mem_cons.mp h with h' | h'
        · exact Or.inr ((hdone' x).mpr (Or.inr (Or.inl h')))
        · rw [hs']; exact Or.inl h'
    · exact Or.inr ((hdone' x).mpr (Or.inl hxd))
  · intro x hx hd
    rw [hs'] at hx
    rcases (hdone' x).mp hd with hxd | hxB
    · exact hInv.stack_not_done x (hrest_stack x hx) hxd
    · exact hdisj x ((hBmem x).mpr hxB) hx
  · rw [hs']
    exact (List.nodup_append.mp hnd1).2.1
  · intro x
    rw [ho', hs', List.mem_filter]
    constructor
    · rintro ⟨hmem, hpred⟩
      have hxs : x ∈ st.stack := (hInv.onstack_iff x).mp hmem
      have hxB : x ∉ Δ ++ [v] := by
        intro hxB
        have hc : (Δ ++ [v]).contains x = true := List.elem_iff.mpr hxB
        rw [hc] at hpred
        simp at hpred
      rw [hst] at hxs
      rcases List.mem_append.mp hxs with h | h
      · exact absurd (List.mem_append_left _ h) hxB
      · rcases List.mem_cons.mp h with h' | h'
        · exact absurd (List.mem_append_right _ (h' ▸ List.mem_singleton_self x)) hxB
        · exact h'
    · intro hx
      refine ⟨(hInv.onstack_iff x).mpr (hrest_stack x hx), ?_⟩
      have hxB : x ∉ Δ ++ [v] := fun h => hdisj x h hx
      have : (Δ ++ [v]).contains x = false := by
        rw [Bool.eq_false_iff]
        intro hcon
        exact hxB (List.elem_iff.mp hcon)
      rw [this]
      rfl
  · intro x y hx hy hxy
    rw [hs'] at hx hy
    exact hInv.stack_reach x y (hrest_stack x hx) (hrest_stack y hy) hxy
  · exact hInv.univ_ix
  · exact hInv.low_le
  · intro B hB
    rw [hsc', List.mem_append, List.mem_singleton] at hB
    rcases hB with hB | rfl
    · exact hInv.sccs_nodup B hB
    · exact (List.nodup_append.mp hnd1).1
  · exact hdc
  · intro B hB u hu w hw
    rw [hsc', List.mem_append, List.mem_singleton] at hB
    rcases hB with hB | rfl
    · exact hInv.done_mutual B hB u hu w hw
    · exact hmutual u ((hBmem u).mp hu) w ((hBmem w).mp hw)
  · intro B hB u hu x hux hxu
    rw [hsc', List.mem_append, List.mem_singleton] at hB
    rcases hB with hB | rfl
    · exact hInv.done_max B hB u hu x hux hxu
    · have hxd : doneT (popT st v) x :=
        done_reach_closed edges (popT st v) hdc u x
          ((hdone' u).mpr (Or.inr ((hBmem u).mp hu))) hux
      rcases (hdone' x).mp hxd with hxold | hxB
      · exfalso
        obtain ⟨B0, hB0, hxB0⟩ := hxold
        have hu0 : u ∈ B0 := hInv.done_max B0 hB0 x hxB0 u hxu hux
        exact hInv.stack_not_done u (hBstack u ((hBmem u).mp hu)) ⟨B0, hB0, hu0⟩
      · exact (hBmem x).mpr hxB

/-- A stack all of whose nodes are finished is empty (there is no
minimal finished node). -/
theorem stack_nil_of_all_fin (edges : List (α × α)) (st : TState α)
    (h : ∀ x ∈ st.stack, FinN edges st x) : st.stack = [] := by
  have main : ∀ n, ∀ x ∈ st.stack, idxO st x = n → False := by
    intro n
    induction n using Nat.strong_induction_on with
    | _ n ih =>
      intro x hx hxn
      obtain ⟨hlt, ⟨w, hw, hwidx, _⟩, _⟩ := h x hx
      exact ih (idxO st w) (by omega) w hw rfl
  cases hst : st.stack with
  | nil => rfl
  | cons a t =>
    exact absurd (main (idxO st a) a (hst ▸ List.mem_cons_self a t) rfl) not_false

theorem one_lt_length_of_two_mem (B : List α) (u w : α) (hu : u ∈ B)
    (hw : w ∈ B) (h : u ≠ w) : 1 < B.length := by
  match B with
  | [] => cases hu
  | [a] =>
    rw [List.mem_singleton] at hu hw
    exact absurd (hu.trans hw.symm) h
  | a :: b :: t => simp only [List.length_cons]; omega

/- ### Tarjan verification: the mutual induction -/

theorem idxO_frame (st st' : TState α) (x : α)
    (h : st'.indices.lookup x = st.indices.lookup x) : idxO st' x = idxO st x := by
  unfold idxO lookupD
  rw [h]

theorem lowO_frame (st st' : TState α) (x : α)
    (h : st'.lowlink.lookup x = st.lowlink.lookup x) : lowO st' x = lowO st x := by
  unfold lowO lookupD
  rw [h]

theorem indexedT_frame (st st' : TState α) (x : α)
    (h : st'.indices.lookup x = st.indices.lookup x) :
    indexedT st' x ↔ indexedT st x := by
  unfold indexedT
  rw [h]

theorem ucount_pos (edges : List (α × α)) (st : TState α) (v : α)
    (hu : v ∈ buildNodes edges) (hni : ¬ indexedT st v) :
    0 < Ucount edges st := by
  refine List.countP_pos.mpr ⟨v, hu, ?_⟩
  rw [indexedT] at hni
  rw [Bool.not_eq_true] at hni
  simp [hni]

theorem strongconnect_succ_eq (g : α → List α) (fuel : Nat) (st : TState α) (v : α) :
    strongconnect g (fuel + 1) st v =
      match visitSuccs g fuel (pushT st v) v (g v) with
      | none => none
      | some st2 =>
        if lookupD st2.lowlink v = lookupD st2.indices v then some (popT st2 v)
        else some st2 := rfl

theorem visitSuccs_nil_eq (g : α → List α) (fuel : Nat) (st : TState α) (v : α) :
    visitSuccs g (fuel + 1) st v [] = some st := rfl

theorem visitSuccs_cons_eq (g : α → List α) (fuel : Nat) (st : TState α) (v w : α)
    (ws : List α) :
    visitSuccs g (fuel + 1) st v (w :: ws) =
      if (st.indices.lookup w).isSome then
        visitSuccs g fuel
          (if st.onstack.contains w then
            updLow st v (min (lookupD st.lowlink v) (lookupD st.indices w))
          else st) v ws
      else
        match strongconnect g fuel st w with
        | none => none
        | some st2 =>
          visitSuccs g fuel
            (updLow st2 v (min (lookupD st2.lowlink v) (lookupD st2.lowlink w)))
            v ws := rfl

/-- The `strongconnect` half of the induction step: at fuel `fuel + 1`,
a call on a fresh node meets its contract provided `visitSuccs` meets
its contract at fuel `fuel`. -/
theorem sc_step (edges : List (α × α)) (fuel : Nat) (hVS : VSspec edges fuel) :
    SCspec edges (fuel + 1) := by
  intro st v P hInv hOff hP hu hni hre hfuel
  set M := edges.length + 2 with hM
  have hvnotstack : v ∉ st.stack := fun h => hni (hInv.stack_ix v h)
  have hInv1 : TarjanInv edges (pushT st v) := pushT_inv edges st v hInv hu hni hre
  have hstack1 : (pushT st v).stack = v :: st.stack := rfl
  have hidx1 : (pushT st v).idx = st.idx + 1 := rfl
  have hixne : ∀ x, indexedT st x → x ≠ v := fun x hx he => hni (he ▸ hx)
  have hidxpres : ∀ x, indexedT st x → idxO (pushT st v) x = idxO st x :=
    fun x hx => idxO_pushT_ne st v x (hixne x hx)
  have hixv1 : indexedT (pushT st v) v := (indexedT_pushT st v v).mpr (Or.inl rfl)
  have hOff1 : OffPathFin edges (v :: P) (pushT st v) := by
    intro x hx hxvp
    have hxv : x ≠ v := fun he => hxvp (he ▸ List.mem_cons_self v P)
    have hxP : x ∉ P := fun hp => hxvp (List.mem_cons_of_mem v hp)
    rw [hstack1] at hx
    rcases List.mem_cons.mp hx with he | hx'
    · exact absurd he hxv
    · refine finN_mono edges st (pushT st v) x (idxO_pushT_ne st v x hxv)
        (lowO_pushT_ne st v x hxv) ?_ ?_ (hOff x hx' hxP)
      · intro w hw
        exact ⟨by rw [hstack1]; exact List.mem_cons_of_mem v hw,
          hidxpres w (hInv.stack_ix w hw)⟩
      · intro w hw
        exact (indexedT_pushT st v w).mpr (Or.inr hw)
  have hP1 : ∀ p ∈ P, p ∈ (pushT st v).stack := by
    intro p hp
    rw [hstack1]
    exact List.mem_cons_of_mem v (hP p hp)
  have hv1 : v ∈ (pushT st v).stack := by
    rw [hstack1]
    exact List.mem_cons_self v _
  have hPidx1 : ∀ p ∈ P, idxO (pushT st v) p < idxO (pushT st v) v := by
    intro p hp
    have hpix := hInv.stack_ix p (hP p hp)
    rw [idxO_pushT_self, hidxpres p hpix]
    exact hInv.idx_lt p hpix
  have hlowb1 : ∀ x ∈ (pushT st v).stack,
      idxO (pushT st v) x ≤ idxO (pushT st v) v → Reach edges x v := by
    intro x hx _
    rw [hstack1] at hx
    rcases List.mem_cons.mp hx with he | hx'
    · subst he
      exact Relation.ReflTransGen.refl
    · exact hre x hx'
  have hlowwit1 : ∃ w ∈ (pushT st v).stack,
      idxO (pushT st v) w = lowO (pushT st v) v ∧ Reach edges v w :=
    ⟨v, hv1, by rw [idxO_pushT_self, lowO_pushT_self], Relation.ReflTransGen.refl⟩
  have hU1 : Ucount edges (pushT st v) + 1 ≤ Ucount edges st :=
    ucount_pushT edges st v hu hni
  have hlen : (adj edges v).length ≤ edges.length := adj_length_le edges v
  have hfuel1 : Ucount edges (pushT st v) * M + (adj edges v).length + 1 ≤ fuel := by
    have hmul : (Ucount edges (pushT st v) + 1) * M ≤ Ucount edges st * M :=
      Nat.mul_le_mul_right M hU1
    have h5 : Ucount edges (pushT st v) * M + M =
        (Ucount edges (pushT st v) + 1) * M := by ring
    omega
  obtain ⟨st2, hrun, hvsp, hOff2, hPidx2, hlowb2⟩ :=
    hVS (pushT st v) v P (adj edges v) hInv1 hOff1 hP1 hv1 hPidx1 hlowb1 hlowwit1
      (fun w hw => hw) hfuel1
  have hInv2 : TarjanInv edges st2 := hvsp.inv
  obtain ⟨Δ2, hshape2, hΔ2⟩ := hvsp.stackshape
  have hshape2' : st2.stack = Δ2 ++ v :: st.stack := by rw [hshape2, hstack1]
  have hixframe2 : ∀ x, indexedT st x →
      st2.indices.lookup x = st.indices.lookup x := by
    intro x hx
    calc st2.indices.lookup x
        = (pushT st v).indices.lookup x :=
          hvsp.ixframe x ((indexedT_pushT st v x).mpr (Or.inr hx))
      _ = st.indices.lookup x := lookup_setA_ne st.indices v x st.idx (hixne x hx)
  have hlowframe2 : ∀ x, indexedT st x →
      st2.lowlink.lookup x = st.lowlink.lookup x := by
    intro x hx
    calc st2.lowlink.lookup x
        = (pushT st v).lowlink.lookup x :=
          hvsp.lowframe x ((indexedT_pushT st v x).mpr (Or.inr hx)) (hixne x hx)
      _ = st.lowlink.lookup x := lookup_setA_ne st.lowlink v x st.idx (hixne x hx)
  have hix2 : ∀ x, indexedT st x → indexedT st2 x :=
    fun x hx => (indexedT_frame st st2 x (hixframe2 x hx)).mpr hx
  have hidx2eq : ∀ x, indexedT st x → idxO st2 x = idxO st x :=
    fun x hx => idxO_frame st st2 x (hixframe2 x hx)
  have hixv2 : indexedT st2 v := by
    have h := hvsp.ixframe v hixv1
    rw [indexedT, h]
    exact hixv1
  have hidxv2 : idxO st2 v = st.idx := by
    rw [idxO_frame (pushT st v) st2 v (hvsp.ixframe v hixv1), idxO_pushT_self]
  have hΔ2st : ∀ x ∈ Δ2, ¬ indexedT st x := by
    intro x hx hcon
    exact hΔ2 x hx ((indexedT_pushT st v x).mpr (Or.inr hcon))
  have hΔ2v : ∀ x ∈ Δ2, x ≠ v := by
    intro x hx he
    exact hΔ2 x hx (by rw [he]; exact hixv1)
  have hΔ2mem : ∀ x ∈ Δ2, x ∈ st2.stack := by
    intro x hx
    rw [hshape2']
    exact List.mem_append_left _ hx
  have hΔ2notst1 : ∀ x ∈ Δ2, x ∉ (pushT st v).stack := by
    intro x hx hcon
    exact hΔ2 x hx (hInv1.stack_ix x hcon)
  have hv2 : v ∈ st2.stack := by
    rw [hshape2']
    exact List.mem_append_right _ (List.mem_cons_self v _)
  have hucount2 : Ucount edges st2 ≤ Ucount edges (pushT st v) := by
    refine ucount_mono edges (pushT st v) st2 ?_
    intro x hx
    rw [indexedT, hvsp.ixframe x hx]
    exact hx
  have hsc_eq : strongconnect (adj edges) (fuel + 1) st v =
      if lookupD st2.lowlink v = lookupD st2.indices v then some (popT st2 v)
      else some st2 := by
    rw [strongconnect_succ_eq, hrun]
  by_cases hroot : lookupD st2.lowlink v = lookupD st2.indices v
  · -- v is a root: the SCC above and including it is popped
    rw [if_pos hroot] at hsc_eq
    have hrootlow : lowO st2 v = idxO st2 v := hroot
    have hΔfin : ∀ x ∈ Δ2, FinN edges st2 x := by
      intro x hx
      refine hOff2 x (hΔ2mem x hx) ?_
      intro hcon
      rcases List.mem_cons.mp hcon with he | hp
      · exact hΔ2v x hx he
      · exact hΔ2 x hx (hInv1.stack_ix x (hP1 x hp))
    have hΔbig : ∀ x ∈ Δ2, idxO st2 v < idxO st2 x := by
      intro x hx
      have hxix : indexedT st2 x := hInv2.stack_ix x (hΔ2mem x hx)
      have hb := hvsp.newbig x hxix (hΔ2 x hx)
      rw [hidx1] at hb
      rw [hidxv2]
      omega
    have hrest : ∀ x ∈ st.stack, idxO st2 x < idxO st2 v := by
      intro x hx
      have hxix : indexedT st x := hInv.stack_ix x hx
      rw [hidxv2, hidx2eq x hxix]
      exact hInv.idx_lt x hxix
    have hΔlow : ∀ x ∈ Δ2, lowO st2 v ≤ lowO st2 x := by
      intro x hx
      exact hvsp.lowdom x (hΔ2mem x hx) (hΔ2notst1 x hx)
    have hedge : ∀ u, (u = v ∨ u ∈ Δ2) → ∀ w ∈ adj edges u,
        doneT st2 w ∨
          (w ∈ st2.stack ∧ ((w = v ∨ w ∈ Δ2) ∨ lowO st2 v ≤ idxO st2 w)) := by
      intro u hu w hw
      rcases hu with rfl | huΔ
      · rcases hvsp.procd w hw with hd | ⟨hws, hlow⟩
        · exact Or.inl hd
        · exact Or.inr ⟨hws, Or.inr hlow⟩
      · rcases hvsp.edgewin u (hΔ2mem u huΔ) (hΔ2notst1 u huΔ) w hw with
          hd | ⟨hws, hcase⟩
        · exact Or.inl hd
        · rcases hcase with hnot1 | hlow
          · have hwΔ : w ∈ Δ2 := by
              rw [hshape2] at hws
              rcases List.mem_append.mp hws with h | h
              · exact h
              · exact absurd h hnot1
            exact Or.inr ⟨hws, Or.inl (Or.inr hwΔ)⟩
          · exact Or.inr ⟨hws, Or.inr hlow⟩
    obtain ⟨hInv', hstack', hdone'⟩ :=
      popT_inv edges st2 v Δ2 st.stack hInv2 hshape2' hrootlow hΔfin hΔbig hrest
        hΔlow hedge
    have hpopix : (popT st2 v).indices = st2.indices := rfl
    have hpoplow : (popT st2 v).lowlink = st2.lowlink := rfl
    have hpopidx : (popT st2 v).idx = st2.idx := rfl
    refine ⟨popT st2 v, hsc_eq, ?_, ?_⟩
    · refine ⟨hInv', ?_, ?_, ?_, ?_, ?_, ?_, ?_, ?_, ?_, ?_, ?_, ?_, ?_, ?_⟩
      · intro x hx
        rw [hpopix]
        exact hixframe2 x hx
      · intro x hx
        rw [hpoplow]
        exact hlowframe2 x hx
      · rw [indexedT, hpopix]
        exact hixv2
      · intro x hx
        have hx2 : indexedT st2 x := by rw [indexedT, hpopix] at hx; exact hx
        rcases hvsp.newreach x hx2 with h1 | h2
        · rcases (indexedT_pushT st v x).mp h1 with rfl | h1'
          · exact Or.inr Relation.ReflTransGen.refl
          · exact Or.inl h1'
        · exact Or.inr h2
      · intro x hx hnx
        have hx2 : indexedT st2 x := by rw [indexedT, hpopix] at hx; exact hx
        have hidxeq : idxO (popT st2 v) x = idxO st2 x :=
          idxO_frame st2 _ x (by rw [hpopix])
        rw [hidxeq]
        by_cases hx1 : indexedT (pushT st v) x
        · rcases (indexedT_pushT st v x).mp hx1 with rfl | h1'
          · exact le_of_eq hidxv2.symm
          · exact absurd h1' hnx
        · have hb := hvsp.newbig x hx2 hx1
          rw [hidx1] at hb
          omega
      · rw [hpopidx]
        have hg := hvsp.idxgrow
        rw [hidx1] at hg
        omega
      · refine ⟨[], ?_, ?_⟩
        · rw [hstack']
          rfl
        · intro x hx
          exact absurd hx (List.not_mem_nil x)
      · intro x hx
        exact (hdone' x).mpr (Or.inl (hvsp.donemono x hx))
      · have hpopU : Ucount edges (popT st2 v) = Ucount edges st2 := rfl
        rw [hpopU]
        omega
      · intro hv'
        exfalso
        rw [hstack'] at hv'
        exact hvnotstack hv'
      · intro hv'
        exfalso
        rw [hstack'] at hv'
        exact hvnotstack hv'
      · exact Or.inr ((hdone' v).mpr (Or.inr (Or.inl rfl)))
      · intro _
        have h1 : lowO (popT st2 v) v = lowO st2 v :=
          lowO_frame st2 _ v (by rw [hpoplow])
        have h2 : idxO (popT st2 v) v = idxO st2 v :=
          idxO_frame st2 _ v (by rw [hpopix])
        rw [h1, h2]
        exact hrootlow
      · intro _
        exact hstack'
    · intro x hx hxP
      rw [hstack'] at hx
      refine finN_mono edges st (popT st2 v) x ?_ ?_ ?_ ?_ (hOff x hx hxP)
      · exact idxO_frame st _ x
          (by rw [hpopix]; exact hixframe2 x (hInv.stack_ix x hx))
      · exact lowO_frame st _ x
          (by rw [hpoplow]; exact hlowframe2 x (hInv.stack_ix x hx))
      · intro w hw
        refine ⟨by rw [hstack']; exact hw, ?_⟩
        exact idxO_frame st _ w
          (by rw [hpopix]; exact hixframe2 w (hInv.stack_ix w hw))
      · intro w hw
        rw [indexedT, hpopix]
        exact hix2 w hw
  · -- v is not a root: it stays on the stack, finished
    rw [if_neg hroot] at hsc_eq
    have hlowlt : lowO st2 v < idxO st2 v :=
      lt_of_le_of_ne (hInv2.low_le v hixv2) hroot
    refine ⟨st2, hsc_eq, ?_, ?_⟩
    · refine ⟨hInv2, hixframe2, hlowframe2, hixv2, ?_, ?_, ?_, ?_, ?_, ?_, ?_,
        ?_, ?_, ?_, ?_⟩
      · intro x hx
        rcases hvsp.newreach x hx with h1 | h2
        · rcases (indexedT_pushT st v x).mp h1 with rfl | h1'
          · exact Or.inr Relation.ReflTransGen.refl
          · exact Or.inl h1'
        · exact Or.inr h2
      · intro x hx hnx
        by_cases hx1 : indexedT (pushT st v) x
        · rcases (indexedT_pushT st v x).mp hx1 with rfl | h1'
          · exact le_of_eq hidxv2.symm
          · exact absurd h1' hnx
        · have hb := hvsp.newbig x hx hx1
          rw [hidx1] at hb
          omega
      · have hg := hvsp.idxgrow
        rw [hidx1] at hg
        omega
      · refine ⟨Δ2 ++ [v], ?_, ?_⟩
        · rw [hshape2', List.append_assoc]
          rfl
        · intro x hx
          rcases List.mem_append.mp hx with h | h
          · exact hΔ2st x h
          · rw [List.mem_singleton] at h
            rw [h]
            exact hni
      · exact fun x hx => hvsp.donemono x hx
      · omega
      · intro _ u hu hust w hw
        by_cases hu1 : u ∈ (pushT st v).stack
        · have huv : u = v := by
            rw [hstack1] at hu1
            rcases List.mem_cons.mp hu1 with h | h
            · exact h
            · exact absurd h hust
          subst huv
          rcases hvsp.procd w hw with hd | ⟨hws, hlow⟩
          · exact Or.inl hd
          · exact Or.inr ⟨hws, Or.inr hlow⟩
        · rcases hvsp.edgewin u hu hu1 w hw with hd | ⟨hws, hcase⟩
          · exact Or.inl hd
          · rcases hcase with hnot1 | hlow
            · refine Or.inr ⟨hws, Or.inl ?_⟩
              intro hcon
              exact hnot1 (by rw [hstack1]; exact List.mem_cons_of_mem v hcon)
            · exact Or.inr ⟨hws, Or.inr hlow⟩
      · intro _ u hu hust
        by_cases hu1 : u ∈ (pushT st v).stack
        · have huv : u = v := by
            rw [hstack1] at hu1
            rcases List.mem_cons.mp hu1 with h | h
            · exact h
            · exact absurd h hust
          subst huv
          exact le_refl _
        · exact hvsp.lowdom u hu hu1
      · exact Or.inl hv2
      · intro hd
        exact absurd hd (hInv2.stack_not_done v hv2)
      · intro hd
        exact absurd hd (hInv2.stack_not_done v hv2)
    · intro x hx hxP
      by_cases hxv : x = v
      · subst hxv
        refine ⟨hlowlt, hvsp.lowwit, ?_⟩
        intro w hw
        rcases hvsp.procd w hw with hd | ⟨hws, _⟩
        · exact hInv2.done_ix w hd
        · exact hInv2.stack_ix w hws
      · refine hOff2 x hx ?_
        intro hcon
        rcases List.mem_cons.mp hcon with h | h
        · exact hxv h
        · exact hxP h

/-- The `visitSuccs` half of the induction step: at fuel `fuel + 1`,
the successor loop meets its contract provided both functions meet
their contracts at fuel `fuel`. -/
theorem vs_step (edges : List (α × α)) (fuel : Nat) (hSC : SCspec edges fuel)
    (hVS : VSspec edges fuel) : VSspec edges (fuel + 1) := by
  intro st v P ws hInv hOff hP hvst hPidx hlowb hlowwit hws hfuel
  set M := edges.length + 2 with hM
  cases ws with
  | nil =>
    refine ⟨st, visitSuccs_nil_eq _ _ _ _, ?_, hOff, hPidx, hlowb⟩
    refine ⟨hInv, fun x _ => rfl, fun x _ _ => rfl, le_refl _, le_refl _,
      fun x hx => Or.inl hx, fun x hx hnx => absurd hx hnx, ⟨[], rfl, ?_⟩,
      fun x hx => hx, le_refl _, hlowwit, ?_, ?_, ?_⟩
    · intro x hx
      exact absurd hx (List.not_mem_nil x)
    · intro w0 hw0
      exact absurd hw0 (List.not_mem_nil w0)
    · intro u hu hnu
      exact absurd hu hnu
    · intro u hu hnu
      exact absurd hu hnu
  | cons w ws' =>
    have hw_adj : w ∈ adj edges v := hws w (List.mem_cons_self w ws')
    have hws' : ∀ x ∈ ws', x ∈ adj edges v :=
      fun x hx => hws x (List.mem_cons_of_mem w hx)
    simp only [List.length_cons] at hfuel
    have hvix : indexedT st v := hInv.stack_ix v hvst
    by_cases hwix : (st.indices.lookup w).isSome = true
    · -- the successor is already indexed
      by_cases hwon : st.onstack.contains w = true
      · -- on-stack successor: merge indices[w] into lowlink[v]
        rw [visitSuccs_cons_eq, if_pos hwix, if_pos hwon]
        set A := updLow st v (min (lookupD st.lowlink v) (lookupD st.indices w))
          with hA
        have hwstack : w ∈ st.stack :=
          (hInv.onstack_iff w).mp (List.elem_iff.mp hwon)
        have hm_le : min (lookupD st.lowlink v) (lookupD st.indices w) ≤
            idxO st v :=
          le_trans (Nat.min_le_left _ _) (hInv.low_le v hvix)
        have hInvA : TarjanInv edges A := updLow_inv edges st v _ hInv hm_le
        have hOffA : OffPathFin edges (v :: P) A := by
          intro x hx hxvp
          have hxv : x ≠ v :=
            fun he => hxvp (by rw [he]; exact List.mem_cons_self v P)
          exact finN_mono edges st A x rfl (lowO_updLow_ne st v _ x hxv)
            (fun w0 hw0 => ⟨hw0, rfl⟩) (fun w0 hw0 => hw0) (hOff x hx hxvp)
        have hlowwitA : ∃ w0 ∈ A.stack, idxO A w0 = lowO A v ∧
            Reach edges v w0 := by
          rcases le_total (lookupD st.lowlink v) (lookupD st.indices w) with
            hle | hle
          · obtain ⟨w0, hw0, hw0i, hw0r⟩ := hlowwit
            refine ⟨w0, hw0, ?_, hw0r⟩
            show idxO st w0 = lowO A v
            rw [hA, lowO_updLow_self, Nat.min_eq_left hle]
            exact hw0i
          · refine ⟨w, hwstack, ?_,
              reach_step edges v w ((mem_adj_iff edges v w).mp hw_adj)⟩
            show idxO st w = lowO A v
            rw [hA, lowO_updLow_self, Nat.min_eq_right hle]
            rfl
        have hfuelA : Ucount edges A * M + ws'.length + 1 ≤ fuel := by
          have hUA : Ucount edges A = Ucount edges st := rfl
          rw [hUA]
          omega
        obtain ⟨st'', hrun, hpost, hOff'', hPidx'', hlowb''⟩ :=
          hVS A v P ws' hInvA hOffA hP hvst hPidx hlowb hlowwitA hws' hfuelA
        refine ⟨st'', hrun, ?_, hOff'', hPidx'', hlowb''⟩
        refine ⟨hpost.inv, hpost.ixframe, ?_, ?_, hpost.idxgrow, hpost.newreach,
          hpost.newbig, hpost.stackshape, hpost.donemono, hpost.ucount,
          hpost.lowwit, ?_, hpost.edgewin, hpost.lowdom⟩
        · intro x hx hxv
          calc st''.lowlink.lookup x = A.lowlink.lookup x :=
              hpost.lowframe x hx hxv
            _ = st.lowlink.lookup x := lookup_setA_ne st.lowlink v x _ hxv
        · calc lowO st'' v ≤ lowO A v := hpost.lowv_le
            _ ≤ lookupD st.lowlink v := by
                rw [hA, lowO_updLow_self]
                exact Nat.min_le_left _ _
        · intro w0 hw0
          rcases List.mem_cons.mp hw0 with he | hw0'
          · rw [he]
            obtain ⟨Δr, hΔr, _⟩ := hpost.stackshape
            refine Or.inr ⟨?_, ?_⟩
            · rw [hΔr]
              exact List.mem_append_right _ hwstack
            · have hidxe : idxO st'' w = idxO st w :=
                idxO_frame st st'' w (hpost.ixframe w hwix)
              rw [hidxe]
              calc lowO st'' v ≤ lowO A v := hpost.lowv_le
                _ ≤ lookupD st.indices w := by
                    rw [hA, lowO_updLow_self]
                    exact Nat.min_le_right _ _
                _ = idxO st w := rfl
          · exact hpost.procd w0 hw0'
      · -- indexed but off-stack successor: it is done, nothing changes
        rw [visitSuccs_cons_eq, if_pos hwix, if_neg hwon]
        have hfuelB : Ucount edges st * M + ws'.length + 1 ≤ fuel := by omega
        obtain ⟨st'', hrun, hpost, hOff'', hPidx'', hlowb''⟩ :=
          hVS st v P ws' hInv hOff hP hvst hPidx hlowb hlowwit hws' hfuelB
        refine ⟨st'', hrun, ?_, hOff'', hPidx'', hlowb''⟩
        refine ⟨hpost.inv, hpost.ixframe, hpost.lowframe, hpost.lowv_le,
          hpost.idxgrow, hpost.newreach, hpost.newbig, hpost.stackshape,
          hpost.donemono, hpost.ucount, hpost.lowwit, ?_, hpost.edgewin,
          hpost.lowdom⟩
        intro w0 hw0
        rcases List.mem_cons.mp hw0 with he | hw0'
        · rw [he]
          rcases hInv.split w hwix with hcon | hd
          · exact absurd (List.elem_iff.mpr ((hInv.onstack_iff w).mpr hcon)) hwon
          · exact Or.inl (hpost.donemono w hd)
        · exact hpost.procd w0 hw0'
    · -- fresh successor: recursive strongconnect call, then lowlink merge
      have hniw : ¬ indexedT st w := hwix
      have hPvP : ∀ p ∈ v :: P, p ∈ st.stack := by
        intro p hp
        rcases List.mem_cons.mp hp with he | hp'
        · rw [he]
          exact hvst
        · exact hP p hp'
      have hw_univ : w ∈ buildNodes edges := (adj_mem_univ edges v w hw_adj).2
      have hall : ∀ x ∈ st.stack, Reach edges x v :=
        stack_all_reach edges st v P hOff hPidx hlowb
      have hre_w : ∀ x ∈ st.stack, Reach edges x w := fun x hx =>
        (hall x hx).trans (reach_step edges v w ((mem_adj_iff edges v w).mp hw_adj))
      have hfuelSC : Ucount edges st * M ≤ fuel := by omega
      obtain ⟨st2, hrun2, hscp, hOff2⟩ :=
        hSC st w (v :: P) hInv hOff hPvP hw_univ hniw hre_w hfuelSC
      have hInv2 : TarjanInv edges st2 := hscp.inv
      obtain ⟨Δ2, hshape2, hΔ2⟩ := hscp.stackshape
      have hix2 : ∀ x, indexedT st x → indexedT st2 x :=
        fun x hx => (indexedT_frame st st2 x (hscp.ixframe x hx)).mpr hx
      have hidx2 : ∀ x, indexedT st x → idxO st2 x = idxO st x :=
        fun x hx => idxO_frame st st2 x (hscp.ixframe x hx)
      have hlow2 : ∀ x, indexedT st x → lowO st2 x = lowO st x :=
        fun x hx => lowO_frame st st2 x (hscp.lowframe x hx)
      have hstmem : ∀ x ∈ st.stack, x ∈ st2.stack := by
        intro x hx
        rw [hshape2]
        exact List.mem_append_right _ hx
      have hv2 : v ∈ st2.stack := hstmem v hvst
      have hvix2 : indexedT st2 v := hix2 v hvix
      set B := updLow st2 v (min (lookupD st2.lowlink v) (lookupD st2.lowlink w))
        with hB
      have hm2le : min (lookupD st2.lowlink v) (lookupD st2.lowlink w) ≤
          idxO st2 v :=
        le_trans (Nat.min_le_left _ _) (hInv2.low_le v hvix2)
      have hInvB : TarjanInv edges B := updLow_inv edges st2 v _ hInv2 hm2le
      have hOffB : OffPathFin edges (v :: P) B := by
        intro x hx hxvp
        have hxv : x ≠ v :=
          fun he => hxvp (by rw [he]; exact List.mem_cons_self v P)
        exact finN_mono edges st2 B x rfl (lowO_updLow_ne st2 v _ x hxv)
          (fun w0 hw0 => ⟨hw0, rfl⟩) (fun w0 hw0 => hw0) (hOff2 x hx hxvp)
      have hPB : ∀ p ∈ P, p ∈ B.stack := fun p hp => hstmem p (hP p hp)
      have hvB : v ∈ B.stack := hv2
      have hPidxB : ∀ p ∈ P, idxO B p < idxO B v := by
        intro p hp
        have hpix := hInv.stack_ix p (hP p hp)
        show idxO st2 p < idxO st2 v
        rw [hidx2 p hpix, hidx2 v hvix]
        exact hPidx p hp
      have hlowbB : ∀ x ∈ B.stack, idxO B x ≤ idxO B v → Reach edges x v := by
        intro x hx hle
        have hx2 : x ∈ st2.stack := hx
        have hle' : idxO st2 x ≤ idxO st2 v := hle
        rw [hshape2] at hx2
        rcases List.mem_append.mp hx2 with hxΔ | hxst
        · exfalso
          have hxix : indexedT st2 x := hInv2.stack_ix x hx
          have hb := hscp.newbig x hxix (hΔ2 x hxΔ)
          have hvlt : idxO st v < st.idx := hInv.idx_lt v hvix
          rw [hidx2 v hvix] at hle'
          omega
        · rw [hidx2 x (hInv.stack_ix x hxst), hidx2 v hvix] at hle'
          exact hlowb x hxst hle'
      have hlowwitB : ∃ w0 ∈ B.stack, idxO B w0 = lowO B v ∧
          Reach edges v w0 := by
        rcases hscp.vend with hw2stack | hwdone
        · rcases le_total (lookupD st2.lowlink v) (lookupD st2.lowlink w) with
            hle | hle
          · obtain ⟨w0, hw0, hw0i, hw0r⟩ := hlowwit
            refine ⟨w0, hstmem w0 hw0, ?_, hw0r⟩
            show idxO st2 w0 = lowO B v
            rw [hB, lowO_updLow_self, Nat.min_eq_left hle,
              hidx2 w0 (hInv.stack_ix w0 hw0), hw0i]
            exact (hlow2 v hvix).symm
          · have hwvp : w ∉ v :: P := by
              intro hcon
              rcases List.mem_cons.mp hcon with he | hp
              · exact hniw (by rw [he]; exact hvix)
              · exact hniw (hInv.stack_ix w (hP w hp))
            obtain ⟨_, ⟨w1, hw1, hw1i, hw1r⟩, _⟩ := hOff2 w hw2stack hwvp
            refine ⟨w1, hw1, ?_,
              (reach_step edges v w ((mem_adj_iff edges v w).mp hw_adj)).trans hw1r⟩
            show idxO st2 w1 = lowO B v
            rw [hB, lowO_updLow_self, Nat.min_eq_right hle]
            exact hw1i
        · have h1 : lookupD st2.lowlink v = lookupD st.lowlink v := hlow2 v hvix
          have h2 : lookupD st2.lowlink w = lookupD st2.indices w :=
            hscp.rootlow hwdone
          have hb' : st.idx ≤ lookupD st2.indices w :=
            hscp.newbig w hscp.ixv hniw
          have hvlow : lookupD st.lowlink v ≤ lookupD st.indices v :=
            hInv.low_le v hvix
          have hvlt' : lookupD st.indices v < st.idx := hInv.idx_lt v hvix
          have hle : lookupD st2.lowlink v ≤ lookupD st2.lowlink w := by omega
          obtain ⟨w0, hw0, hw0i, hw0r⟩ := hlowwit
          refine ⟨w0, hstmem w0 hw0, ?_, hw0r⟩
          show idxO st2 w0 = lowO B v
          rw [hB, lowO_updLow_self, Nat.min_eq_left hle,
            hidx2 w0 (hInv.stack_ix w0 hw0), hw0i]
          exact (hlow2 v hvix).symm
      have hfuelB : Ucount edges B * M + ws'.length + 1 ≤ fuel := by
        have hUB : Ucount edges B = Ucount edges st2 := rfl
        have hUlt : Ucount edges st2 < Ucount edges st := hscp.ucount
        have hmul : (Ucount edges st2 + 1) * M ≤ Ucount edges st * M :=
          Nat.mul_le_mul_right M hUlt
        have h5 : Ucount edges st2 * M + M = (Ucount edges st2 + 1) * M := by ring
        rw [hUB]
        omega
      obtain ⟨st'', hrun'', hpost, hOff'', hPidx'', hlowb''⟩ :=
        hVS B v P ws' hInvB hOffB hPB hvB hPidxB hlowbB hlowwitB hws' hfuelB
      refine ⟨st'', ?_, ?_, hOff'', hPidx'', hlowb''⟩
      · rw [visitSuccs_cons_eq, if_neg hwix, hrun2]
        exact hrun''
      refine ⟨hpost.inv, ?_, ?_, ?_, ?_, ?_, ?_, ?_, ?_, ?_, hpost.lowwit,
        ?_, ?_, ?_⟩
      · intro x hx
        calc st''.indices.lookup x = st2.indices.lookup x :=
            hpost.ixframe x (hix2 x hx)
          _ = st.indices.lookup x := hscp.ixframe x hx
      · intro x hx hxv
        calc st''.lowlink.lookup x = B.lowlink.lookup x :=
            hpost.lowframe x (hix2 x hx) hxv
          _ = st2.lowlink.lookup x := lookup_setA_ne st2.lowlink v x _ hxv
          _ = st.lowlink.lookup x := hscp.lowframe x hx
      · calc lowO st'' v ≤ lowO B v := hpost.lowv_le
          _ ≤ lookupD st2.lowlink v := by
              rw [hB, lowO_updLow_self]
              exact Nat.min_le_left _ _
          _ = lookupD st.lowlink v := hlow2 v hvix
      · have h1 : st.idx < st2.idx := hscp.idxgrow
        have h2 : st2.idx ≤ st''.idx := hpost.idxgrow
        omega
      · intro x hx
        rcases hpost.newreach x hx with h1 | h2
        · rcases hscp.newreach x h1 with h3 | h4
          · exact Or.inl h3
          · exact Or.inr
              ((reach_step edges v w ((mem_adj_iff edges v w).mp hw_adj)).trans h4)
        · exact Or.inr h2
      · intro x hx hnx
        by_cases h2 : indexedT st2 x
        · have hb := hscp.newbig x h2 hnx
          have hidxe : idxO st'' x = idxO st2 x :=
            idxO_frame st2 st'' x (hpost.ixframe x h2)
          omega
        · have hb' : st2.idx ≤ idxO st'' x := hpost.newbig x hx h2
          have h1 : st.idx < st2.idx := hscp.idxgrow
          omega
      · obtain ⟨Δr, hΔr, hΔrix⟩ := hpost.stackshape
        refine ⟨Δr ++ Δ2, ?_, ?_⟩
        · rw [hΔr]
          show Δr ++ st2.stack = (Δr ++ Δ2) ++ st.stack
          rw [hshape2, List.append_assoc]
        · intro x hx
          rcases List.mem_append.mp hx with h | h
          · intro hcon
            exact hΔrix x h (hix2 x hcon)
          · exact hΔ2 x h
      · exact fun x hx => hpost.donemono x (hscp.donemono x hx)
      · have h1 : Ucount edges st'' ≤ Ucount edges st2 := hpost.ucount
        have h2 : Ucount edges st2 < Ucount edges st := hscp.ucount
        omega
      · intro w0 hw0
        rcases List.mem_cons.mp hw0 with he | hw0'
        · rw [he]
          rcases hscp.vend with hw2stack | hwdone
          · obtain ⟨Δr, hΔr, _⟩ := hpost.stackshape
            refine Or.inr ⟨?_, ?_⟩
            · rw [hΔr]
              exact List.mem_append_right _ hw2stack
            · have hwix2 : indexedT st2 w := hscp.ixv
              have hidxe : idxO st'' w = idxO st2 w :=
                idxO_frame st2 st'' w (hpost.ixframe w hwix2)
              rw [hidxe]
              calc lowO st'' v ≤ lowO B v := hpost.lowv_le
                _ ≤ lookupD st2.lowlink w := by
                    rw [hB, lowO_updLow_self]
                    exact Nat.min_le_right _ _
                _ ≤ idxO st2 w := hInv2.low_le w hscp.ixv
          · exact Or.inl (hpost.donemono w hwdone)
        · exact hpost.procd w0 hw0'
      · intro u hu hust w1 hw1
        by_cases huB : u ∈ st2.stack
        · have huΔ2 : u ∈ Δ2 := by
            rw [hshape2] at huB
            rcases List.mem_append.mp huB with h | h
            · exact h
            · exact absurd h hust
          rcases hscp.vend with hw2stack | hwdone
          · rcases hscp.edgewin hw2stack u huB hust w1 hw1 with hd | ⟨hws1, hcase⟩
            · exact Or.inl (hpost.donemono w1 hd)
            · obtain ⟨Δr, hΔr, _⟩ := hpost.stackshape
              have hw1'' : w1 ∈ st''.stack := by
                rw [hΔr]
                exact List.mem_append_right _ hws1
              rcases hcase with hnotst | hlowle
              · exact Or.inr ⟨hw1'', Or.inl hnotst⟩
              · refine Or.inr ⟨hw1'', Or.inr ?_⟩
                have hw1ix : indexedT st2 w1 := hInv2.stack_ix w1 hws1
                have hidxe : idxO st'' w1 = idxO st2 w1 :=
                  idxO_frame st2 st'' w1 (hpost.ixframe w1 hw1ix)
                rw [hidxe]
                calc lowO st'' v ≤ lowO B v := hpost.lowv_le
                  _ ≤ lookupD st2.lowlink w := by
                      rw [hB, lowO_updLow_self]
                      exact Nat.min_le_right _ _
                  _ ≤ idxO st2 w1 := hlowle
          · exfalso
            have heq := hscp.dstack hwdone
            rw [heq] at huB
            exact hust huB
        · rcases hpost.edgewin u hu huB w1 hw1 with hd | ⟨hws1, hcase⟩
          · exact Or.inl hd
          · rcases hcase with hnotB | hlowle
            · refine Or.inr ⟨hws1, Or.inl ?_⟩
              intro hcon
              exact hnotB (hstmem w1 hcon)
            · exact Or.inr ⟨hws1, Or.inr hlowle⟩
      · intro u hu hust
        by_cases huB : u ∈ st2.stack
        · have huΔ2 : u ∈ Δ2 := by
            rw [hshape2] at huB
            rcases List.mem_append.mp huB with h | h
            · exact h
            · exact absurd h hust
          rcases hscp.vend with hw2stack | hwdone
          · have hlowd := hscp.lowdom hw2stack u huB hust
            have huv : u ≠ v := fun he => hust (by rw [he]; exact hvst)
            have huix2 : indexedT st2 u := hInv2.stack_ix u huB
            have hlowe : lowO st'' u = lowO st2 u := by
              refine lowO_frame st2 st'' u ?_
              calc st''.lowlink.lookup u = B.lowlink.lookup u :=
                  hpost.lowframe u huix2 huv
                _ = st2.lowlink.lookup u := lookup_setA_ne st2.lowlink v u _ huv
            rw [hlowe]
            calc lowO st'' v ≤ lowO B v := hpost.lowv_le
              _ ≤ lookupD st2.lowlink w := by
                  rw [hB, lowO_updLow_self]
                  exact Nat.min_le_right _ _
              _ ≤ lowO st2 u := hlowd
          · exfalso
            have heq := hscp.dstack hwdone
            rw [heq] at huB
            exact hust huB
        · exact hpost.lowdom u hu huB

/-- Both contracts hold at every fuel level. -/
theorem scvs_all (edges : List (α × α)) :
    ∀ fuel : Nat, SCspec edges fuel ∧ VSspec edges fuel := by
  intro fuel
  induction fuel with
  | zero =>
    constructor
    · intro st v P hInv hOff hP hu hni hre hfuel
      exfalso
      have h1 : 0 < Ucount edges st := ucount_pos edges st v hu hni
      have h2 : 0 < Ucount edges st * (edges.length + 2) :=
        Nat.mul_pos h1 (by omega)
      omega
    · intro st v P ws hInv hOff hP hvst hPidx hlowb hlowwit hws hfuel
      exact absurd hfuel (by omega)
  | succ fuel ih => exact ⟨sc_step edges fuel ih.2, vs_step edges fuel ih.1 ih.2⟩

theorem initT_not_indexed (x : α) : ¬ indexedT (initT : TState α) x := by
  rw [indexedT]
  simp [initT]

/-- The empty state satisfies the invariant. -/
theorem initT_inv (edges : List (α × α)) : TarjanInv edges (initT : TState α) := by
  refine ⟨?_, ?_, ?_, ?_, ?_, ?_, ?_, ?_, ?_, ?_, ?_, ?_, ?_, ?_, ?_⟩
  · intro x hx
    exact absurd hx (initT_not_indexed x)
  · intro x y hx _ _
    exact absurd hx (initT_not_indexed x)
  · intro x hx
    exact absurd hx (List.not_mem_nil x)
  · rintro x ⟨B, hB, -⟩
    exact absurd hB (List.not_mem_nil B)
  · intro x hx
    exact absurd hx (initT_not_indexed x)
  · intro x hx _
    exact absurd hx (List.not_mem_nil x)
  · exact List.nodup_nil
  · intro x
    exact Iff.rfl
  · intro x y hx _ _
    exact absurd hx (List.not_mem_nil x)
  · intro x hx
    exact absurd hx (initT_not_indexed x)
  · intro x hx
    exact absurd hx (initT_not_indexed x)
  · intro B hB
    exact absurd hB (List.not_mem_nil B)
  · rintro x ⟨B, hB, -⟩
    exact absurd hB (List.not_mem_nil B)
  · intro B hB
    exact absurd hB (List.not_mem_nil B)
  · intro B hB
    exact absurd hB (List.not_mem_nil B)

theorem tarjanMain_cons_eq (g : α → List α) (fuel : Nat) (v : α) (vs : List α)
    (st : TState α) :
    tarjanMain g fuel (v :: vs) st =
      if (st.indices.lookup v).isSome then tarjanMain g fuel vs st
      else
        match strongconnect g fuel st v with
        | none => none
        | some st' => tarjanMain g fuel vs st' := rfl

/-- The driver loop indexes every listed graph node, keeps the
invariant, and ends with an empty stack. -/
theorem tarjanMain_spec (edges : List (α × α)) :
    ∀ (vs : List α) (st : TState α), TarjanInv edges st → st.stack = [] →
    (∀ v ∈ vs, v ∈ buildNodes edges) →
    ∃ st', tarjanMain (adj edges) (tFuel edges) vs st = some st' ∧
      TarjanInv edges st' ∧ st'.stack = [] ∧
      (∀ x, indexedT st x → indexedT st' x) ∧ (∀ v ∈ vs, indexedT st' v) := by
  intro vs
  induction vs with
  | nil =>
    intro st hInv hstk _
    exact ⟨st, rfl, hInv, hstk, fun x hx => hx,
      fun v hv => absurd hv (List.not_mem_nil v)⟩
  | cons v vs ih =>
    intro st hInv hstk hvs
    by_cases hvi : (st.indices.lookup v).isSome = true
    · obtain ⟨st', h1, h2, h3, h4, h5⟩ :=
        ih st hInv hstk (fun x hx => hvs x (List.mem_cons_of_mem v hx))
      refine ⟨st', ?_, h2, h3, h4, ?_⟩
      · rw [tarjanMain_cons_eq, if_pos hvi]
        exact h1
      · intro x hx
        rcases List.mem_cons.mp hx with he | hx'
        · rw [he]
          exact h4 v hvi
        · exact h5 x hx'
    · have hOffnil : OffPathFin edges [] st := by
        intro x hx _
        rw [hstk] at hx
        exact absurd hx (List.not_mem_nil x)
      have hPnil : ∀ p ∈ ([] : List α), p ∈ st.stack :=
        fun p hp => absurd hp (List.not_mem_nil p)
      have hre : ∀ x ∈ st.stack, Reach edges x v := by
        intro x hx
        rw [hstk] at hx
        exact absurd hx (List.not_mem_nil x)
      have hfuel : Ucount edges st * (edges.length + 2) ≤ tFuel edges := by
        have h1 : Ucount edges st ≤ (buildNodes edges).length :=
          List.countP_le_length _
        show Ucount edges st * (edges.length + 2) ≤
          ((buildNodes edges).length + 1) * (edges.length + 2)
        exact Nat.mul_le_mul_right _ (le_trans h1 (Nat.le_succ _))
      obtain ⟨st2, hrun, hscp, hOffend⟩ :=
        (scvs_all edges (tFuel edges)).1 st v [] hInv hOffnil hPnil
          (hvs v (List.mem_cons_self v vs)) hvi hre hfuel
      have hstk2 : st2.stack = [] :=
        stack_nil_of_all_fin edges st2
          (fun x hx => hOffend x hx (List.not_mem_nil x))
      obtain ⟨st', h1, h2, h3, h4, h5⟩ :=
        ih st2 hscp.inv hstk2 (fun x hx => hvs x (List.mem_cons_of_mem v hx))
      refine ⟨st', ?_, h2, h3, ?_, ?_⟩
      · rw [tarjanMain_cons_eq, if_neg hvi, hrun]
        exact h1
      · intro x hx
        refine h4 x ?_
        rw [indexedT, hscp.ixframe x hx]
        exact hx
      · intro x hx
        rcases List.mem_cons.mp hx with he | hx'
        · rw [he]
          exact h4 v hscp.ixv
        · exact h5 x hx'

theorem mem_sccFilter_step (edges : List (α × α)) (acc : List α) (scc : List α)
    (u : α) :
    u ∈ (if 1 < scc.length then acc ++ scc
      else
        match scc with
        | [w] => if (adj edges w).contains w then acc ++ [w] else acc
        | _ => acc) ↔
    u ∈ acc ∨ (u ∈ scc ∧
      (1 < scc.length ∨ (scc = [u] ∧ (adj edges u).contains u = true))) := by
  by_cases hlen : 1 < scc.length
  · rw [if_pos hlen]
    constructor
    · intro h
      rcases List.mem_append.mp h with h1 | h1
      · exact Or.inl h1
      · exact Or.inr ⟨h1, Or.inl hlen⟩
    · intro h
      rcases h with h1 | ⟨h1, -⟩
      · exact List.mem_append_left _ h1
      · exact List.mem_append_right _ h1
  · rw [if_neg hlen]
    cases scc with
    | nil => simp
    | cons a t =>
      cases t with
      | nil =>
        show u ∈ (if (adj edges a).contains a then acc ++ [a] else acc) ↔
          u ∈ acc ∨ (u ∈ [a] ∧ (1 < ([a] : List α).length ∨
            ([a] = [u] ∧ (adj edges u).contains u = true)))
        by_cases hcw : (adj edges a).contains a = true
        · rw [if_pos hcw]
          constructor
          · intro h
            rcases List.mem_append.mp h with h1 | h1
            · exact Or.inl h1
            · rw [List.mem_singleton] at h1
              subst h1
              exact Or.inr ⟨List.mem_singleton_self _, Or.inr ⟨rfl, hcw⟩⟩
          · intro h
            rcases h with h1 | ⟨h1, -⟩
            · exact List.mem_append_left _ h1
            · rw [List.mem_singleton] at h1
              rw [h1]
              exact List.mem_append_right _ (List.mem_singleton_self _)
        · rw [if_neg hcw]
          constructor
          · intro h
            exact Or.inl h
          · intro h
            rcases h with h1 | ⟨h1, h2⟩
            · exact h1
            · rcases h2 with h2 | ⟨-, h3⟩
              · exact absurd h2 (by simp)
              · exfalso
                rw [List.mem_singleton] at h1
                subst h1
                exact hcw h3
      | cons b t2 =>
        exact absurd (by simp only [List.length_cons]; omega) hlen

theorem mem_sccFilter_iff (edges : List (α × α)) (sccs : List (List α)) (u : α) :
    u ∈ sccFilter edges sccs ↔ ∃ B ∈ sccs, u ∈ B ∧
      (1 < B.length ∨ (B = [u] ∧ (adj edges u).contains u = true)) := by
  have main : ∀ (l : List (List α)) (acc : List α),
      u ∈ l.foldl (fun acc scc =>
        if 1 < scc.length then acc ++ scc
        else
          match scc with
          | [w] => if (adj edges w).contains w then acc ++ [w] else acc
          | _ => acc) acc ↔
      u ∈ acc ∨ ∃ B ∈ l, u ∈ B ∧
        (1 < B.length ∨ (B = [u] ∧ (adj edges u).contains u = true)) := by
    intro l
    induction l with
    | nil =>
      intro acc
      simp
    | cons scc sccs ih =>
      intro acc
      rw [List.foldl_cons, ih, mem_sccFilter_step edges acc scc u]
      constructor
      · intro h
        rcases h with (h1 | ⟨h1, h2⟩) | ⟨B, hB, h3⟩
        · exact Or.inl h1
        · exact Or.inr ⟨scc, List.mem_cons_self scc sccs, h1, h2⟩
        · exact Or.inr ⟨B, List.mem_cons_of_mem scc hB, h3⟩
      · intro h
        rcases h with h1 | ⟨B, hB, h3⟩
        · exact Or.inl (Or.inl h1)
        · rcases List.mem_cons.mp hB with he | hB'
          · rw [he] at h3
            exact Or.inl (Or.inr h3)
          · exact Or.inr ⟨B, hB', h3⟩
  constructor
  · intro hm
    rcases (main sccs []).mp hm with h1 | h2
    · exact absurd h1 (List.not_mem_nil u)
    · exact h2
  · intro h2
    exact (main sccs []).mpr (Or.inr h2)

theorem exists_ne_of_nodup (B : List α) (u : α) (hnd : B.Nodup)
    (hlen : 1 < B.length) (hu : u ∈ B) : ∃ w ∈ B, w ≠ u := by
  cases B with
  | nil => exact absurd hu (List.not_mem_nil u)
  | cons a t =>
    cases t with
    | nil => simp at hlen
    | cons b t2 =>
      by_cases hua : u = a
      · refine ⟨b, List.mem_cons_of_mem a (List.mem_cons_self b t2), ?_⟩
        intro he
        rw [List.nodup_cons] at hnd
        apply hnd.1
        rw [hua] at he
        rw [← he]
        exact List.mem_cons_self b t2
      · exact ⟨a, List.mem_cons_self a _, fun he => hua he.symm⟩

theorem eq_singleton_of_len_le_one (B : List α) (u : α) (hu : u ∈ B)
    (hlen : ¬ 1 < B.length) : B = [u] := by
  cases B with
  | nil => exact absurd hu (List.not_mem_nil u)
  | cons a t =>
    cases t with
    | nil =>
      rw [List.mem_singleton] at hu
      rw [hu]
    | cons b t2 => exact absurd (by simp only [List.length_cons]; omega) hlen

theorem reach_mono_of_subset (edges edges' : List (α × α))
    (h : ∀ e ∈ edges, e ∈ edges') {u v : α} (hr : Reach edges u v) :
    Reach edges' u v := by
  induction hr with
  | refl => exact Relation.ReflTransGen.refl
  | tail _ he ih => exact ih.tail (h _ he)

/-- `OnCycle` depends only on the set of edges. -/
theorem onCycle_congr (edges edges' : List (α × α))
    (h : ∀ e, e ∈ edges ↔ e ∈ edges') (u : α) :
    OnCycle edges u ↔ OnCycle edges' u := by
  constructor
  · rintro ⟨w, hw, hr⟩
    exact ⟨w, (h _).mp hw,
      reach_mono_of_subset edges edges' (fun e he => (h e).mp he) hr⟩
  · rintro ⟨w, hw, hr⟩
    exact ⟨w, (h _).mpr hw,
      reach_mono_of_subset edges' edges (fun e he => (h e).mpr he) hr⟩

/-- Characterisation of `nodes_in_cycles`: exactly the nodes on a
directed cycle. -/
theorem mem_nic_iff (edges : List (α × α)) (u : α) :
    u ∈ nodes_in_cycles edges ↔ OnCycle edges u := by
  obtain ⟨st', hrun, hInv', hstk', _, hall⟩ :=
    tarjanMain_spec edges (buildNodes edges) initT (initT_inv edges) rfl
      (fun v hv => hv)
  have hnic : nodes_in_cycles edges = sccFilter edges st'.sccs := by
    show (match tarjanMain (adj edges) (tFuel edges) (buildNodes edges) initT with
      | none => ([] : List α)
      | some st => sccFilter edges st.sccs) = sccFilter edges st'.sccs
    rw [hrun]
  rw [hnic, mem_sccFilter_iff]
  constructor
  · rintro ⟨B, hB, huB, hcase⟩
    rcases hcase with hlen | ⟨-, hloop⟩
    · obtain ⟨w, hwB, hwu⟩ :=
        exists_ne_of_nodup B u (hInv'.sccs_nodup B hB) hlen huB
      have hr1 : Reach edges u w := hInv'.done_mutual B hB u huB w hwB
      have hr2 : Reach edges w u := hInv'.done_mutual B hB w hwB u huB
      rcases Relation.ReflTransGen.cases_head hr1 with he | ⟨z, hz, hzw⟩
      · exact absurd he.symm hwu
      · exact ⟨z, hz, hzw.trans hr2⟩
    · exact ⟨u, (mem_adj_iff edges u u).mp (List.elem_iff.mp hloop),
        Relation.ReflTransGen.refl⟩
  · rintro ⟨w, hw, hr⟩
    have huniv : u ∈ buildNodes edges :=
      (adj_mem_univ edges u w ((mem_adj_iff edges u w).mpr hw)).1
    have huix : indexedT st' u := hall u huniv
    have hud : doneT st' u := by
      rcases hInv'.split u huix with hs | hd
      · rw [hstk'] at hs
        exact absurd hs (List.not_mem_nil u)
      · exact hd
    obtain ⟨B, hB, huB⟩ := hud
    refine ⟨B, hB, huB, ?_⟩
    by_cases hlen : 1 < B.length
    · exact Or.inl hlen
    · have hBu : B = [u] := eq_singleton_of_len_le_one B u huB hlen
      refine Or.inr ⟨hBu, ?_⟩
      have hru_w : Reach edges u w := reach_step edges u w hw
      have hwB : w ∈ B := hInv'.done_max B hB u huB w hru_w hr
      rw [hBu, List.mem_singleton] at hwB
      rw [hwB] at hw
      exact List.elem_iff.mpr ((mem_adj_iff edges u u).mpr hw)

/- ### Resolution-progress lemmas (visit evolution and PENDING counts) -/

theorem getD_set_self {β : Type} (l : List β) :
    ∀ (i : Nat) (w d : β), i < l.length → (l.set i w).getD i d = w := by
  induction l with
  | nil =>
    intro i w d h
    simp at h
  | cons a t ih =>
    intro i w d h
    cases i with
    | zero => rfl
    | succ i =>
      simp only [List.set_cons_succ, List.getD_cons_succ]
      refine ih i w d ?_
      simp only [List.length_cons] at h
      omega

theorem getD_set_ne {β : Type} (l : List β) :
    ∀ (i j : Nat) (w d : β), j ≠ i → (l.set i w).getD j d = l.getD j d := by
  induction l with
  | nil =>
    intro i j w d _
    rfl
  | cons a t ih =>
    intro i j w d h
    cases i with
    | zero =>
      cases j with
      | zero => exact absurd rfl h
      | succ j => rfl
    | succ i =>
      cases j with
      | zero => rfl
      | succ j =>
        simp only [List.set_cons_succ, List.getD_cons_succ]
        exact ih i j w d (fun he => h (by rw [he]))

theorem getD_map_pt {β γ : Type} (f : β → γ) (l : List β) :
    ∀ (j : Nat) (d : β) (e : γ), j < l.length →
      (l.map f).getD j e = f (l.getD j d) := by
  induction l with
  | nil =>
    intro j d e h
    simp at h
  | cons a t ih =>
    intro j d e h
    cases j with
    | zero => rfl
    | succ j =>
      simp only [List.map_cons, List.getD_cons_succ]
      refine ih j d e ?_
      simp only [List.length_cons] at h
      omega

theorem countP_le_pointwise {β : Type} (p : β → Bool) (d : β) :
    ∀ (l l' : List β), l'.length = l.length →
      (∀ j, j < l.length → p (l'.getD j d) = true → p (l.getD j d) = true) →
      l'.countP p ≤ l.countP p := by
  intro l
  induction l with
  | nil =>
    intro l' hlen _
    have h0 : l' = [] := List.eq_nil_of_length_eq_zero hlen
    rw [h0]
  | cons a t ih =>
    intro l' hlen himp
    cases l' with
    | nil => simp
    | cons a' t' =>
      simp only [List.countP_cons]
      have htail : t'.countP p ≤ t.countP p := by
        refine ih t' ?_ ?_
        · simp only [List.length_cons] at hlen
          omega
        · intro j hj hp
          exact himp (j + 1) (by simp only [List.length_cons]; omega) hp
      by_cases hpa' : p a' = true
      · have hpa : p a = true :=
          himp 0 (by simp only [List.length_cons]; omega) hpa'
        rw [if_pos hpa', if_pos hpa]
        omega
      · rw [if_neg hpa']
        by_cases hpa : p a = true
        · rw [if_pos hpa]
          omega
        · rw [if_neg hpa]
          omega

theorem countP_lt_pointwise {β : Type} (p : β → Bool) (d : β) :
    ∀ (l l' : List β), l'.length = l.length →
      (∀ j, j < l.length → p (l'.getD j d) = true → p (l.getD j d) = true) →
      ∀ i : Nat, i < l.length → p (l.getD i d) = true →
      ¬ p (l'.getD i d) = true → l'.countP p < l.countP p := by
  intro l
  induction l with
  | nil =>
    intro l' _ _ i hi
    simp at hi
  | cons a t ih =>
    intro l' hlen himp i hi hold hnew
    cases l' with
    | nil =>
      exfalso
      simp at hlen
  -- length mismatch is impossible
    | cons a' t' =>
      simp only [List.countP_cons]
      have hlen' : t'.length = t.length := by
        simp only [List.length_cons] at hlen
        omega
      have himpt : ∀ j, j < t.length → p (t'.getD j d) = true →
          p (t.getD j d) = true :=
        fun j hj hp => himp (j + 1) (by simp only [List.length_cons]; omega) hp
      cases i with
      | zero =>
        have hold' : p a = true := hold
        have hnew' : ¬ p a' = true := hnew
        have htail := countP_le_pointwise p d t t' hlen' himpt
        rw [if_pos hold', if_neg hnew']
        omega
      | succ i =>
        have hold' : p (t.getD i d) = true := hold
        have hnew' : ¬ p (t'.getD i d) = true := hnew
        have htail := ih t' hlen' himpt i
          (by simp only [List.length_cons] at hi; omega) hold' hnew'
        by_cases hpa' : p a' = true
        · have hpa : p a = true :=
            himp 0 (by simp only [List.length_cons]; omega) hpa'
          rw [if_pos hpa', if_pos hpa]
          omega
        · rw [if_neg hpa']
          by_cases hpa : p a = true
          · rw [if_pos hpa]
            omega
          · rw [if_neg hpa]
            omega

theorem vdom_refl (v : VisitS) : Vdom v v :=
  ⟨fun h => h, rfl, rfl, fun s hs => Or.inl hs, fun s hs => hs⟩

theorem vdom_trans {u v w : VisitS} (h1 : Vdom u v) (h2 : Vdom v w) :
    Vdom u w := by
  obtain ⟨a1, b1, c1, d1, e1⟩ := h1
  obtain ⟨a2, b2, c2, d2, e2⟩ := h2
  refine ⟨fun h => a1 (a2 h), b2.trans b1, c2.trans c1, ?_,
    fun s hs => e2 s (e1 s hs)⟩
  intro s hs
  rcases d2 s hs with h | h
  · exact d1 s h
  · exact Or.inr h

/-- Force-failing a visit is a legal evolution. -/
theorem vdom_fail (v : VisitS) : Vdom v { v with status := 0 } := by
  refine ⟨?_, rfl, rfl, fun s hs => Or.inl hs, fun s hs => hs⟩
  intro hcon
  exact absurd (show (0 : Int) = -1 from hcon) (by decide)

/-- `roleblock_player`'s force-fail (status 0, tag `roleblocked` added)
is a legal evolution. -/
theorem vdom_rbfail (v : VisitS) :
    Vdom v { v with status := 0, tags := v.tags ++ ["roleblocked"] } := by
  refine ⟨?_, rfl, rfl, ?_, fun s hs => List.mem_append_left _ hs⟩
  · intro hcon
    exact absurd (show (0 : Int) = -1 from hcon) (by decide)
  intro s hs
  rcases List.mem_append.mp hs with h | h
  · exact Or.inl h
  · rw [List.mem_singleton] at h
    exact Or.inr h

theorem vdom_unstoppable {v w : VisitS} (hd : Vdom v w)
    (h : v.tags.contains "unstoppable" = false) :
    w.tags.contains "unstoppable" = false := by
  rw [Bool.eq_false_iff] at h ⊢
  intro hcon
  rcases hd.2.2.2.1 _ (List.elem_iff.mp hcon) with hm | hm
  · exact h (List.elem_iff.mpr hm)
  · exact absurd hm (by decide)

theorem gdom_refl (g : GameS) : GDom g g := ⟨rfl, fun j _ => vdom_refl _⟩

theorem gdom_trans {g1 g2 g3 : GameS} (h1 : GDom g1 g2) (h2 : GDom g2 g3) :
    GDom g1 g3 := by
  obtain ⟨l1, v1⟩ := h1
  obtain ⟨l2, v2⟩ := h2
  refine ⟨l2.trans l1, fun j hj => vdom_trans (v1 j hj) (v2 j (by omega))⟩

theorem gdom_of_visits_eq {g g' : GameS} (h : g'.visits = g.visits) :
    GDom g g' := by
  refine ⟨by rw [h], fun j hj => ?_⟩
  rw [h]
  exact vdom_refl _

theorem gdom_map (g : GameS) (f : VisitS → VisitS) (hf : ∀ v, Vdom v (f v)) :
    GDom g { g with visits := g.visits.map f } := by
  refine ⟨by simp, fun j hj => ?_⟩
  show Vdom (g.visits.getD j defaultVisit) ((g.visits.map f).getD j defaultVisit)
  rw [getD_map_pt f g.visits j defaultVisit defaultVisit hj]
  exact hf _

theorem gdom_set (g : GameS) (i : Nat) (w : VisitS)
    (hw : Vdom (g.visits.getD i defaultVisit) w) :
    GDom g { g with visits := g.visits.set i w } := by
  refine ⟨by simp, fun j hj => ?_⟩
  show Vdom (g.visits.getD j defaultVisit) ((g.visits.set i w).getD j defaultVisit)
  by_cases hji : j = i
  · rw [hji, getD_set_self g.visits i w defaultVisit (by omega)]
    exact hw
  · rw [getD_set_ne g.visits i j w defaultVisit hji]
    exact vdom_refl _

theorem vok_mono {v w : VisitS} (hd : Vdom v w) (h : Vok v) : Vok w := by
  intro hrb
  obtain ⟨-, hab, -, ht1, ht2⟩ := hd
  have hrb' : v.tags.contains "roleblock" = true := by
    rcases ht1 _ (List.elem_iff.mp hrb) with hm' | hm'
    · exact List.elem_iff.mpr hm'
    · exact absurd hm' (by decide)
  obtain ⟨hpas, huns⟩ := h hrb'
  refine ⟨?_, ?_⟩
  · rw [hab]
    exact hpas
  · rw [Bool.eq_false_iff]
    intro hcon
    rcases ht1 _ (List.elem_iff.mp hcon) with hm' | hm'
    · rw [Bool.eq_false_iff] at huns
      exact huns (List.elem_iff.mpr hm')
    · exact absurd hm' (by decide)

theorem hgood_mono {g g' : GameS} (hd : GDom g g') (h : Hgood g) : Hgood g' := by
  intro w hw
  obtain ⟨j, hj, hji⟩ := List.getElem_of_mem hw
  have hj' : j < g.visits.length := by
    have := hd.1
    omega
  have hw' : g'.visits.getD j defaultVisit = w := by
    rw [List.getD_eq_getElem?_getD, List.getElem?_eq_getElem hj, hji]
    rfl
  rw [← hw']
  exact vok_mono (hd.2 j hj') (h _ (getD_mem_of_lt g.visits j defaultVisit hj'))

theorem pending_le_of_gdom {g g' : GameS} (hd : GDom g g') :
    pendingCount g' ≤ pendingCount g := by
  refine countP_le_pointwise _ defaultVisit g.visits g'.visits hd.1 ?_
  intro j hj hp
  simp only [beq_iff_eq] at hp ⊢
  exact (hd.2 j hj).1 hp

theorem pending_lt_of_gdom {g g' : GameS} (hd : GDom g g') (i : Nat)
    (hi : i < g.visits.length)
    (hold : (g.visits.getD i defaultVisit).status = -1)
    (hnew : (g'.visits.getD i defaultVisit).status ≠ -1) :
    pendingCount g' < pendingCount g := by
  refine countP_lt_pointwise _ defaultVisit g.visits g'.visits hd.1 ?_ i hi ?_ ?_
  · intro j hj hp
    simp only [beq_iff_eq] at hp ⊢
    exact (hd.2 j hj).1 hp
  · simp only [beq_iff_eq]
    exact hold
  · simp only [beq_iff_eq]
    exact hnew

theorem isActive_status (g : GameS) (v : VisitS) (h : isActive g v = true) :
    v.status = -1 := by
  unfold isActive at h
  simp only [Bool.and_eq_true, beq_iff_eq] at h
  exact h.2

theorem killPerform_visits (g : GameS) (k : String) (v : VisitS) :
    (killPerform g k v).1.visits = g.visits := by
  show (if !(v.tags.contains "unstoppable") &&
        hasActiveVisitorTag g (v.targets.headD v.actor) "protect" then
      (g, (-1 : Int))
    else (playerKill g (v.targets.headD v.actor) k, 1)).1.visits = g.visits
  split
  · rfl
  · rfl

theorem copPerform_visits (g : GameS) (v : VisitS) :
    (copPerform g v).1.visits = g.visits := rfl

/-- `roleblock_player` only evolves visits. -/
theorem roleblock_player_gdom (g : GameS) (p : Nat) :
    GDom g (roleblock_player g p).1 := by
  show GDom g { g with visits := g.visits.map (fun v =>
    if v.actor == p && !(v.abilityType == AType.passive) &&
        !(v.tags.contains "unstoppable") then
      { v with status := 0, tags := v.tags ++ ["roleblocked"] }
    else v) }
  refine gdom_map g _ ?_
  intro v
  split
  · exact vdom_rbfail v
  · exact vdom_refl v

/-- The blocking loop of `Rolestop.perform` only evolves visits. -/
theorem protectBlockLoop_gdom (target : Nat) (limit : Option Nat) (g : GameS) :
    GDom g (protectBlockLoop target limit g).1 := by
  have main : ∀ (is : List Nat) (acc : GameS × Nat × Bool), GDom g acc.1 →
      GDom g (is.foldl
        (fun (acc : GameS × Nat × Bool) i =>
          if acc.2.2 then acc
          else
            let h := acc.1
            let v := h.visits.getD i defaultVisit
            if v.targets.contains target && isActive h v &&
                !(v.tags.contains "unstoppable") && v.tags.contains "kill" then
              let h' := { h with visits := h.visits.set i { v with status := 0 } }
              let s := acc.2.1 + 1
              (h', s, match limit with | some l => decide (l ≤ s) | none => false)
            else acc) acc).1 := by
    intro is
    induction is with
    | nil =>
      intro acc h
      exact h
    | cons i it ih =>
      intro acc h
      rw [List.foldl_cons]
      refine ih _ ?_
      split
      · exact h
      · split
        · rename_i l
          show GDom g
            (if (acc.1.visits.getD i defaultVisit).targets.contains target &&
                isActive acc.1 (acc.1.visits.getD i defaultVisit) &&
                !((acc.1.visits.getD i defaultVisit).tags.contains "unstoppable") &&
                (acc.1.visits.getD i defaultVisit).tags.contains "kill" then
              ({ acc.1 with visits := acc.1.visits.set i { acc.1.visits.getD i defaultVisit with status := 0 } },
                acc.2.1 + 1, decide (l ≤ acc.2.1 + 1))
            else acc).1
          split
          · exact gdom_trans h (gdom_set _ _ _ (vdom_fail _))
          · exact h
        · show GDom g
            (if (acc.1.visits.getD i defaultVisit).targets.contains target &&
                isActive acc.1 (acc.1.visits.getD i defaultVisit) &&
                !((acc.1.visits.getD i defaultVisit).tags.contains "unstoppable") &&
                (acc.1.visits.getD i defaultVisit).tags.contains "kill" then
              ({ acc.1 with visits := acc.1.visits.set i { acc.1.visits.getD i defaultVisit with status := 0 } },
                acc.2.1 + 1, false)
            else acc).1
          split
          · exact gdom_trans h (gdom_set _ _ _ (vdom_fail _))
          · exact h
  exact main (List.range g.visits.length) (g, 0, false) (gdom_refl g)

theorem protectPerform_gdom (g : GameS) (limit : Option Nat) (v : VisitS) :
    GDom g (protectPerform g limit v).1 := by
  show GDom g (if hasActiveVisitorTag g (v.targets.headD v.actor) "macho" then
      (g, (-1 : Int))
    else if rolestopJuggernautPend g (v.targets.headD v.actor) then (g, -1)
    else ((protectBlockLoop (v.targets.headD v.actor) limit g).1,
      Int.ofNat (protectBlockLoop (v.targets.headD v.actor) limit g).2)).1
  split
  · exact gdom_refl g
  · split
    · exact gdom_refl g
    · exact protectBlockLoop_gdom _ limit g

theorem visitPerform_gdom (g : GameS) (v : VisitS) :
    GDom g (visitPerform g v).1 := by
  unfold visitPerform
  cases v.ability.kind with
  | roleblock => exact roleblock_player_gdom g _
  | kill killer => exact gdom_of_visits_eq (killPerform_visits g killer v)
  | protect limit => exact protectPerform_gdom g limit v
  | copInvestigate => exact gdom_of_visits_eq (copPerform_visits g v)

/-- `do_visit` in closed form: the performed game with the visit's
status overwritten by the returned status. -/
theorem visits_do_visit (g : GameS) (i : Nat) (v : VisitS)
    (hg : g.visits.get? i = some v) :
    (do_visit g i).1.visits =
      (visitPerform g v).1.visits.set i
        { (visitPerform g v).1.visits.getD i defaultVisit with
          status := (visitPerform g v).2 } ∧
      (do_visit g i).2 = (visitPerform g v).2 := by
  simp only [do_visit, hg]
  split
  · exact ⟨bumpUses_visits _ _ _ _, rfl⟩
  · exact ⟨rfl, rfl⟩

theorem get?_lt (g : GameS) (i : Nat) (v : VisitS)
    (hg : g.visits.get? i = some v) : i < g.visits.length := by
  by_contra hcon
  rw [List.get?_eq_getElem?, List.getElem?_eq_none (Nat.le_of_not_lt hcon)] at hg
  cases hg

theorem getD_of_get? (g : GameS) (i : Nat) (v : VisitS)
    (hg : g.visits.get? i = some v) :
    g.visits.getD i defaultVisit = v := by
  rw [List.getD_eq_getElem?_getD, ← List.get?_eq_getElem?, hg]
  rfl

theorem do_visit_gdom (g : GameS) (i : Nat)
    (h : (g.visits.getD i defaultVisit).status = -1) :
    GDom g (do_visit g i).1 := by
  cases hg : g.visits.get? i with
  | none =>
    simp only [do_visit, hg]
    exact gdom_refl g
  | some v =>
    obtain ⟨hvis, -⟩ := visits_do_visit g i v hg
    have hi : i < g.visits.length := get?_lt g i v hg
    have hperf := visitPerform_gdom g v
    refine ⟨?_, ?_⟩
    · rw [hvis, List.length_set]
      exact hperf.1
    · intro j hj
      rw [hvis]
      by_cases hji : j = i
      · rw [hji, getD_set_self _ i _ _ (by rw [hperf.1]; exact hi)]
        obtain ⟨-, hab, hac, ht1, ht2⟩ := hperf.2 i hi
        exact ⟨fun _ => h, hab, hac, ht1, ht2⟩
      · rw [getD_set_ne _ i j _ _ hji]
        exact hperf.2 j hj

theorem do_visit_status (g : GameS) (i : Nat) (v : VisitS)
    (hg : g.visits.get? i = some v) :
    ((do_visit g i).1.visits.getD i defaultVisit).status = (do_visit g i).2 := by
  obtain ⟨hvis, hres⟩ := visits_do_visit g i v hg
  have hi : i < g.visits.length := get?_lt g i v hg
  rw [hvis, hres,
    getD_set_self _ i _ _ (by rw [(visitPerform_gdom g v).1]; exact hi)]

/-- `resolve_visit` either force-fails the visit (lazy gate), suspends
it leaving the game unchanged, or performs it via `do_visit`. -/
theorem resolve_visit_cases (la : Bool) (g : GameS) (i : Nat) (v : VisitS)
    (hg : g.visits.get? i = some v) :
    resolve_visit la g i =
        ({ g with visits := g.visits.set i { v with status := 0 } }, 0) ∨
      resolve_visit la g i = (g, -1) ∨
      resolve_visit la g i = do_visit g i := by
  simp only [resolve_visit, hg]
  split
  · exact Or.inl rfl
  · split
    · exact Or.inr (Or.inr rfl)
    · split
      · exact Or.inr (Or.inl rfl)
      · split
        · exact Or.inr (Or.inr rfl)
        · split
          · exact Or.inr (Or.inl rfl)
          · split
            · exact Or.inr (Or.inl rfl)
            · split
              · exact Or.inr (Or.inl rfl)
              · exact Or.inr (Or.inr rfl)

theorem resolve_visit_gdom (la : Bool) (g : GameS) (i : Nat)
    (h : (g.visits.getD i defaultVisit).status = -1) :
    GDom g (resolve_visit la g i).1 := by
  cases hg : g.visits.get? i with
  | none =>
    simp only [resolve_visit, hg]
    exact gdom_refl g
  | some v =>
    rcases resolve_visit_cases la g i v hg with he | he | he
    · rw [he]
      refine gdom_set g i _ ?_
      rw [getD_of_get? g i v hg]
      exact vdom_fail v
    · rw [he]
      exact gdom_refl g
    · rw [he]
      exact do_visit_gdom g i h

theorem resolve_visit_status (la : Bool) (g : GameS) (i : Nat) (v : VisitS)
    (hg : g.visits.get? i = some v)
    (hr : (resolve_visit la g i).2 ≠ -1) :
    ((resolve_visit la g i).1.visits.getD i defaultVisit).status =
      (resolve_visit la g i).2 := by
  have hi : i < g.visits.length := get?_lt g i v hg
  rcases resolve_visit_cases la g i v hg with he | he | he
  · rw [he]
    show ((g.visits.set i { v with status := 0 }).getD i defaultVisit).status =
      (0 : Int)
    rw [getD_set_self _ i _ _ hi]
  · rw [he] at hr
    exact absurd rfl hr
  · rw [he]
    exact do_visit_status g i v hg

theorem foldl_inv {σ : Type} (P : σ → Prop) (step : σ → Nat → σ) :
    ∀ (is : List Nat) (Q : Nat → Prop), (∀ i ∈ is, Q i) →
      (∀ s i, Q i → P s → P (step s i)) →
      ∀ s, P s → P (is.foldl step s) := by
  intro is
  induction is with
  | nil =>
    intro Q _ _ s h
    exact h
  | cons i it ih =>
    intro Q hQ hstep s h
    rw [List.foldl_cons]
    exact ih Q (fun j hj => hQ j (List.mem_cons_of_mem i hj)) hstep _
      (hstep s i (hQ i (List.mem_cons_self i it)) h)

theorem sortedIdx_lt (g : GameS) : ∀ i ∈ sortedIdx g, i < g.visits.length := by
  intro i hi
  have hmem : i ∈ List.range g.visits.length := by
    simp only [sortedIdx, List.mem_append, List.mem_filter] at hi
    rcases hi with ((⟨h, -⟩ | ⟨h, -⟩) | ⟨h, -⟩) | ⟨h, -⟩ <;> exact h
  exact List.mem_range.mp hmem

/-- One pass over the sorted visits only evolves the game, and if it
reports a successful resolution the PENDING count strictly drops. -/
theorem resolvePass_spec (la : Bool) (g0 : GameS) :
    GDom g0 (resolvePass la g0).1 ∧
      ((resolvePass la g0).2.2 = true →
        pendingCount (resolvePass la g0).1 < pendingCount g0) := by
  refine foldl_inv
    (fun s : GameS × Bool × Bool => GDom g0 s.1 ∧
      (s.2.2 = true → pendingCount s.1 < pendingCount g0))
    _ (sortedIdx g0) (fun i => i < g0.visits.length) (sortedIdx_lt g0) ?_
    (g0, false, false) ⟨gdom_refl g0, fun hc => absurd hc Bool.false_ne_true⟩
  intro s i hi hP
  obtain ⟨h1, h2⟩ := hP
  refine ⟨?_, ?_⟩
  · show GDom g0 (if isActive s.1 (s.1.visits.getD i defaultVisit) = true then
        (if ((resolve_visit la s.1 i).2 == -1) = true then
          ((resolve_visit la s.1 i).1, true, s.2.2)
        else ((resolve_visit la s.1 i).1, s.2.1, true))
      else s).1
    split
    · have hact : isActive s.1 (s.1.visits.getD i defaultVisit) = true := by
        assumption
      split
      · exact gdom_trans h1 (resolve_visit_gdom la s.1 i (isActive_status _ _ hact))
      · exact gdom_trans h1 (resolve_visit_gdom la s.1 i (isActive_status _ _ hact))
    · exact h1
  · show (if isActive s.1 (s.1.visits.getD i defaultVisit) = true then
        (if ((resolve_visit la s.1 i).2 == -1) = true then
          ((resolve_visit la s.1 i).1, true, s.2.2)
        else ((resolve_visit la s.1 i).1, s.2.1, true))
      else s).2.2 = true →
      pendingCount (if isActive s.1 (s.1.visits.getD i defaultVisit) = true then
        (if ((resolve_visit la s.1 i).2 == -1) = true then
          ((resolve_visit la s.1 i).1, true, s.2.2)
        else ((resolve_visit la s.1 i).1, s.2.1, true))
      else s).1 < pendingCount g0
    split
    · have hact : isActive s.1 (s.1.visits.getD i defaultVisit) = true := by
        assumption
      have hpend := isActive_status _ _ hact
      have hgd := resolve_visit_gdom la s.1 i hpend
      split
      · intro hfl
        have hfl' : s.2.2 = true := hfl
        have hle := pending_le_of_gdom hgd
        have hlt := h2 hfl'
        show pendingCount (resolve_visit la s.1 i).1 < pendingCount g0
        omega
      · intro _
        show pendingCount (resolve_visit la s.1 i).1 < pendingCount g0
        have hil : i < s.1.visits.length := by
          have := h1.1
          omega
        obtain ⟨v, hgv⟩ : ∃ v, s.1.visits.get? i = some v := by
          rw [List.get?_eq_getElem?]
          exact ⟨s.1.visits[i], List.getElem?_eq_getElem hil⟩
        have hr2 : (resolve_visit la s.1 i).2 ≠ -1 := by
          have hcond : ¬ ((resolve_visit la s.1 i).2 == -1) = true := by
            assumption
          intro hcon
          exact hcond (by simp [hcon])
        have hst := resolve_visit_status la s.1 i v hgv hr2
        have hlt2 : pendingCount (resolve_visit la s.1 i).1 < pendingCount s.1 := by
          refine pending_lt_of_gdom hgd i hil hpend ?_
          rw [hst]
          exact hr2
        have hle0 := pending_le_of_gdom h1
        omega
    · exact h2

/-- Provenance of a roleblock-graph edge: an active roleblock-tagged
visit of the source player. -/
theorem mem_roleblockEdges (g : GameS) (p t : Nat)
    (hmem : (p, t) ∈ roleblockEdges g) :
    ∃ v ∈ g.visits, isActive g v = true ∧
      v.tags.contains "roleblock" = true ∧ v.actor = p := by
  have main : ∀ (l : List VisitS) (acc : List (Nat × Nat)),
      (p, t) ∈ l.foldl (fun acc v =>
        if isActive g v && v.tags.contains "roleblock" then
          acc ++ v.targets.map (fun t => (v.actor, t))
        else acc) acc →
      (p, t) ∈ acc ∨ ∃ v ∈ l, isActive g v = true ∧
        v.tags.contains "roleblock" = true ∧ v.actor = p := by
    intro l
    induction l with
    | nil =>
      intro acc h
      exact Or.inl h
    | cons w l ih =>
      intro acc h
      rw [List.foldl_cons] at h
      rcases ih _ h with hacc | ⟨v, hv, hs⟩
      · by_cases hc : (isActive g w && w.tags.contains "roleblock") = true
        · rw [if_pos hc] at hacc
          rcases List.mem_append.mp hacc with h1 | h1
          · exact Or.inl h1
          · obtain ⟨t0, -, heq⟩ := List.mem_map.mp h1
            have hap : w.actor = p := congrArg Prod.fst heq
            rw [Bool.and_eq_true] at hc
            exact Or.inr ⟨w, List.mem_cons_self w l, hc.1, hc.2, hap⟩
        · rw [if_neg hc] at hacc
          exact Or.inl hacc
      · exact Or.inr ⟨v, List.mem_cons_of_mem w hv, hs⟩
  rcases main g.visits [] hmem with h1 | h2
  · exact absurd h1 (List.not_mem_nil _)
  · exact h2

/-- `roleblock_player` force-fails a matching visit of the player. -/
theorem roleblock_player_fails (g : GameS) (p : Nat) (j : Nat)
    (hj : j < g.visits.length)
    (ha : (g.visits.getD j defaultVisit).actor = p)
    (hb : ¬ (g.visits.getD j defaultVisit).abilityType = AType.passive)
    (hc : (g.visits.getD j defaultVisit).tags.contains "unstoppable" = false) :
    ((roleblock_player g p).1.visits.getD j defaultVisit).status = 0 := by
  show (((g.visits.map (fun v =>
      if v.actor == p && !(v.abilityType == AType.passive) &&
          !(v.tags.contains "unstoppable") then
        { v with status := 0, tags := v.tags ++ ["roleblocked"] }
      else v)).getD j defaultVisit)).status = 0
  rw [getD_map_pt _ g.visits j defaultVisit defaultVisit hj]
  have hhit : ((g.visits.getD j defaultVisit).actor == p &&
      !((g.visits.getD j defaultVisit).abilityType == AType.passive) &&
      !((g.visits.getD j defaultVisit).tags.contains "unstoppable")) = true := by
    rw [ha, hc]
    simp only [beq_self_eq_true, Bool.not_false, Bool.and_true, Bool.true_and,
      Bool.not_eq_true', beq_eq_false_iff_ne]
    exact hb
  rw [if_pos hhit]

/-- `roleblock_player` never revives a failed visit. -/
theorem roleblock_player_keeps0 (g : GameS) (p : Nat) (j : Nat)
    (hj : j < g.visits.length)
    (h0 : (g.visits.getD j defaultVisit).status = 0) :
    ((roleblock_player g p).1.visits.getD j defaultVisit).status = 0 := by
  show (((g.visits.map (fun v =>
      if v.actor == p && !(v.abilityType == AType.passive) &&
          !(v.tags.contains "unstoppable") then
        { v with status := 0, tags := v.tags ++ ["roleblocked"] }
      else v)).getD j defaultVisit)).status = 0
  rw [getD_map_pt _ g.visits j defaultVisit defaultVisit hj]
  split
  · rfl
  · exact h0

theorem fold_roleblock_gdom (qs : List Nat) :
    ∀ h : GameS, GDom h (qs.foldl (fun h q => (roleblock_player h q).1) h) := by
  induction qs with
  | nil =>
    intro h
    exact gdom_refl h
  | cons q qs ih =>
    intro h
    rw [List.foldl_cons]
    exact gdom_trans (roleblock_player_gdom h q) (ih _)

theorem fold_roleblock_keeps0 (j : Nat) :
    ∀ (qs : List Nat) (h : GameS), j < h.visits.length →
      (h.visits.getD j defaultVisit).status = 0 →
      ((qs.foldl (fun h q => (roleblock_player h q).1) h).visits.getD j
        defaultVisit).status = 0 := by
  intro qs
  induction qs with
  | nil =>
    intro h _ h0
    exact h0
  | cons q qs ih =>
    intro h hj h0
    rw [List.foldl_cons]
    have hlen := (roleblock_player_gdom h q).1
    exact ih _ (by omega) (roleblock_player_keeps0 h q j hj h0)

theorem fold_roleblock_fails (p : Nat) (j : Nat) :
    ∀ (qs : List Nat) (h : GameS), p ∈ qs → j < h.visits.length →
      (h.visits.getD j defaultVisit).actor = p →
      ¬ (h.visits.getD j defaultVisit).abilityType = AType.passive →
      (h.visits.getD j defaultVisit).tags.contains "unstoppable" = false →
      ((qs.foldl (fun h q => (roleblock_player h q).1) h).visits.getD j
        defaultVisit).status = 0 := by
  intro qs
  induction qs with
  | nil =>
    intro h hp
    exact absurd hp (List.not_mem_nil p)
  | cons q qs ih =>
    intro h hp hj ha hb hc
    rw [List.foldl_cons]
    have hstep := roleblock_player_gdom h q
    have hlen := hstep.1
    have hvd := hstep.2 j hj
    by_cases hqp : q = p
    · refine fold_roleblock_keeps0 j qs _ (by omega) ?_
      rw [hqp]
      exact roleblock_player_fails h p j hj ha hb hc
    · rcases List.mem_cons.mp hp with he | hp'
      · exact absurd he.symm hqp
      · refine ih _ hp' (by omega) ?_ ?_ ?_
        · rw [hvd.2.2.1]
          exact ha
        · rw [hvd.2.1]
          exact hb
        · exact vdom_unstoppable hvd hc

/-- When cycle-breaking reports progress on a well-tagged game it
strictly decreases the PENDING count. -/
theorem resolve_cycles_spec (g : GameS) (hH : Hgood g)
    (hneq : (resolve_cycles g).2 = true) :
    GDom g (resolve_cycles g).1 ∧
      pendingCount (resolve_cycles g).1 < pendingCount g := by
  have hgd : GDom g (resolve_cycles g).1 :=
    fold_roleblock_gdom (nodes_in_cycles (roleblockEdges g)) g
  refine ⟨hgd, ?_⟩
  have hne : (nodes_in_cycles (roleblockEdges g)).isEmpty = false := by
    have h2 : (resolve_cycles g).2 =
        !(nodes_in_cycles (roleblockEdges g)).isEmpty := rfl
    rw [h2] at hneq
    cases he : (nodes_in_cycles (roleblockEdges g)).isEmpty
    · rfl
    · rw [he] at hneq
      simp at hneq
  obtain ⟨p, hp⟩ : ∃ p, p ∈ nodes_in_cycles (roleblockEdges g) := by
    cases hq : nodes_in_cycles (roleblockEdges g) with
    | nil =>
      rw [hq] at hne
      simp at hne
    | cons a l => exact ⟨a, List.mem_cons_self a l⟩
  have hcyc : OnCycle (roleblockEdges g) p := (mem_nic_iff _ p).mp hp
  obtain ⟨t0, hedge, -⟩ := hcyc
  obtain ⟨v, hv, hact, hrb, hactor⟩ := mem_roleblockEdges g p t0 hedge
  obtain ⟨j, hj, hji⟩ := List.getElem_of_mem hv
  have hgv : g.visits.getD j defaultVisit = v := by
    rw [List.getD_eq_getElem?_getD, List.getElem?_eq_getElem hj, hji]
    rfl
  obtain ⟨hpas, huns⟩ := hH v hv hrb
  have hfail : ((resolve_cycles g).1.visits.getD j defaultVisit).status = 0 := by
    show (((nodes_in_cycles (roleblockEdges g)).foldl
      (fun h q => (roleblock_player h q).1) g).visits.getD j
        defaultVisit).status = 0
    exact fold_roleblock_fails p j _ g hp hj (by rw [hgv]; exact hactor)
      (by rw [hgv]; exact hpas) (by rw [hgv]; exact huns)
  refine pending_lt_of_gdom hgd j hj ?_ ?_
  · rw [hgv]
    exact isActive_status g v hact
  · rw [hfail]
    decide

/-- A continuing `attempt_resolve` step preserves well-taggedness and
strictly decreases the PENDING count. -/
theorem attempt_resolve_spec (la : Bool) (g g' : GameS) (hH : Hgood g)
    (he : attempt_resolve la g = some (g', true)) :
    Hgood g' ∧ pendingCount g' < pendingCount g := by
  simp only [attempt_resolve] at he
  have hpass := resolvePass_spec la g
  by_cases hc1 : ((resolvePass la g).2.1 && !(resolvePass la g).2.2) = true
  · rw [if_pos hc1] at he
    by_cases hc2 : (resolve_cycles (resolvePass la g).1).2 = true
    · rw [if_pos hc2] at he
      injection he with he2
      have hg2 : (resolve_cycles (resolvePass la g).1).1 = g' :=
        congrArg Prod.fst he2
      have hHr : Hgood (resolvePass la g).1 := hgood_mono hpass.1 hH
      obtain ⟨hgd2, hlt2⟩ := resolve_cycles_spec (resolvePass la g).1 hHr hc2
      have hle1 := pending_le_of_gdom hpass.1
      constructor
      · rw [← hg2]
        exact hgood_mono hgd2 hHr
      · rw [← hg2]
        omega
    · rw [if_neg hc2] at he
      cases he
  · rw [if_neg hc1] at he
    injection he with he2
    have hg2 : (resolvePass la g).1 = g' := congrArg Prod.fst he2
    have hflag : (resolvePass la g).2.1 = true := congrArg Prod.snd he2
    have hres : (resolvePass la g).2.2 = true := by
      by_contra hcon
      rw [Bool.not_eq_true] at hcon
      apply hc1
      rw [hflag, hcon]
      rfl
    constructor
    · rw [← hg2]
      exact hgood_mono hpass.1 hH
    · rw [← hg2]
      exact hpass.2 hres

theorem resolveLoop_no_fuel_out (la : Bool) :
    ∀ (fuel : Nat) (g : GameS), Hgood g → pendingCount g < fuel →
      resolveLoop la fuel g ≠ ResolveOut.outOfFuel := by
  intro fuel
  induction fuel with
  | zero =>
    intro g _ h
    exact absurd h (by omega)
  | succ fuel ih =>
    intro g hH hcnt
    rw [resolveLoop_succ]
    cases hat : attempt_resolve la g with
    | none =>
      exact fun hcon => ResolveOut.noConfusion hcon
    | some pr =>
      obtain ⟨g', fl⟩ := pr
      cases fl with
      | false => exact fun hcon => ResolveOut.noConfusion hcon
      | true =>
        obtain ⟨hH', hlt⟩ := attempt_resolve_spec la g g' hH hat
        exact ih g' hH' (by omega)

/- ### Use-counter monotonicity through the engine (for claim C7) -/

theorem usesOf_bumpUses_mono (g : GameS) (p q : Nat) (key key' : String)
    (amt : Int) (hamt : 0 ≤ amt) :
    usesOf g q key' ≤ usesOf (bumpUses g p key amt) q key' := by
  by_cases hq : p = q
  · subst hq
    by_cases hp : p < g.players.length
    · by_cases hk : key' = key
      · subst hk
        rw [usesOf_bumpUses_same g p key' amt hp]
        omega
      · simp [usesOf, bumpUses, modifyPlayer, List.getD_eq_getElem?_getD,
          List.getElem?_set_self hp, usesUpdate_lookup_ne _ _ _ _ hk]
    · simp [usesOf, bumpUses, modifyPlayer, List.getD_eq_getElem?_getD,
        List.getElem?_set, hp, List.getElem?_eq_none (Nat.le_of_not_lt hp)]
  · simp [usesOf, bumpUses, modifyPlayer, List.getD_eq_getElem?_getD,
      List.getElem?_set_ne hq]

theorem usesOf_players_eq {g g' : GameS} (h : g'.players = g.players)
    (q : Nat) (k : String) : usesOf g' q k = usesOf g q k := by
  unfold usesOf
  rw [h]

theorem usesOf_playerKill (g : GameS) (p : Nat) (c : String) (q : Nat)
    (k : String) : usesOf (playerKill g p c) q k = usesOf g q k := by
  by_cases hq : p = q
  · subst hq
    by_cases hp : p < g.players.length
    · simp [usesOf, playerKill, modifyPlayer, List.getD_eq_getElem?_getD,
        List.getElem?_set_self hp]
    · simp [usesOf, playerKill, modifyPlayer, List.getD_eq_getElem?_getD,
        List.getElem?_set, hp, List.getElem?_eq_none (Nat.le_of_not_lt hp)]
  · simp [usesOf, playerKill, modifyPlayer, List.getD_eq_getElem?_getD,
      List.getElem?_set_ne hq]

theorem usesOf_sendPrivate (g : GameS) (p : Nat) (s c : String) (q : Nat)
    (k : String) : usesOf (sendPrivate g p s c) q k = usesOf g q k := by
  by_cases hq : p = q
  · subst hq
    by_cases hp : p < g.players.length
    · simp [usesOf, sendPrivate, modifyPlayer, List.getD_eq_getElem?_getD,
        List.getElem?_set_self hp]
    · simp [usesOf, sendPrivate, modifyPlayer, List.getD_eq_getElem?_getD,
        List.getElem?_set, hp, List.getElem?_eq_none (Nat.le_of_not_lt hp)]
  · simp [usesOf, sendPrivate, modifyPlayer, List.getD_eq_getElem?_getD,
      List.getElem?_set_ne hq]

theorem protectBlockLoop_players (target : Nat) (limit : Option Nat)
    (g : GameS) : (protectBlockLoop target limit g).1.players = g.players := by
  refine foldl_inv (fun s : GameS × Nat × Bool => s.1.players = g.players) _
    (List.range g.visits.length) (fun _ => True) (fun _ _ => trivial) ?_
    (g, 0, false) rfl
  intro s i _ h
  split
  · exact h
  · split
    · rename_i l
      show (if (s.1.visits.getD i defaultVisit).targets.contains target &&
          isActive s.1 (s.1.visits.getD i defaultVisit) &&
          !((s.1.visits.getD i defaultVisit).tags.contains "unstoppable") &&
          (s.1.visits.getD i defaultVisit).tags.contains "kill" then
        ({ s.1 with visits := s.1.visits.set i { s.1.visits.getD i defaultVisit with status := 0 } }, s.2.1 + 1,
          decide (l ≤ s.2.1 + 1))
        else s).1.players = g.players
      split
      · exact h
      · exact h
    · show (if (s.1.visits.getD i defaultVisit).targets.contains target &&
          isActive s.1 (s.1.visits.getD i defaultVisit) &&
          !((s.1.visits.getD i defaultVisit).tags.contains "unstoppable") &&
          (s.1.visits.getD i defaultVisit).tags.contains "kill" then
        ({ s.1 with visits := s.1.visits.set i { s.1.visits.getD i defaultVisit with status := 0 } }, s.2.1 + 1,
          false)
        else s).1.players = g.players
      split
      · exact h
      · exact h

theorem visitPerform_uses (g : GameS) (v : VisitS) (q : Nat) (k : String) :
    usesOf (visitPerform g v).1 q k = usesOf g q k := by
  unfold visitPerform
  cases v.ability.kind with
  | roleblock => rfl
  | kill killer =>
    show usesOf (if !(v.tags.contains "unstoppable") &&
        hasActiveVisitorTag g (v.targets.headD v.actor) "protect" then
      (g, (-1 : Int))
    else (playerKill g (v.targets.headD v.actor) killer, 1)).1 q k = usesOf g q k
    split
    · rfl
    · exact usesOf_playerKill g _ killer q k
  | protect limit =>
    show usesOf (if hasActiveVisitorTag g (v.targets.headD v.actor) "macho" then
        (g, (-1 : Int))
      else if rolestopJuggernautPend g (v.targets.headD v.actor) then (g, -1)
      else ((protectBlockLoop (v.targets.headD v.actor) limit g).1,
        Int.ofNat (protectBlockLoop (v.targets.headD v.actor) limit g).2)).1 q k =
      usesOf g q k
    split
    · rfl
    · split
      · rfl
      · exact usesOf_players_eq (protectBlockLoop_players _ limit g) q k
  | copInvestigate => exact usesOf_sendPrivate g v.actor v.ability.id _ q k

theorem visitPerform_snd_ge (g : GameS) (v : VisitS) :
    -1 ≤ (visitPerform g v).2 := by
  unfold visitPerform
  cases v.ability.kind with
  | roleblock =>
    show -1 ≤ (roleblock_player g (v.targets.headD v.actor)).2
    show -1 ≤ (if g.visits.any (fun w => w.actor == (v.targets.headD v.actor) &&
        !(w.abilityType == AType.passive) && !(w.tags.contains "unstoppable")) then
      (1 : Int) else 0)
    split
    · exact (by decide : (-1 : Int) ≤ 1)
    · exact (by decide : (-1 : Int) ≤ 0)
  | kill killer =>
    show -1 ≤ (if !(v.tags.contains "unstoppable") &&
        hasActiveVisitorTag g (v.targets.headD v.actor) "protect" then
      (g, (-1 : Int))
    else (playerKill g (v.targets.headD v.actor) killer, 1)).2
    split
    · exact le_refl _
    · exact (by decide : (-1 : Int) ≤ 1)
  | protect limit =>
    show -1 ≤ (if hasActiveVisitorTag g (v.targets.headD v.actor) "macho" then
        (g, (-1 : Int))
      else if rolestopJuggernautPend g (v.targets.headD v.actor) then (g, -1)
      else ((protectBlockLoop (v.targets.headD v.actor) limit g).1,
        Int.ofNat (protectBlockLoop (v.targets.headD v.actor) limit g).2)).2
    split
    · exact le_refl _
    · split
      · exact le_refl _
      · exact le_trans (by decide : (-1 : Int) ≤ 0) (Int.ofNat_nonneg _)
  | copInvestigate => exact (by decide : (-1 : Int) ≤ 1)

theorem do_visit_uses_ge (g : GameS) (i : Nat) (q : Nat) (k : String) :
    usesOf g q k ≤ usesOf (do_visit g i).1 q k := by
  cases hg : g.visits.get? i with
  | none =>
    simp only [do_visit, hg]
    exact le_refl _
  | some v =>
    simp only [do_visit, hg]
    split
    · refine le_trans (le_of_eq (visitPerform_uses g v q k).symm) ?_
      rename_i hcond
      rw [Bool.and_eq_true] at hcond
      have h2 := hcond.2
      rw [Bool.not_eq_true'] at h2
      have hne : (visitPerform g v).2 ≠ -1 := beq_eq_false_iff_ne.mp h2
      have h3 := visitPerform_snd_ge g v
      have hge : 0 ≤ (visitPerform g v).2 := by omega
      exact usesOf_bumpUses_mono _ v.actor _ v.ability.id _ _ hge
    · exact le_of_eq (visitPerform_uses g v q k).symm

theorem resolve_visit_uses_ge (la : Bool) (g : GameS) (i : Nat) (q : Nat)
    (k : String) : usesOf g q k ≤ usesOf (resolve_visit la g i).1 q k := by
  cases hg : g.visits.get? i with
  | none =>
    simp only [resolve_visit, hg]
    exact le_refl _
  | some v =>
    rcases resolve_visit_cases la g i v hg with he | he | he
    · rw [he]
      exact le_refl _
    · rw [he]
    · rw [he]
      exact do_visit_uses_ge g i q k

theorem resolvePass_uses_ge (la : Bool) (g0 : GameS) (q : Nat) (k : String) :
    usesOf g0 q k ≤ usesOf (resolvePass la g0).1 q k := by
  refine foldl_inv
    (fun s : GameS × Bool × Bool => usesOf g0 q k ≤ usesOf s.1 q k) _
    (sortedIdx g0) (fun _ => True) (fun _ _ => trivial) ?_
    (g0, false, false) (le_refl _)
  intro s i _ h
  show usesOf g0 q k ≤ usesOf
    (if isActive s.1 (s.1.visits.getD i defaultVisit) = true then
      (if ((resolve_visit la s.1 i).2 == -1) = true then
        ((resolve_visit la s.1 i).1, true, s.2.2)
      else ((resolve_visit la s.1 i).1, s.2.1, true))
    else s).1 q k
  split
  · split
    · exact le_trans h (resolve_visit_uses_ge la s.1 i q k)
    · exact le_trans h (resolve_visit_uses_ge la s.1 i q k)
  · exact h

theorem resolve_cycles_uses (g : GameS) (q : Nat) (k : String) :
    usesOf (resolve_cycles g).1 q k = usesOf g q k := by
  have main : ∀ (qs : List Nat) (h : GameS),
      (qs.foldl (fun h q => (roleblock_player h q).1) h).players = h.players := by
    intro qs
    induction qs with
    | nil =>
      intro h
      rfl
    | cons a t ih =>
      intro h
      rw [List.foldl_cons, ih ((roleblock_player h a).1)]
      rfl
  exact usesOf_players_eq (main _ g) q k

theorem attempt_resolve_uses_ge (la : Bool) (g g' : GameS) (b : Bool)
    (q : Nat) (k : String) (h : attempt_resolve la g = some (g', b)) :
    usesOf g q k ≤ usesOf g' q k := by
  simp only [attempt_resolve] at h
  by_cases hc1 : ((resolvePass la g).2.1 && !(resolvePass la g).2.2) = true
  · rw [if_pos hc1] at h
    by_cases hc2 : (resolve_cycles (resolvePass la g).1).2 = true
    · rw [if_pos hc2] at h
      injection h with h2
      have hg2 : (resolve_cycles (resolvePass la g).1).1 = g' :=
        congrArg Prod.fst h2
      rw [← hg2, resolve_cycles_uses]
      exact resolvePass_uses_ge la g q k
    · rw [if_neg hc2] at h
      cases h
  · rw [if_neg hc1] at h
    injection h with h2
    have hg2 : (resolvePass la g).1 = g' := congrArg Prod.fst h2
    rw [← hg2]
    exact resolvePass_uses_ge la g q k

theorem immediatePass_uses_ge (la : Bool) (g : GameS) (q : Nat) (k : String) :
    usesOf g q k ≤ usesOf (immediatePass la g) q k := by
  refine foldl_inv (fun s : GameS => usesOf g q k ≤ usesOf s q k) _
    (List.range g.visits.length) (fun _ => True) (fun _ _ => trivial) ?_
    g (le_refl _)
  intro s i _ h
  split
  · exact le_trans h (resolve_visit_uses_ge la s i q k)
  · exact h

theorem investigatePass_uses (g : GameS) (q : Nat) (k : String) :
    usesOf (investigatePass g) q k = usesOf g q k := by
  have main : ∀ (l : List VisitS) (acc : GameS),
      usesOf (l.foldl (fun acc v =>
        if v.tags.contains "investigate" && isActiveTime acc v && v.status == 0 then
          sendPrivate acc v.actor v.ability.id
            "Your ability failed, and you did not recieve a result."
        else acc) acc) q k = usesOf acc q k := by
    intro l
    induction l with
    | nil =>
      intro acc
      rfl
    | cons w t ih =>
      intro acc
      rw [List.foldl_cons, ih]
      show usesOf (if w.tags.contains "investigate" && isActiveTime acc w &&
          w.status == 0 then
        sendPrivate acc w.actor w.ability.id
          "Your ability failed, and you did not recieve a result."
      else acc) q k = usesOf acc q k
      split
      · exact usesOf_sendPrivate acc w.actor w.ability.id _ q k
      · rfl
  exact main g.visits g

theorem log_visits_uses_ge (g : GameS) (q : Nat) (k : String) :
    usesOf g q k ≤ usesOf (log_visits g) q k :=
  usesOf_foldl_logStep_ge g.visits g q k

theorem advancePhase_uses (g : GameS) (q : Nat) (k : String) :
    usesOf (advancePhase g) q k = usesOf g q k := by
  unfold advancePhase
  split
  · rfl
  · rfl

theorem engineStep_uses_ge (g g' : GameS) (q : Nat) (k : String)
    (h : EngineStep g g') : usesOf g q k ≤ usesOf g' q k := by
  cases h with
  | logv g => exact log_visits_uses_ge g q k
  | imm la g => exact immediatePass_uses_ge la g q k
  | att la g g' b hat => exact attempt_resolve_uses_ge la g g' b q k hat
  | inv g => exact le_of_eq (investigatePass_uses g q k).symm
  | adv g => exact le_of_eq (advancePhase_uses g q k).symm

/-- The actor's use counter never decreases at any later engine state. -/
theorem engineReach_uses_ge (g g' : GameS) (q : Nat) (k : String)
    (h : EngineReach g g') : usesOf g q k ≤ usesOf g' q k := by
  induction h with
  | refl => exact le_refl _
  | tail _ hstep ih => exact le_trans ih (engineStep_uses_ge _ _ q k hstep)

/-- Every normally-finishing `resolve_game` run is a chain of engine
steps, so `EngineReach` covers full resolutions. -/
theorem resolveLoop_engineReach (la : Bool) :
    ∀ (fuel : Nat) (g g' : GameS),
      resolveLoop la fuel g = ResolveOut.finished g' → EngineReach g g' := by
  intro fuel
  induction fuel with
  | zero =>
    intro g g' h
    have h2 : ResolveOut.outOfFuel = ResolveOut.finished g' := h
    exact ResolveOut.noConfusion h2
  | succ fuel ih =>
    intro g g' h
    rw [resolveLoop_succ] at h
    cases hat : attempt_resolve la g with
    | none =>
      rw [hat] at h
      have h2 : ResolveOut.deadlock = ResolveOut.finished g' := h
      exact ResolveOut.noConfusion h2
    | some pr =>
      obtain ⟨g2, b⟩ := pr
      rw [hat] at h
      cases b with
      | true =>
        have h' : resolveLoop la fuel g2 = ResolveOut.finished g' := h
        exact Relation.ReflTransGen.trans
          (Relation.ReflTransGen.single (EngineStep.att la g g2 true hat))
          (ih g2 g' h')
      | false =>
        have h2 : ResolveOut.finished g2 = ResolveOut.finished g' := h
        injection h2 with h3
        rw [← h3]
        exact Relation.ReflTransGen.single (EngineStep.att la g g2 false hat)

theorem resolve_game_engineReach (la : Bool) (fuel : Nat) (g g' : GameS)
    (h : resolve_game la fuel g = ResolveOut.finished g') : EngineReach g g' := by
  simp only [resolve_game] at h
  cases hlo : resolveLoop la fuel (immediatePass la (log_visits g)) with
  | outOfFuel =>
    rw [hlo] at h
    have h2 : ResolveOut.outOfFuel = ResolveOut.finished g' := h
    exact ResolveOut.noConfusion h2
  | deadlock =>
    rw [hlo] at h
    have h2 : ResolveOut.deadlock = ResolveOut.finished g' := h
    exact ResolveOut.noConfusion h2
  | finished g3 =>
    rw [hlo] at h
    have h2 : ResolveOut.finished (investigatePass g3) = ResolveOut.finished g' := h
    injection h2 with h3
    rw [← h3]
    refine Relation.ReflTransGen.trans
      (Relation.ReflTransGen.single (EngineStep.logv g)) ?_
    refine Relation.ReflTransGen.trans
      (Relation.ReflTransGen.single (EngineStep.imm la (log_visits g))) ?_
    refine Relation.ReflTransGen.trans
      (resolveLoop_engineReach la fuel _ _ hlo) ?_
    exact Relation.ReflTransGen.single (EngineStep.inv g3)

/- ### Theorems for the claims -/

/-- Claim C1 (code bug witnessed): in `gC1`, visit 0 has already left
PENDING (status SUCCESS, not active), yet the later `resolve_game` call
— whose only active visit is Eve's roleblock on Alice, which invokes
`roleblock_player` — changes visit 0's status to FAILURE, because the
dead filter in `roleblock_player` fails every non-passive
non-unstoppable visit of the blocked player regardless of activity. -/
theorem roleblock_flips_resolved_visit :
    (gC1.visits.getD 0 defaultVisit).status = 1 ∧
      isActive gC1 (gC1.visits.getD 0 defaultVisit) = false ∧
      visitStatusAfter (resolve_game true 2 gC1) 0 = some 0 := by
  decide

/-- Claim C2 (counterexample): on `gC2` a full `attempt_resolve` pass
returns the state unchanged while reporting `failed_to_resolve = True`
(cycle-breaking finds the 2-cycle, fails nothing — both visits are
`unstoppable` — yet reports progress), so the `resolve_game` loop runs
forever: the claim that `resolve_game` terminates for every game is
false. -/
theorem resolve_game_not_terminating :
    loopsForever true gC2 ∧ attempt_resolve true gC2 = some (gC2, true) := by
  have h : attempt_resolve true gC2 = some (gC2, true) := by decide
  refine ⟨fun fuel => ?_, h⟩
  induction fuel with
  | zero => rfl
  | succ n ih => rw [resolveLoop, h]; exact ih

/-- Claim C3: a game whose only visits are two mutual roleblock visits
resolves both to FAILURE and `resolve_game` returns normally (the
result is `finished`, not the deadlock error). -/
theorem mutual_roleblock_both_fail :
    visitStatusAfter (resolve_game true 3 gC3) 0 = some 0 ∧
      visitStatusAfter (resolve_game true 3 gC3) 1 = some 0 := by
  decide

/-- Claim C4 (code bug witnessed): in `gC4`, cycle-breaking correctly
finds the cycle `{0, 1}`, but besides the two active roleblock visits it
also force-fails player 0's non-active, already-SUCCESS night-1 visit
(status 1 → 0, tag `roleblocked` added), which the claim says is left
unchanged. -/
theorem resolve_cycles_touches_inactive_visit :
    (resolve_cycles gC4).2 = true ∧
      (gC4.visits.getD 0 defaultVisit).status = 1 ∧
      isActive gC4 (gC4.visits.getD 0 defaultVisit) = false ∧
      ((resolve_cycles gC4).1.visits.getD 0 defaultVisit).status = 0 ∧
      ((resolve_cycles gC4).1.visits.getD 0 defaultVisit).tags.contains
        "roleblocked" = true := by
  decide

/-- Claim C6 (counterexample): in `gC6a` the target Bob has an active
`protect` visit (visit 0) and a same-phase non-`unstoppable` `kill`
visit (visit 1), yet after `resolve_game` the protect visit is FAILURE,
the kill visit is SUCCESS and Bob is dead — a third visit (a roleblock
on the Doctor) defeats the claimed implication. -/
theorem protect_kill_claim_fails :
    isActive gC6a (gC6a.visits.getD 0 defaultVisit) = true ∧
      (gC6a.visits.getD 0 defaultVisit).tags.contains "protect" = true ∧
      isActive gC6a (gC6a.visits.getD 1 defaultVisit) = true ∧
      (gC6a.visits.getD 1 defaultVisit).tags.contains "kill" = true ∧
      (gC6a.visits.getD 1 defaultVisit).tags.contains "unstoppable" = false ∧
      (gC6a.visits.getD 1 defaultVisit).targets =
        (gC6a.visits.getD 0 defaultVisit).targets ∧
      visitStatusAfter (resolve_game true 4 gC6a) 0 = some 0 ∧
      visitStatusAfter (resolve_game true 4 gC6a) 1 = some 1 ∧
      deathsAfter (resolve_game true 4 gC6a) 1 = some ["MafiaFactionalKill"] := by
  decide

/-- Claim C8 (counterexample): `gC8` has no living non-town player at
all, yet `check_lazy_allowed` returns `true`, because the source counts
every player of the game — dead ones included — against the claim's
«living player» condition. -/
theorem check_lazy_allowed_counts_dead :
    check_lazy_allowed gC8 = true ∧
      (gC8.players.filter fun p =>
          p.deathCauses.isEmpty && !(p.alignTags.contains "town")).length = 0 := by
  decide

/-- Claim C8 (amended): the flag equals «strictly more than one player
of the game — living or dead — has an alignment without the `town`
tag». -/
theorem check_lazy_allowed_spec (g : GameS) :
    check_lazy_allowed g =
      decide (1 < (g.players.filter fun p => !(p.alignTags.contains "town")).length) := by
  simp [check_lazy_allowed, List.countP_eq_length_filter]

/-- Claim C9 (counterexample): `Visit.__post_init__` stores explicitly
provided targets unchecked, so a visit whose ability has
`target_count = 1` can be constructed with two targets. -/
theorem visit_arity_unchecked :
    ((mkVisit 0 (some [1, 2]) copA .action (some .night) (some 1) none []).map
        fun v => v.targets.length) = some 2 ∧
      copA.targetCount = 1 := by
  decide

/-- Claim C9 (amended): when targets are omitted at construction they
default to the actor repeated `target_count` times, so the arity
invariant holds in exactly that case. -/
theorem visit_default_targets (actor : Nat) (ab : Abil) (ty : AType)
    (p : GPhase) (d : Nat) (game : Option GameS) (tags : List String) :
    (mkVisit actor none ab ty (some p) (some d) game tags).map
        (fun v => v.targets) = some (List.replicate ab.targetCount actor) ∧
      (mkVisit actor none ab ty (some p) (some d) game tags).map
        (fun v => v.targets.length) = some ab.targetCount := by
  simp [mkVisit]

/-- Claim C10: `gC10`'s immediate visit resolves SUCCESS on the first
`resolve_game` call (one Cop message); a second call in the next phase
re-iterates the whole history without a phase or status filter and
performs the immediate visit again, duplicating its side effect (two
identical Cop messages) although the visit was already resolved and
belongs to an earlier phase. -/
theorem immediate_visits_reexecuted :
    (gC10'.visits.getD 0 defaultVisit).status = 1 ∧
      (gC10'.players.getD 0 defaultPlayer).messages.length = 1 ∧
      isActive (advancePhase gC10') (gC10'.visits.getD 0 defaultVisit) = false ∧
      messagesLenAfter (resolve_game true 2 (advancePhase gC10')) 0 = some 2 ∧
      visitStatusAfter (resolve_game true 2 (advancePhase gC10')) 0 = some 1 := by
  decide

/-- Claim C7: once a use of an X-Shot(1)-wrapped ability has been
logged by the resolver (`Resolver.log_visits` bumps the use counter of
every active non-passive visit, so the actor's counter is at least 1,
given it was not negative before), the installed `check` returns
`false` at that state and at every later engine state — any further
step of the same resolution, any later resolution, and any subsequent
phase, since no engine operation ever decreases the counter — whatever
the wrapped (base) check would return there. -/
theorem oneshot_check_false_after_use
    (base : GameS → Nat → Option (List Nat) → Bool) (g : GameS) (v : VisitS)
    (g' : GameS) (t : Option (List Nat)) (hv : v ∈ g.visits)
    (hty : (v.abilityType == AType.passive) = false)
    (hact : isActive g v = true) (hlen : v.actor < g.players.length)
    (h0 : 0 ≤ usesOf g v.actor v.ability.id)
    (hreach : EngineReach (log_visits g) g') :
    xshotCheck base v.ability.id 1 g' v.actor t = false := by
  have h1 : 1 ≤ usesOf (log_visits g) v.actor v.ability.id :=
    foldl_logStep_hit v g.visits g hv hty hact hlen h0
  have h2 : 1 ≤ usesOf g' v.actor v.ability.id :=
    le_trans h1 (engineReach_uses_ge (log_visits g) g' v.actor v.ability.id hreach)
  have h3 : decide (usesOf g' v.actor v.ability.id < 1) = false := by
    simp only [decide_eq_false_iff_not, not_lt]
    exact h2
  simp [xshotCheck, h3]

/-- Witness for C7 at a concrete input: in `gC3`, visit 0 is an active
non-passive Roleblocker visit by player 0; after `log_visits` and an
`advance_phase` into the subsequent phase the 1-shot check is `false`
even though the base check returns `true`. -/
theorem oneshot_check_false_after_use_witness :
    xshotCheck (fun _ _ _ => true) "Roleblocker" 1
      (advancePhase (log_visits gC3)) 0 none = false :=
  oneshot_check_false_after_use (fun _ _ _ => true) gC3
    (gC3.visits.getD 0 defaultVisit) (advancePhase (log_visits gC3)) none
    (by decide) (by decide) (by decide) (by decide) (by decide)
    (Relation.ReflTransGen.single (EngineStep.adv (log_visits gC3)))

/-- Claim C6 (amended): when the protect and kill visits are the game's
only visits (no third visit interferes with the protector), the claimed
precedence holds for arbitrary protector `a`, target `t`, killer `k`
and player list: the protect visit ends SUCCESS, the kill visit ends
FAILURE, and the target's death causes are unchanged. -/
theorem protect_defeats_kill (a t k : Nat) (ps : List PlayerS) :
    visitStatusAfter (resolve_game true 2 (gC6gen a t k ps)) 0 = some 1 ∧
      visitStatusAfter (resolve_game true 2 (gC6gen a t k ps)) 1 = some 0 ∧
      deathsAfter (resolve_game true 2 (gC6gen a t k ps)) t =
        some ((ps.getD t defaultPlayer).deathCauses) := by
  have hv : (log_visits (gC6gen a t k ps)).visits = [pVisit a t, kVisit k t] :=
    foldl_logStep_visits _ _
  have hph : (log_visits (gC6gen a t k ps)).phase = GPhase.night :=
    foldl_logStep_phase _ _
  have hd : (log_visits (gC6gen a t k ps)).dayNo = 1 :=
    foldl_logStep_dayNo _ _
  have himm : immediatePass true (log_visits (gC6gen a t k ps)) =
      log_visits (gC6gen a t k ps) := by
    refine immediatePass_no_immediate _ _ fun v hvv => ?_
    rw [hv] at hvv
    simp only [List.mem_cons, List.not_mem_nil, or_false] at hvv
    rcases hvv with h | h <;> (rw [h]; rfl)
  have hmain : attempt_resolve true (log_visits (gC6gen a t k ps)) =
      some ({ log_visits (gC6gen a t k ps) with
                visits := [{ pVisit a t with status := 1 },
                           { kVisit k t with status := 0 }] }, false) := by
    simp [attempt_resolve, resolvePass, sortedIdx, sortKey, resolve_visit,
      do_visit, visitPerform, protectPerform, protectBlockLoop,
      rolestopJuggernautPend, hasActiveVisitorTag, isActive, hv, hph, hd,
      phase_setVisits, docA, mkillA, pVisit, kVisit, List.range_succ]
  have hinv : investigatePass
      ({ log_visits (gC6gen a t k ps) with
          visits := [{ pVisit a t with status := 1 },
                     { kVisit k t with status := 0 }] }) =
      { log_visits (gC6gen a t k ps) with
          visits := [{ pVisit a t with status := 1 },
                     { kVisit k t with status := 0 }] } := by
    refine investigatePass_no_investigate _ fun v hvv => ?_
    simp only [List.mem_cons, List.not_mem_nil, or_false] at hvv
    rcases hvv with h | h <;> (rw [h]; rfl)
  have hloop2 : resolveLoop true 2 (log_visits (gC6gen a t k ps)) =
      ResolveOut.finished
        ({ log_visits (gC6gen a t k ps) with
            visits := [{ pVisit a t with status := 1 },
                       { kVisit k t with status := 0 }] }) := by
    rw [show (2 : Nat) = 1 + 1 from rfl, resolveLoop_succ, hmain]
  have hgame : resolve_game true 2 (gC6gen a t k ps) =
      ResolveOut.finished
        ({ log_visits (gC6gen a t k ps) with
            visits := [{ pVisit a t with status := 1 },
                       { kVisit k t with status := 0 }] }) := by
    simp only [resolve_game]
    rw [himm, hloop2]
    exact congrArg ResolveOut.finished hinv
  rw [hgame]
  refine ⟨rfl, rfl, ?_⟩
  show some ((log_visits (gC6gen a t k ps)).players.getD t defaultPlayer).deathCauses = _
  exact congrArg some (foldl_logStep_deaths (gC6gen a t k ps).visits (gC6gen a t k ps) t)

/-- Claim C5 (confirmed): for every finite edge list,
`nodes_in_cycles` returns exactly the nodes lying on at least one
directed cycle, and the returned set depends only on the set of edges,
not on their iteration order.  (The embedding is a pure function of the
edge list, so the no-input-mutation part of the claim holds by
construction.) -/
theorem nodes_in_cycles_correct (edges edges' : List (α × α)) (u : α)
    (hperm : ∀ e, e ∈ edges ↔ e ∈ edges') :
    (u ∈ nodes_in_cycles edges ↔ OnCycle edges u) ∧
    (u ∈ nodes_in_cycles edges ↔ u ∈ nodes_in_cycles edges') := by
  refine ⟨mem_nic_iff edges u, ?_⟩
  rw [mem_nic_iff edges u, mem_nic_iff edges' u]
  exact onCycle_congr edges edges' hperm u

theorem nodes_in_cycles_correct_witness :
    (∀ e : Nat × Nat, e ∈ [(0, 1), (1, 0)] ↔ e ∈ [(1, 0), (0, 1)]) ∧
    ((0 ∈ nodes_in_cycles [(0, 1), (1, 0)] ↔ OnCycle [(0, 1), (1, 0)] 0) ∧
      (0 ∈ nodes_in_cycles [(0, 1), (1, 0)] ↔
        0 ∈ nodes_in_cycles [(1, 0), (0, 1)])) :=
  have hperm : ∀ e : Nat × Nat, e ∈ [(0, 1), (1, 0)] ↔ e ∈ [(1, 0), (0, 1)] := by
    intro e
    simp only [List.mem_cons, List.not_mem_nil, or_false]
    tauto
  ⟨hperm, nodes_in_cycles_correct [(0, 1), (1, 0)] [(1, 0), (0, 1)] 0 hperm⟩

/-- Claim C2 (amended): if every roleblock-tagged visit of the game is
non-passive and not `unstoppable` (`Hgood`), then each continuing
iteration of the `resolve_game` loop strictly decreases the PENDING
count, so the loop cannot run forever: with any fuel bound above the
initial PENDING count it returns normally or with the deadlock error,
never exhausting the bound.  (Without `Hgood` the loop can run forever,
as the separate counterexample shows.) -/
theorem resolve_loop_terminates (la : Bool) (fuel : Nat) (g : GameS)
    (hH : Hgood g) (hfuel : pendingCount g < fuel) :
    resolveLoop la fuel g ≠ ResolveOut.outOfFuel :=
  resolveLoop_no_fuel_out la fuel g hH hfuel

theorem resolve_loop_terminates_witness :
    Hgood gC3 ∧ pendingCount gC3 < 3 ∧
      resolveLoop false 3 gC3 ≠ ResolveOut.outOfFuel :=
  have h1 : Hgood gC3 := by decide
  have h2 : pendingCount gC3 < 3 := by decide
  ⟨h1, h2, resolve_loop_terminates false 3 gC3 h1 h2⟩

end Mafia
